import Mathlib

/-! # Question-bank assistant: validator, CSV import and export, answer normalisers, wrong book, option editing

A shallow embedding of `electron/validation/index.cjs`, `electron/csv/index.cjs`,
the normalisers of the AI parse result and the threshold setting in
`electron/main.cjs`, the fill and true/false branches of the JSON import in
`src/pages/AiImport.jsx`, the wrong book and `deleteBank` of
`electron/database/index.cjs` and `removeOption` of `src/pages/ManualEntry.jsx`
and `src/components/QuestionEditDialog.jsx`, followed by the properties
established about them.

JavaScript values are embedded as the inductive type `JsVal`; a JavaScript
function that may throw returns an `Option`, where `none` stands for a thrown
`TypeError`.  Strings are Lean strings (sequences of Unicode scalar values);
numbers are the integers, and rational numbers for the threshold setting.
-/

namespace QuestionBank

/-! ## JavaScript values -/

/-- JavaScript values as the validator can receive them: the primitives,
arrays, plain records (own string-keyed data properties, first binding of a
key wins), and `native name callable`, a built-in object that is reached
through the prototype chain of a plain object (`Object.prototype` itself when
`callable` is false, one of its methods otherwise). -/
inductive JsVal where
  | undefined
  | null
  | bool (b : Bool)
  | num (n : Int)
  | str (s : String)
  | arr (items : List JsVal)
  | obj (fields : List (String × JsVal))
  | native (name : String) (callable : Bool)

namespace JsVal

/-- ToBoolean: what `!v` negates. -/
def truthy : JsVal → Bool
  | undefined => false
  | null => false
  | bool b => b
  | num n => n != 0
  | str s => s != ""
  | arr _ => true
  | obj _ => true
  | native _ _ => true

/-- The test `typeof v === 'object'`. -/
def typeofObject : JsVal → Bool
  | null => true
  | arr _ => true
  | obj _ => true
  | native _ callable => !callable
  | _ => false

/-- The test `typeof v === 'string'`. -/
def typeofString : JsVal → Bool
  | str _ => true
  | _ => false

/-- The test `v === null || v === undefined`. -/
def nullish : JsVal → Bool
  | undefined => true
  | null => true
  | _ => false

/-- The test `v === s` against a string `s`. -/
def eqStr : JsVal → String → Bool
  | str t, s => t == s
  | _, _ => false

/-- Property read `v.key` for the keys the program reads (`type`, `content`,
`options`, `answer`, `id`, `text`): an own property of a record, otherwise
`undefined` (no prototype has a property of one of these names).  Only used
on values that are neither `null` nor `undefined`. -/
def get (v : JsVal) (key : String) : JsVal :=
  match v with
  | obj fields => (fields.lookup key).getD undefined
  | _ => undefined

mutual
/-- ToString, as applied by a template literal `${v}`.  Records hold data,
not functions, so a plain record whose own property `toString` shadows
`Object.prototype.toString` has no primitive value: OrdinaryToPrimitive skips
the `toString` that is not callable, `valueOf` returns the record itself, and
a TypeError is thrown (`none`).  Arrays are joined with commas. -/
def toStr : JsVal → Option String
  | undefined => some "undefined"
  | null => some "null"
  | bool b => some (if b then "true" else "false")
  | num n => some (toString n)
  | str s => some s
  | arr items => joinStr items
  | obj fields =>
    if fields.any (fun p => p.1 == "toString") then none else some "[object Object]"
  | native name callable =>
    some (if callable then "function " ++ name ++ "() \x7b [native code] \x7d" else "[object Object]")
/-- The function `Array.prototype.join` with the default separator. -/
def joinStr : List JsVal → Option String
  | [] => some ""
  | [x] => elemStr x
  | x :: y :: rest =>
    match elemStr x, joinStr (y :: rest) with
    | some a, some b => some (a ++ "," ++ b)
    | _, _ => none
/-- ToString of an array element inside `join`: `null` and `undefined` give
the empty string. -/
def elemStr : JsVal → Option String
  | undefined => some ""
  | null => some ""
  | bool b => some (if b then "true" else "false")
  | num n => some (toString n)
  | str s => some s
  | arr items => joinStr items
  | obj fields =>
    if fields.any (fun p => p.1 == "toString") then none else some "[object Object]"
  | native name callable =>
    some (if callable then "function " ++ name ++ "() \x7b [native code] \x7d" else "[object Object]")
end

end JsVal

/-! ## Strings -/

/-- The characters removed by `String.prototype.trim`: WhiteSpace and
LineTerminator code points. -/
def isJsSpace (c : Char) : Bool :=
  let n := c.toNat
  n == 0x09 || n == 0x0A || n == 0x0B || n == 0x0C || n == 0x0D || n == 0x20 ||
  n == 0xA0 || n == 0x1680 || (0x2000 ≤ n && n ≤ 0x200A) || n == 0x2028 ||
  n == 0x2029 || n == 0x202F || n == 0x205F || n == 0x3000 || n == 0xFEFF

/-- Trim on character lists. -/
def trimChars (cs : List Char) : List Char :=
  ((cs.dropWhile isJsSpace).reverse.dropWhile isJsSpace).reverse

/-- The method `s.trim()`. -/
def jsTrim (s : String) : String := ⟨trimChars s.data⟩

/-- Split on one separator character, on character lists. -/
def splitChars (sep : Char) : List Char → List (List Char)
  | [] => [[]]
  | c :: cs =>
    if c = sep then [] :: splitChars sep cs
    else
      match splitChars sep cs with
      | [] => [[c]]
      | seg :: segs => (c :: seg) :: segs

/-- The method `s.split(sep)` for a one-character separator. -/
def jsSplit (s : String) (sep : Char) : List String :=
  (splitChars sep s.data).map String.mk

/-- Scan of the global regular expression `/_{2,}/g`: `inMatch` says that the
scan is inside a match that has been counted already (the quantifier is
greedy, so a match extends over the whole run of underscores). -/
def blankScan : Bool → List Char → Nat
  | _, [] => 0
  | true, c :: cs => if c = '_' then blankScan true cs else blankScan false cs
  | false, c :: cs =>
    if c = '_' && cs.head? == some '_' then 1 + blankScan true cs
    else blankScan false cs

/-- The count `(content.match(/_{2,}/g) || []).length`. -/
def blankCount (content : String) : Nat := blankScan false content.data

/-! ## Validation (`electron/validation/index.cjs`) -/

/-- The record `{ valid, errors }`. -/
structure ValidationResult where
  valid : Bool
  errors : List String
  deriving DecidableEq, Repr

/-- The result `{ valid: false, errors }` after one `errors.push(msg)`. -/
def invalid (msg : String) : ValidationResult := ⟨false, [msg]⟩

/-- The result `{ valid: true, errors: [] }`. -/
def valid : ValidationResult := ⟨true, []⟩

/-- Function `validateContent`. -/
def validateContent (content : JsVal) : ValidationResult :=
  if content.nullish || content.eqStr "" then invalid "题干内容不能为空"
  else
    match content with
    | .str s =>
      if jsTrim s = "" then invalid "题干内容不能仅包含空白字符" else valid
    | _ => invalid "题干内容必须是字符串"

/-- The test `typeof text !== 'string' || text.trim() === ''`. -/
def blankText : JsVal → Bool
  | .str s => jsTrim s == ""
  | _ => true

/-- The loop over `options` shared by `validateSingleChoice` and
`validateMultipleChoice`, from index `i` on: `some none` when every option
passes, `some (some msg)` at the first failing option, `none` when building
the message throws. -/
def validateOptions : Nat → List JsVal → Option (Option String)
  | _, [] => some none
  | i, opt :: rest =>
    if !opt.truthy || !opt.typeofObject || !(opt.get "id").truthy ||
        !(opt.get "text").truthy then
      some (some ("选项 " ++ toString (i + 1) ++ " 格式无效"))
    else if blankText (opt.get "text") then
      match (opt.get "id").toStr with
      | some id => some (some ("选项 " ++ id ++ " 内容不能为空"))
      | none => none
    else validateOptions (i + 1) rest

/-- The test `!answer || typeof answer !== 'string' || answer.trim() === ''`. -/
def blankAnswer (answer : JsVal) : Bool :=
  !answer.truthy || !answer.typeofString || blankText answer

/-- The test `optionIds.includes(answer)` for a string `answer`, where
`optionIds = options.map(opt => opt.id)`. -/
def includesId (options : List JsVal) (answer : String) : Bool :=
  (options.map (fun opt => opt.get "id")).any (fun id => id.eqStr answer)

/-- Function `validateSingleChoice`. -/
def validateSingleChoice (data : JsVal) : Option ValidationResult :=
  match data.get "options" with
  | .arr options =>
    if options.length < 2 then some (invalid "单选题至少需要2个选项")
    else
      match validateOptions 0 options with
      | none => none
      | some (some msg) => some (invalid msg)
      | some none =>
        match data.get "answer" with
        | .str answer =>
          if blankAnswer (.str answer) then some (invalid "单选题必须设置正确答案")
          else if !includesId options answer then some (invalid "答案必须是有效的选项")
          else some valid
        | _ => some (invalid "单选题必须设置正确答案")
  | _ => some (invalid "单选题至少需要2个选项")

/-- The list `answer.split('|').map(a => a.trim()).filter(a => a)`. -/
def answerIds (answer : String) : List String :=
  ((jsSplit answer '|').map jsTrim).filter (fun a => a != "")

/-- The loop `for (const answerId of answerIds)` of `validateMultipleChoice`:
the first answer id that is no option id. -/
def firstUnknownId (options : List JsVal) : List String → Option String
  | [] => none
  | a :: rest => if !includesId options a then some a else firstUnknownId options rest

/-- Function `validateMultipleChoice`. -/
def validateMultipleChoice (data : JsVal) : Option ValidationResult :=
  match data.get "options" with
  | .arr options =>
    if options.length < 2 then some (invalid "多选题至少需要2个选项")
    else
      match validateOptions 0 options with
      | none => none
      | some (some msg) => some (invalid msg)
      | some none =>
        match data.get "answer" with
        | .str answer =>
          if blankAnswer (.str answer) then some (invalid "多选题必须设置正确答案")
          else if (answerIds answer).length < 1 then
            some (invalid "多选题必须至少选择一个正确答案")
          else
            match firstUnknownId options (answerIds answer) with
            | some a => some (invalid ("答案 \"" ++ a ++ "\" 不是有效的选项"))
            | none => some valid
        | _ => some (invalid "多选题必须设置正确答案")
  | _ => some (invalid "多选题至少需要2个选项")

/-- Function `validateBoolean`. -/
def validateBoolean (data : JsVal) : ValidationResult :=
  match data.get "answer" with
  | .str answer =>
    if blankAnswer (.str answer) then invalid "判断题必须设置正确答案"
    else if !(["正确", "错误"].contains answer) then
      invalid "判断题答案必须是\"正确\"或\"错误\""
    else valid
  | _ => invalid "判断题必须设置正确答案"

/-- The loop over `answers` of `validateFillBlank`, from index `i` on: the
message for the first segment that is empty after trimming. -/
def firstEmptySegment : Nat → List String → Option String
  | _, [] => none
  | i, a :: rest =>
    if jsTrim a = "" then some ("第 " ++ toString (i + 1) ++ " 个空的答案不能为空")
    else firstEmptySegment (i + 1) rest

/-- Function `validateFillBlank`.  Calling `content.match` throws when
`content` is not a string. -/
def validateFillBlank (data : JsVal) : Option ValidationResult :=
  match data.get "content" with
  | .str content =>
    if blankCount content = 0 then
      some (invalid "填空题题干中必须包含至少一个空栏标记（__或更多下划线）")
    else
      match data.get "answer" with
      | .str answer =>
        if blankAnswer (.str answer) then some (invalid "填空题必须设置答案")
        else if (jsSplit answer '|').length ≠ blankCount content then
          some (invalid ("答案数量(" ++ toString (jsSplit answer '|').length ++
            ")与空栏数量(" ++ toString (blankCount content) ++ ")不匹配"))
        else
          match firstEmptySegment 0 (jsSplit answer '|') with
          | some msg => some (invalid msg)
          | none => some valid
      | _ => some (invalid "填空题必须设置答案")
  | _ => none

/-- Function `validateShortAnswer`. -/
def validateShortAnswer (data : JsVal) : ValidationResult :=
  let answer := data.get "answer"
  if !answer.nullish && !answer.eqStr "" && !answer.typeofString then
    invalid "答案必须是字符串"
  else valid

/-- Function `validateQuestion`. -/
def validateQuestion (data : JsVal) : Option ValidationResult :=
  if !data.truthy || !data.typeofObject then some (invalid "题目数据无效")
  else
    let contentResult := validateContent (data.get "content")
    if !contentResult.valid then some contentResult
    else
      match data.get "type" with
      | .str "single" => validateSingleChoice data
      | .str "multiple" => validateMultipleChoice data
      | .str "boolean" => some (validateBoolean data)
      | .str "fill" => validateFillBlank data
      | .str "short" => some (validateShortAnswer data)
      | _ => some (invalid "无效的题型")

/-- The candidate is accepted: `validateQuestion` returns `valid: true`. -/
def accepted (data : JsVal) : Bool :=
  match validateQuestion data with
  | some r => r.valid
  | none => false

/-! ## CSV question parser (`electron/csv/index.cjs`) -/

/-- The names of the function-valued properties of `Object.prototype`. -/
def objectPrototypeMethods : List String :=
  ["__defineGetter__", "__defineSetter__", "hasOwnProperty", "__lookupGetter__",
   "__lookupSetter__", "isPrototypeOf", "propertyIsEnumerable", "toString",
   "valueOf", "toLocaleString"]

/-- The read `TYPE_MAP[key]`.  `TYPE_MAP` is an object literal, so a key
that is none of its five own properties is looked up on `Object.prototype`. -/
def TYPE_MAP (key : String) : JsVal :=
  if key = "单选题" then .str "single"
  else if key = "多选题" then .str "multiple"
  else if key = "判断题" then .str "boolean"
  else if key = "填空题" then .str "fill"
  else if key = "简答题" then .str "short"
  else if key = "constructor" then .native "Object" true
  else if key = "__proto__" then .native "Object.prototype" false
  else if objectPrototypeMethods.contains key then .native key true
  else .undefined

/-- An entry `{ row, field, message }` of the error list. -/
structure RowError where
  row : Nat
  field : String
  message : String
  deriving DecidableEq, Repr

/-- An option `{ id, text }` collected from a row. -/
structure OptionCell where
  id : String
  text : String
  deriving DecidableEq, Repr

/-- The record `questionData`; `options` is set for the choice types only. -/
structure QuestionData where
  type : JsVal
  content : String
  answer : String
  analysis : Option String
  options : Option (List OptionCell)

/-- The result of `parseRow`: `{ valid: true, data, errors: [] }` or
`{ valid: false, errors }`. -/
inductive RowResult where
  | ok (data : QuestionData)
  | fail (errors : List RowError)

/-- The field `valid` of a row result. -/
def RowResult.valid : RowResult → Bool
  | .ok _ => true
  | .fail _ => false

/-- The field `errors` of a row result. -/
def RowResult.errors : RowResult → List RowError
  | .ok _ => []
  | .fail errors => errors

/-- The cell map `cell => cell ? cell.trim() : ''`. -/
def trimCell (cell : String) : String :=
  if cell = "" then "" else jsTrim cell

/-- The loop `for (const aid of answerIds)` of `parseRow`: the first answer id
that is not in `optionIds`. -/
def firstInvalidAnswer (optionIds : List String) : List String → Option String
  | [] => none
  | aid :: rest =>
    if !optionIds.contains aid then some aid else firstInvalidAnswer optionIds rest

/-- The list `options` of `parseRow`: the entries of `optionValues` (the
cells `optA` to `optF` under the ids `A` to `F`) whose text is not empty. -/
def collectOptions (cells : List String) : List OptionCell :=
  let optionValues : List OptionCell :=
    [⟨"A", cells.getD 2 ""⟩, ⟨"B", cells.getD 3 ""⟩, ⟨"C", cells.getD 4 ""⟩,
     ⟨"D", cells.getD 5 ""⟩, ⟨"E", cells.getD 6 ""⟩, ⟨"F", cells.getD 7 ""⟩]
  optionValues.filter (fun opt => opt.text != "")

/-- Function `parseRow`.  A column that the row lacks destructures to
`undefined`, which every test of the function treats like the empty string. -/
def parseRow (row : List String) (rowNumber : Nat) : RowResult :=
  let cells := row.map trimCell
  let typeStr := cells.getD 0 ""
  let content := cells.getD 1 ""
  let answer := cells.getD 8 ""
  let analysis := cells.getD 9 ""
  if typeStr = "" then .fail [⟨rowNumber, "题型", "题型不能为空"⟩]
  else
    let type := TYPE_MAP typeStr
    if !type.truthy then .fail [⟨rowNumber, "题型", "无效的题型: " ++ typeStr⟩]
    else if content = "" then .fail [⟨rowNumber, "题干", "题干不能为空"⟩]
    else
      let questionData : QuestionData :=
        ⟨type, content, answer, if analysis = "" then none else some analysis, none⟩
      if type.eqStr "single" || type.eqStr "multiple" then
        let options := collectOptions cells
        if options.length < 2 then .fail [⟨rowNumber, "选项", "选择题至少需要2个选项"⟩]
        else if answer = "" then .fail [⟨rowNumber, "答案", "选择题必须设置答案"⟩]
        else
          let optionIds := options.map (fun o => o.id)
          let answerIds := (jsSplit answer '|').map jsTrim
          match firstInvalidAnswer optionIds answerIds with
          | some aid => .fail [⟨rowNumber, "答案", "答案 \"" ++ aid ++ "\" 不是有效的选项"⟩]
          | none =>
            if type.eqStr "single" && answerIds.length > 1 then
              .fail [⟨rowNumber, "答案", "单选题只能有一个答案"⟩]
            else .ok { questionData with options := some options }
      else if type.eqStr "boolean" then
        if answer = "" then .fail [⟨rowNumber, "答案", "判断题必须设置答案"⟩]
        else if answer ≠ "正确" && answer ≠ "错误" then
          .fail [⟨rowNumber, "答案", "判断题答案必须是\"正确\"或\"错误\""⟩]
        else .ok questionData
      else if type.eqStr "fill" then
        if blankCount content = 0 then
          .fail [⟨rowNumber, "题干", "填空题题干必须包含空栏标记（__或更多下划线）"⟩]
        else if answer = "" then .fail [⟨rowNumber, "答案", "填空题必须设置答案"⟩]
        else if (jsSplit answer '|').length ≠ blankCount content then
          .fail [⟨rowNumber, "答案", "答案数量(" ++ toString (jsSplit answer '|').length ++
            ")与空栏数量(" ++ toString (blankCount content) ++ ")不匹配"⟩]
        else .ok questionData
      else .ok questionData

/-- An entry of `parsed.errors`, the framing errors reported by the CSV
reader. -/
structure PapaError where
  row : Nat
  message : String

/-- The value `parsed` returned by the CSV reader `Papa.parse` (an external
library): the grid of cells and the framing errors. -/
structure PapaResult where
  data : List (List String)
  errors : List PapaError

/-- The record `{ valid, errors, totalRows }` returned by `parseCSV`. -/
structure CsvResult where
  valid : List QuestionData
  errors : List RowError
  totalRows : Int

/-- The row test `row.every(cell => !cell || cell.trim() === '')`. -/
def isBlankRow (row : List String) : Bool :=
  row.all (fun cell => cell == "" || jsTrim cell == "")

/-- The loop `for (let i = startIndex; i < rows.length; i++)` of `parseCSV`,
from index `i` on, over the rows that remain. -/
def parseRows : Nat → List (List String) → CsvResult → CsvResult
  | _, [], result => result
  | i, row :: rest, result =>
    if isBlankRow row then
      parseRows (i + 1) rest { result with totalRows := result.totalRows - 1 }
    else
      match parseRow row (i + 1) with
      | .ok data => parseRows (i + 1) rest { result with valid := result.valid ++ [data] }
      | .fail errors => parseRows (i + 1) rest { result with errors := result.errors ++ errors }

/-- The test `firstRow && firstRow[0] === '题型'`, giving `startIndex`. -/
def startIndex (rows : List (List String)) : Nat :=
  match rows with
  | (cell :: _) :: _ => if cell = "题型" then 1 else 0
  | _ => 0

/-- Function `parseCSV`, from the value returned by `Papa.parse` on. -/
def parseCSV (parsed : PapaResult) : CsvResult :=
  let result : CsvResult :=
    ⟨[], parsed.errors.map (fun err => ⟨err.row + 1, "", "CSV解析错误: " ++ err.message⟩), 0⟩
  let rows := parsed.data
  if rows.length = 0 then result
  else
    parseRows (startIndex rows) (rows.drop (startIndex rows))
      { result with totalRows := (rows.length : Int) - (startIndex rows : Int) }

/-- The question record of a row as the value handed to `validateQuestion`. -/
def QuestionData.toJs (q : QuestionData) : JsVal :=
  .obj ([("type", q.type), ("content", .str q.content), ("answer", .str q.answer),
    ("analysis", match q.analysis with
      | some a => .str a
      | none => .null)] ++
    match q.options with
    | some options =>
      [("options", .arr (options.map (fun o => .obj [("id", .str o.id), ("text", .str o.text)])))]
    | none => [])


/-! ## Answer and option normalisation (`electron/main.cjs`) -/

/-- The uppercase form of one character, as `String.prototype.toUpperCase`
gives it, for the characters whose uppercase form contains an ASCII letter:
the letters `a` to `z` and the characters with a special casing (sharp s
U+00DF, dotless i U+0131, long s U+017F, U+0149, U+01F0, U+1E96 to U+1E9A and
the Latin ligatures U+FB00 to U+FB06).  Every other character is kept as it
is: its uppercase form holds no ASCII letter, no separator and no space, which
is all that the normalisers test. -/
def upperChar (c : Char) : List Char :=
  match c with
  | 'a' => ['A'] | 'b' => ['B'] | 'c' => ['C'] | 'd' => ['D'] | 'e' => ['E']
  | 'f' => ['F'] | 'g' => ['G'] | 'h' => ['H'] | 'i' => ['I'] | 'j' => ['J']
  | 'k' => ['K'] | 'l' => ['L'] | 'm' => ['M'] | 'n' => ['N'] | 'o' => ['O']
  | 'p' => ['P'] | 'q' => ['Q'] | 'r' => ['R'] | 's' => ['S'] | 't' => ['T']
  | 'u' => ['U'] | 'v' => ['V'] | 'w' => ['W'] | 'x' => ['X'] | 'y' => ['Y']
  | 'z' => ['Z']
  | '\u00DF' => ['S', 'S']
  | '\u0131' => ['I']
  | '\u017F' => ['S']
  | '\u0149' => ['\u02BC', 'N']
  | '\u01F0' => ['J', '\u030C']
  | '\u1E96' => ['H', '\u0331']
  | '\u1E97' => ['T', '\u0308']
  | '\u1E98' => ['W', '\u030A']
  | '\u1E99' => ['Y', '\u030A']
  | '\u1E9A' => ['A', '\u02BE']
  | '\uFB00' => ['F', 'F']
  | '\uFB01' => ['F', 'I']
  | '\uFB02' => ['F', 'L']
  | '\uFB03' => ['F', 'F', 'I']
  | '\uFB04' => ['F', 'F', 'L']
  | '\uFB05' => ['S', 'T']
  | '\uFB06' => ['S', 'T']
  | _ => [c]

/-- The method `s.toUpperCase()`. -/
def jsToUpperCase (s : String) : String := ⟨s.data.flatMap upperChar⟩

/-- The lowercase form of one character, as `String.prototype.toLowerCase`
gives it, for the letters `A` to `Z` and the Kelvin sign U+212A, the
characters whose lowercase form is an ASCII letter; every other character is
kept as it is. -/
def lowerChar (c : Char) : Char :=
  match c with
  | 'A' => 'a' | 'B' => 'b' | 'C' => 'c' | 'D' => 'd' | 'E' => 'e'
  | 'F' => 'f' | 'G' => 'g' | 'H' => 'h' | 'I' => 'i' | 'J' => 'j'
  | 'K' => 'k' | 'L' => 'l' | 'M' => 'm' | 'N' => 'n' | 'O' => 'o'
  | 'P' => 'p' | 'Q' => 'q' | 'R' => 'r' | 'S' => 's' | 'T' => 't'
  | 'U' => 'u' | 'V' => 'v' | 'W' => 'w' | 'X' => 'x' | 'Y' => 'y'
  | 'Z' => 'z'
  | '\u212A' => 'k'
  | _ => c

/-- The method `s.toLowerCase()`. -/
def jsToLowerCase (s : String) : String := ⟨s.data.map lowerChar⟩

/-- The character class `[A-Z]`. -/
def isUpperAZ (c : Char) : Bool := 65 ≤ c.toNat && c.toNat ≤ 90

/-- The test `/^[A-Z]+$/.test(s)`. -/
def allUpperAZ (s : String) : Bool := s.data != [] && s.data.all isUpperAZ

/-- The test `/^[A-Z]$/.test(s)`. -/
def oneUpperAZ (s : String) : Bool :=
  match s.data with
  | [c] => isUpperAZ c
  | _ => false

/-- The method `parts.join(sep)` on an array of strings. -/
def jsJoin (sep : String) (parts : List String) : String :=
  ⟨List.intercalate sep.data (parts.map String.data)⟩

/-- The method `s.split('')` on a string of characters of the basic plane:
its characters, each as a string. -/
def jsChars (s : String) : List String := s.data.map (fun c => ⟨[c]⟩)

/-- Scan of `s.replace(/[...]+/g, '|')` for a character class `isSep`:
`inMatch` says that the scan is inside a match, which has been replaced by
`|` already (the quantifier is greedy, so a match extends over the whole run
of characters of the class). -/
def replaceScan (isSep : Char → Bool) : Bool → List Char → List Char
  | _, [] => []
  | inMatch, c :: cs =>
    if isSep c then
      if inMatch then replaceScan isSep true cs else '|' :: replaceScan isSep true cs
    else c :: replaceScan isSep false cs

/-- The character class `[，,、\s]` of `normalizeMultipleAnswer`. -/
def isMultipleSep (c : Char) : Bool :=
  c == '，' || c == ',' || c == '、' || isJsSpace c

/-- The own properties of the object literal `typeMap` of `normalizeAiType`. -/
def aiTypeTable : List (String × String) :=
  [("单选题", "single"), ("单选", "single"), ("single", "single"),
   ("多选题", "multiple"), ("多选", "multiple"), ("multiple", "multiple"),
   ("判断题", "boolean"), ("判断", "boolean"), ("boolean", "boolean"),
   ("填空题", "fill"), ("填空", "fill"), ("fill", "fill"),
   ("简答题", "short"), ("简答", "short"), ("short", "short")]

/-- The read `typeMap[key]` in `normalizeAiType`: an own property, otherwise
a property inherited from `Object.prototype`. -/
def typeMap (key : String) : JsVal :=
  match aiTypeTable.lookup key with
  | some t => .str t
  | none =>
    if key = "constructor" then .native "Object" true
    else if key = "__proto__" then .native "Object.prototype" false
    else if objectPrototypeMethods.contains key then .native key true
    else .undefined

/-- Function `normalizeAiType`.  The property key is the string value of
`type`; computing it throws for a value without a string value. -/
def normalizeAiType (type : JsVal) : Option JsVal :=
  match type.toStr with
  | none => none
  | some key => some (if (typeMap key).truthy then typeMap key else type)

/-- The own enumerable properties that an object spread `{...v}` copies:
the properties of a record, the indexed elements of an array or of a string,
nothing for the other values. -/
def spreadFields : JsVal → List (String × JsVal)
  | .obj fields => fields
  | .arr items => items.enum.map (fun p => (toString p.1, p.2))
  | .str s => s.data.enum.map (fun p => (toString p.1, JsVal.str ⟨[p.2]⟩))
  | _ => []

/-- The callback of `options.map` in `normalizeAiOptions` at index `i`: `null`
for an entry that is no object, otherwise the entry with `id` and `text`
replaced.  `String(...)` throws for a value without a string value. -/
def normalizeAiOption (opt : JsVal) (i : Nat) : Option JsVal :=
  if !opt.truthy || !opt.typeofObject then some .null
  else
    let rawId := if (opt.get "id").nullish then JsVal.str ⟨[Char.ofNat (65 + i)]⟩ else opt.get "id"
    match rawId.toStr with
    | none => none
    | some rawIdStr =>
      let id := jsToUpperCase (jsTrim rawIdStr)
      if (opt.get "text").nullish then
        some (.obj (("id", .str id) :: ("text", .str "") :: spreadFields opt))
      else
        match (opt.get "text").toStr with
        | none => none
        | some text => some (.obj (("id", .str id) :: ("text", .str text) :: spreadFields opt))

/-- The method `options.map((opt, i) => ...)` of `normalizeAiOptions`, from
index `i` on. -/
def mapAiOptions : Nat → List JsVal → Option (List JsVal)
  | _, [] => some []
  | i, opt :: rest =>
    match normalizeAiOption opt i with
    | none => none
    | some o =>
      match mapAiOptions (i + 1) rest with
      | none => none
      | some os => some (o :: os)

/-- Function `normalizeAiOptions`. -/
def normalizeAiOptions (options : JsVal) : Option JsVal :=
  match options with
  | .arr items =>
    match mapAiOptions 0 items with
    | none => none
    | some os => some (.arr (os.filter (fun o => o.truthy)))
  | _ => some options

/-- The method `answer.map(a => String(a).trim().toUpperCase())` of
`normalizeMultipleAnswer`. -/
def mapAnswerTokens : List JsVal → Option (List String)
  | [] => some []
  | a :: rest =>
    match a.toStr with
    | none => none
    | some s =>
      match mapAnswerTokens rest with
      | none => none
      | some ts => some (jsToUpperCase (jsTrim s) :: ts)

/-- The loop `for (const p of parts)` of `normalizeMultipleAnswer`: the list
`letters`. -/
def collectLetters : List String → List String
  | [] => []
  | p :: rest =>
    if oneUpperAZ p then p :: collectLetters rest
    else if allUpperAZ p then jsChars p ++ collectLetters rest
    else collectLetters rest

/-- The filter `letters.filter(x => ...)` of `normalizeMultipleAnswer` with
the set `seen`: an element is kept when it has not been seen before. -/
def uniqFilter (seen : List String) : List String → List String
  | [] => []
  | x :: rest =>
    if seen.contains x then uniqFilter seen rest else x :: uniqFilter (x :: seen) rest

/-- Function `normalizeMultipleAnswer`, on a string `s0 = String(answer)`. -/
def normalizeMultipleString (s0 : String) : String :=
  let s := jsToUpperCase (jsTrim s0)
  if s = "" then s
  else
    let s1 : String := ⟨replaceScan isMultipleSep false s.data⟩
    let s2 : String :=
      if !s1.data.contains '|' && allUpperAZ s1 && s1.data.length > 1 then jsJoin "|" (jsChars s1)
      else s1
    let parts := ((jsSplit s2 '|').map jsTrim).filter (fun p => p != "")
    let letters := collectLetters parts
    let uniq := uniqFilter [] letters
    jsJoin "|" uniq

/-- Function `normalizeMultipleAnswer`. -/
def normalizeMultipleAnswer (answer : JsVal) : Option JsVal :=
  match answer with
  | .arr items =>
    match mapAnswerTokens items with
    | none => none
    | some tokens => some (.str (jsJoin "|" (tokens.filter (fun a => a != ""))))
  | _ =>
    if answer.nullish then some answer
    else
      match answer.toStr with
      | none => none
      | some s0 => some (.str (normalizeMultipleString s0))

/-- Function `normalizeAiAnswer`. -/
def normalizeAiAnswer (type : JsVal) (answer : JsVal) : Option JsVal :=
  if type.eqStr "multiple" then normalizeMultipleAnswer answer
  else if type.eqStr "single" then
    if answer.nullish then some answer
    else
      match answer.toStr with
      | none => none
      | some s => some (.str (jsToUpperCase (jsTrim s)))
  else if type.eqStr "boolean" then
    if answer.nullish then some answer
    else
      match answer.toStr with
      | none => none
      | some s0 =>
        let s := jsTrim s0
        if s = "√" || jsToLowerCase s = "true" then some (.str "正确")
        else if s = "×" || jsToLowerCase s = "false" then some (.str "错误")
        else some (.str s)
  else some answer

/-- Function `normalizeAiQuestion`: `null` for an entry that is no object,
otherwise the entry with `type`, `answer` and, for a choice type, `options`
replaced. -/
def normalizeAiQuestion (q : JsVal) : Option JsVal :=
  if !q.truthy || !q.typeofObject then some .null
  else
    let type :=
      match q.get "type" with
      | .str s => JsVal.str (jsTrim s)
      | t => t
    match normalizeAiType type with
    | none => none
    | some normalizedType =>
      if normalizedType.eqStr "single" || normalizedType.eqStr "multiple" then
        match normalizeAiOptions (q.get "options") with
        | none => none
        | some options =>
          match normalizeAiAnswer normalizedType (q.get "answer") with
          | none => none
          | some answer =>
            some (.obj (("answer", answer) :: ("options", options) ::
              ("type", normalizedType) :: spreadFields q))
      else
        match normalizeAiAnswer normalizedType (q.get "answer") with
        | none => none
        | some answer =>
          some (.obj (("answer", answer) :: ("type", normalizedType) :: spreadFields q))

/-- The method `questions.map(normalizeAiQuestion)`. -/
def mapAiQuestions : List JsVal → Option (List JsVal)
  | [] => some []
  | q :: rest =>
    match normalizeAiQuestion q with
    | none => none
    | some n =>
      match mapAiQuestions rest with
      | none => none
      | some ns => some (n :: ns)

/-- The list `Array.isArray(result?.questions) ? result.questions : []`. -/
def payloadQuestions (result : JsVal) : List JsVal :=
  match result.get "questions" with
  | .arr items => items
  | _ => []

/-- Function `normalizeAiParseResult`: the record `{...result, questions}`. -/
def normalizeAiParseResult (result : JsVal) : Option JsVal :=
  match mapAiQuestions (payloadQuestions result) with
  | none => none
  | some ns => some (.obj (("questions", .arr (ns.filter (fun n => n.truthy))) :: spreadFields result))

/-! ## JSON import (`src/pages/AiImport.jsx`, `handleJsonParse`) -/

/-- The character class `[,，、;；]` of the fill branch. -/
def isFillSep (c : Char) : Bool :=
  c == ',' || c == '，' || c == '、' || c == ';' || c == '；'

/-- The value of `normalizedAnswer` after the normalisation of the fill
branch, for a string `answer` (its initial value `String(answer)` is `answer`
itself) and the number `count` of blanks of the content. -/
def jsonFillAnswer (count : Nat) (answer : String) : String :=
  if count > 1 && !answer.data.contains '|' then ⟨replaceScan isFillSep false answer.data⟩
  else answer

/-- The fill branch of the callback of `handleJsonParse` for the item at
`index` with string content and string answer: the value of `normalizedAnswer`
when the branch completes, the message of the thrown `Error` otherwise. -/
def handleJsonParseFill (index : Nat) (content answer : String) : Except String String :=
  if blankCount content = 0 then
    .error ("第 " ++ toString (index + 1) ++ " 道填空题题干必须包含空栏标记（__或更多下划线）")
  else
    let normalizedAnswer := jsonFillAnswer (blankCount content) answer
    if (jsSplit normalizedAnswer '|').length ≠ blankCount content then
      .error ("第 " ++ toString (index + 1) ++ " 道填空题答案数量(" ++
        toString (jsSplit normalizedAnswer '|').length ++ ")与空栏数量(" ++
        toString (blankCount content) ++ ")不匹配")
    else .ok normalizedAnswer

/-- The array `trueValues` of the boolean branch. -/
def trueValues : List String :=
  ["正确", "对", "true", "True", "TRUE", "是", "yes", "Yes", "YES", "√", "1"]

/-- The array `falseValues` of the boolean branch. -/
def falseValues : List String :=
  ["错误", "错", "false", "False", "FALSE", "否", "no", "No", "NO", "×", "0"]

/-- The test `v === b` against a boolean `b`. -/
def JsVal.eqBool : JsVal → Bool → Bool
  | .bool a, b => a == b
  | _, _ => false

/-- The boolean branch of the callback of `handleJsonParse`: the value of
`normalizedAnswer`, which starts as `String(answer)`. -/
def handleJsonParseBoolean (answer : JsVal) : Option String :=
  match answer.toStr with
  | none => none
  | some s =>
    if answer.eqBool true || trueValues.contains (jsTrim s) then some "正确"
    else if answer.eqBool false || falseValues.contains (jsTrim s) then some "错误"
    else some s

/-! ## Wrong book (`electron/database/index.cjs`) -/

/-- A row of the table `wrong_book`. -/
structure WrongBookEntry where
  questionId : Int
  bankId : Int
  wrongCount : Int
  correctCount : Int
  addedAt : Nat
  lastWrongAt : Nat
  deriving DecidableEq, Repr

/-- The part of the database that the wrong book reads and writes: the ids of
the table `questions` and the rows of the table `wrong_book`. -/
structure Database where
  questionIds : List Int
  wrongBook : List WrongBookEntry
  deriving DecidableEq, Repr

/-- An entry `r` of `results` after `Number(r.questionId)`, `Number(r.bankId)`
and `!!r.isCorrect`; `none` is a number that is not finite. -/
structure PracticeResult where
  questionId : Option Int
  bankId : Option Int
  isCorrect : Bool
  deriving DecidableEq, Repr

/-- Function `cleanupWrongBookOrphans`:
`DELETE FROM wrong_book WHERE question_id NOT IN (SELECT id FROM questions)`. -/
def cleanupWrongBookOrphans (db : Database) : Database :=
  { db with wrongBook := db.wrongBook.filter (fun e => db.questionIds.contains e.questionId) }

/-- The statement `wrongUpsert`: insert `(questionId, bankId, 1, 0, now, now)`,
and on a conflict on `question_id` set `bank_id`, add one to `wrong_count`
and set `last_wrong_at`. -/
def wrongUpsert (book : List WrongBookEntry) (questionId bankId : Int) (now : Nat) :
    List WrongBookEntry :=
  if book.any (fun e => e.questionId == questionId) then
    book.map (fun e =>
      if e.questionId = questionId then
        { e with bankId := bankId, wrongCount := e.wrongCount + 1, lastWrongAt := now }
      else e)
  else book ++ [⟨questionId, bankId, 1, 0, now, now⟩]

/-- The statement `correctUpdate`:
`UPDATE wrong_book SET correct_count = correct_count + 1 WHERE question_id = ?`. -/
def correctUpdate (book : List WrongBookEntry) (questionId : Int) : List WrongBookEntry :=
  book.map (fun e =>
    if e.questionId = questionId then { e with correctCount := e.correctCount + 1 } else e)

/-- The query `SELECT correct_count FROM wrong_book WHERE question_id = ...`:
the value of the first row, if there is one. -/
def selectCorrectCount (book : List WrongBookEntry) (questionId : Int) : Option Int :=
  (book.find? (fun e => e.questionId == questionId)).map (fun e => e.correctCount)

/-- The statement `DELETE FROM wrong_book WHERE question_id = ...`. -/
def deleteWrongBookEntry (book : List WrongBookEntry) (questionId : Int) :
    List WrongBookEntry :=
  book.filter (fun e => e.questionId != questionId)

/-- The body of the loop `for (const r of results || [])` of
`updateWrongBookFromPractice`. -/
def applyPracticeResult (removeThreshold : Int) (now : Nat) (book : List WrongBookEntry)
    (r : PracticeResult) : List WrongBookEntry :=
  match r.questionId, r.bankId with
  | some questionId, some bankId =>
    if questionId ≤ 0 then book
    else if bankId ≤ 0 then book
    else if !r.isCorrect then wrongUpsert book questionId bankId now
    else
      let book1 := correctUpdate book questionId
      match selectCorrectCount book1 questionId with
      | some correctCount =>
        if correctCount ≥ removeThreshold then deleteWrongBookEntry book1 questionId else book1
      | none => book1
  | _, _ => book

/-- Function `updateWrongBookFromPractice` for a numeric `threshold`; `now` is
the value of `datetime('now')` during the call. -/
def updateWrongBookFromPractice (db : Database) (results : List PracticeResult)
    (threshold : Int) (now : Nat) : Database :=
  let db1 := cleanupWrongBookOrphans db
  let removeThreshold := if threshold > 0 then threshold else 3
  { db1 with wrongBook := results.foldl (applyPracticeResult removeThreshold now) db1.wrongBook }

/-! ## Banks (`electron/database/index.cjs`) -/

/-- A row of the table `questions`: its id and the id of its bank. -/
structure QuestionRow where
  id : Int
  bankId : Int
  deriving DecidableEq, Repr

/-- The tables that deleting a bank concerns: the ids of the table
`question_banks`, the rows of the table `questions` and the rows of the table
`wrong_book`. -/
structure BankTables where
  banks : List Int
  questions : List QuestionRow
  wrongBook : List WrongBookEntry
  deriving DecidableEq, Repr

/-- The part of the tables that the wrong book reads and writes. -/
def BankTables.database (s : BankTables) : Database :=
  ⟨s.questions.map (fun q => q.id), s.wrongBook⟩

/-- Function `deleteBank`: `DELETE FROM questions WHERE bank_id = id`, then
`DELETE FROM question_banks WHERE id = id`. -/
def deleteBank (s : BankTables) (id : Int) : BankTables :=
  let s1 := { s with questions := s.questions.filter (fun q => q.bankId != id) }
  { s1 with banks := s1.banks.filter (fun b => b != id) }

/-! ## Settings (`electron/main.cjs`) -/

/-- A JavaScript number: a finite value (every finite double is a rational
number), `NaN`, `Infinity` or `-Infinity`. -/
inductive JsNumber where
  | finite (x : ℚ)
  | nan
  | posInf
  | negInf
  deriving DecidableEq

/-- The test `Number.isFinite(n)`. -/
def JsNumber.isFinite : JsNumber → Bool
  | .finite _ => true
  | _ => false

/-- The test `n <= k` against a finite `k`. -/
def JsNumber.le (n : JsNumber) (k : ℚ) : Bool :=
  match n with
  | .finite x => decide (x ≤ k)
  | .negInf => true
  | _ => false

/-- The test `n > k` against a finite `k`. -/
def JsNumber.gt (n : JsNumber) (k : ℚ) : Bool :=
  match n with
  | .finite x => decide (x > k)
  | .posInf => true
  | _ => false

/-- What a call of the handler leaves: the value of the setting
`wrong_book_threshold` (`none` without a row; the table holds `String(parsed)`,
the decimal form of the number) and the message of the thrown `Error`, if
any. -/
structure ThresholdOutcome where
  setting : Option JsNumber
  error : Option String
  deriving DecidableEq

/-- The handler of `settings:setWrongBookThreshold`, from
`parsed = Number(threshold)` on (for a number `threshold` this is `threshold`
itself), on the stored value `setting`. -/
def setWrongBookThreshold (setting : Option JsNumber) (parsed : JsNumber) : ThresholdOutcome :=
  if !parsed.isFinite || parsed.le 0 || parsed.gt 999 then
    ⟨setting, some "阈值必须是 1-999 的数字"⟩
  else ⟨some parsed, none⟩

/-! ## Removing an option (`src/pages/ManualEntry.jsx`, `src/components/QuestionEditDialog.jsx`) -/

/-- The call `String.fromCharCode(n)` for a code `n` of the basic plane
outside the surrogate range. -/
def fromCharCode (n : Nat) : String := ⟨[Char.ofNat n]⟩

/-- The call `s.charCodeAt(0)` for a string that starts with a character of
the basic plane; `none` is `NaN`, the value for the empty string. -/
def charCodeAt0 (s : String) : Option Nat := s.data.head?.map Char.toNat

/-- The re-indexing `newOptions.map((opt, i) => ({ ...opt, id: String.fromCharCode(65 + i) }))`,
from index `i` on. -/
def reindexFrom : Nat → List OptionCell → List OptionCell
  | _, [] => []
  | i, opt :: rest => { opt with id := fromCharCode (65 + i) } :: reindexFrom (i + 1) rest

/-- The fields of `formData` that `removeOption` reads and writes. -/
structure FormData where
  options : List OptionCell
  answer : String
  answers : List String
  deriving DecidableEq, Repr

/-- The map of the answers of a multiple-choice question in `removeOption` of
the manual-entry form: an answer whose first code lies more than `index`
above 65 becomes the character one code below. -/
def ManualEntry.remapAnswer (index : Nat) (a : String) : String :=
  match charCodeAt0 a with
  | some code => if (code : Int) - 65 > index then fromCharCode (code - 1) else a
  | none => a

/-- Function `removeOption` of the manual-entry form on the state
`(activeTab, formData)`: the next `formData`; `none` stands for the
`TypeError` of reading `id` off a missing option. -/
def ManualEntry.removeOption (activeTab : String) (formData : FormData) (index : Nat) :
    Option FormData :=
  if formData.options.length ≤ 2 then some formData
  else
    match formData.options[index]? with
    | none => none
    | some removed =>
      let removedId := removed.id
      let newOptions := formData.options.eraseIdx index
      let reindexed := reindexFrom 0 newOptions
      let newAnswer :=
        if activeTab = "single" && formData.answer = removedId then "" else formData.answer
      let newAnswers :=
        if activeTab = "multiple" then
          (formData.answers.filter (fun a => a != removedId)).map (ManualEntry.remapAnswer index)
        else formData.answers
      some { formData with options := reindexed, answer := newAnswer, answers := newAnswers }

/-- The index `options.findIndex(o => o.id === id)`; `none` is `-1`. -/
def findOptionIndex (options : List OptionCell) (id : String) : Option Nat :=
  options.findIdx? (fun o => o.id == id)

/-- The map of an answer id in `removeOption` of the edit dialog: an id found
at a position after `index` becomes the letter of the position before. -/
def QuestionEditDialog.remapAnswer (options : List OptionCell) (index : Nat) (id : String) :
    String :=
  match findOptionIndex options id with
  | some oldIndex => if oldIndex > index then fromCharCode (65 + oldIndex - 1) else id
  | none => id

/-- Function `removeOption` of the edit dialog on the state
`(type, options, answer)`: the next options and answer; `none` stands for the
`TypeError` of reading `id` off a missing option (the update of the options
queued before it is left out then). -/
def QuestionEditDialog.removeOption (type : String) (options : List OptionCell)
    (answer : String) (index : Nat) : Option (List OptionCell × String) :=
  let reindexed := reindexFrom 0 (options.eraseIdx index)
  if type = "single" then
    match options[index]? with
    | none => none
    | some removed =>
      if answer = removed.id then some (reindexed, "")
      else some (reindexed, QuestionEditDialog.remapAnswer options index answer)
  else if type = "multiple" then
    match options[index]? with
    | none => none
    | some removed =>
      let answerIds := (jsSplit answer '|').filter (fun id => id != removed.id)
      some (reindexed, jsJoin "|" (answerIds.map (QuestionEditDialog.remapAnswer options index)))
  else some (reindexed, answer)

/-! ## CSV export (`electron/csv/index.cjs`) -/

/-- The read `TYPE_MAP_REVERSE[key]`: an own property of the object literal,
otherwise a property inherited from `Object.prototype`. -/
def TYPE_MAP_REVERSE (key : String) : JsVal :=
  if key = "single" then .str "单选题"
  else if key = "multiple" then .str "多选题"
  else if key = "boolean" then .str "判断题"
  else if key = "fill" then .str "填空题"
  else if key = "short" then .str "简答题"
  else if key = "constructor" then .native "Object" true
  else if key = "__proto__" then .native "Object.prototype" false
  else if objectPrototypeMethods.contains key then .native key true
  else .undefined

/-- The loop `options.forEach(opt => switch (opt.id) ...)` of `questionToRow`
for one of the letters: the text of the last option with that id, and the
empty string without one. -/
def optionColumn (options : List OptionCell) (letter : String) : String :=
  options.foldl (fun cell opt => if opt.id = letter then opt.text else cell) ""

/-- Function `questionToRow` on a record as `parseRow` returns it; `none`
stands for a `TypeError` in the conversion of the type to a property key. -/
def questionToRow (question : QuestionData) : Option (List JsVal) :=
  match question.type.toStr with
  | none => none
  | some key =>
    let typeStr := if (TYPE_MAP_REVERSE key).truthy then TYPE_MAP_REVERSE key else question.type
    let options := question.options.getD []
    some [typeStr, .str question.content,
      .str (optionColumn options "A"), .str (optionColumn options "B"),
      .str (optionColumn options "C"), .str (optionColumn options "D"),
      .str (optionColumn options "E"), .str (optionColumn options "F"),
      .str question.answer, .str (question.analysis.getD "")]

/-- The cell map `cell => cell ? cell.trim() : ''` of `parseRow` on a cell
that is any value: a string as it is (it is trimmed by `parseRow`), the empty
string for a value that is not truthy, and `none`, a `TypeError`, for any other
value, which has no method `trim`. -/
def cellOfValue : JsVal → Option String
  | .str s => some s
  | v => if v.truthy then none else some ""

/-- The cells of a row of values, `none` when the cell map throws. -/
def cellsOfValues : List JsVal → Option (List String)
  | [] => some []
  | v :: rest =>
    match cellOfValue v, cellsOfValues rest with
    | some s, some cells => some (s :: cells)
    | _, _ => none

/-- Function `parseRow` on a row of values, as `questionToRow` returns it. -/
def parseRowOfValues (row : List JsVal) (rowNumber : Nat) : Option RowResult :=
  (cellsOfValues row).map (fun cells => parseRow cells rowNumber)


/-! ## Definitions of the specification and example inputs -/

/-- The lengths of the maximal runs of consecutive underscores of a character
list, in order; `run` is the length of the run that is open at the head. -/
def underscoreRunLengths : Nat → List Char → List Nat
  | run, [] => if run = 0 then [] else [run]
  | run, c :: cs =>
    if c = '_' then underscoreRunLengths (run + 1) cs
    else (if run = 0 then [] else [run]) ++ underscoreRunLengths 0 cs

/-- The number of maximal runs of two or more consecutive underscores, the
count of blanks in the words of the specification. -/
def underscoreRuns (content : String) : Nat :=
  ((underscoreRunLengths 0 content.data).filter (fun n => 2 ≤ n)).length

/-- A candidate whose first option has a record as `id` that shadows
`toString` with `null`, and a text of blanks only:
`{type: 'single', content: '1+1=?', options: [{id: {toString: null}, text: '  '},
{id: 'B', text: '2'}], answer: 'B'}`. -/
def unprintableIdCandidate : JsVal :=
  .obj [("type", .str "single"), ("content", .str "1+1=?"),
    ("options", .arr [.obj [("id", .obj [("toString", .null)]), ("text", .str "  ")],
      .obj [("id", .str "B"), ("text", .str "2")]]),
    ("answer", .str "B")]

/-- An option entry is well formed: it has a non-empty (truthy) `id` and a
`text` that is a string, non-empty after trimming. -/
def wellFormedOption (opt : JsVal) : Prop :=
  (opt.get "id").truthy = true ∧ ∃ text, opt.get "text" = .str text ∧ jsTrim text ≠ ""

/-- A `fill` candidate, the fill-in row of the CSV template as a question:
two blanks and two answers. -/
def fillCandidate : JsVal :=
  .obj [("type", .str "fill"), ("content", .str "HTML的全称是___，CSS的全称是___。"),
    ("answer", .str "HyperText Markup Language|Cascading Style Sheets")]

/-- A `single` candidate: `{type: 'single', content: '2+2=?',
options: [{id: 'A', text: '3'}, {id: 'B', text: '4'}], answer: 'B'}`. -/
def singleCandidate : JsVal :=
  .obj [("type", .str "single"), ("content", .str "2+2=?"),
    ("options", .arr [.obj [("id", .str "A"), ("text", .str "3")],
      .obj [("id", .str "B"), ("text", .str "4")]]),
    ("answer", .str "B")]

/-- A `multiple` candidate with the answer `A|C`. -/
def multipleCandidate : JsVal :=
  .obj [("type", .str "multiple"), ("content", .str "以下哪些是前端框架？"),
    ("options", .arr [.obj [("id", .str "A"), ("text", .str "React")],
      .obj [("id", .str "B"), ("text", .str "Node.js")],
      .obj [("id", .str "C"), ("text", .str "Vue")]]),
    ("answer", .str "A|C")]

/-- A `multiple` candidate whose answer names option `A` twice: `A|A`. -/
def duplicateAnswerCandidate : JsVal :=
  .obj [("type", .str "multiple"), ("content", .str "以下哪些是前端框架？"),
    ("options", .arr [.obj [("id", .str "A"), ("text", .str "React")],
      .obj [("id", .str "B"), ("text", .str "Node.js")]]),
    ("answer", .str "A|A")]

/-- A `boolean` candidate with the answer `错误`. -/
def booleanCandidate : JsVal :=
  .obj [("type", .str "boolean"), ("content", .str "JavaScript是一种强类型语言。"),
    ("answer", .str "错误")]

/-- A row result with the row number of its errors replaced by `n`. -/
def RowResult.withRow (n : Nat) : RowResult → RowResult
  | .ok data => .ok data
  | .fail errors => .fail (errors.map (fun e => ⟨n, e.field, e.message⟩))

/-- The question record of a row when `parseRow` accepts it. -/
def rowData (row : List String) : Option QuestionData :=
  match parseRow row 0 with
  | .ok data => some data
  | .fail _ => none

/-- A row is entirely blank: every cell is empty or whitespace. -/
def blankRow (row : List String) : Bool :=
  row.all (fun cell => jsTrim cell == "")

/-- Row 0 is a header: its first cell equals the header label `题型`. -/
def hasHeader (rows : List (List String)) : Bool :=
  (rows.head?.bind List.head?) == some "题型"

/-- The rows counted by `totalRows`: the rows of the grid that are not
entirely blank, not counting row 0 when it is a header. -/
def countedRows (rows : List (List String)) : List (List String) :=
  (if hasHeader rows then rows.drop 1 else rows).filter (fun row => !blankRow row)

/-- The option cells of a row (columns 3 to 8) that are non-empty after
trimming, in column order, each under the letter of its column. -/
def optionCells (row : List String) : List OptionCell :=
  ((["A", "B", "C", "D", "E", "F"].zip ((row.drop 2).map jsTrim)).filter
    (fun p => p.2 != "")).map (fun p => ⟨p.1, p.2⟩)

/-- The single-choice row of the end-to-end scenario. -/
def scenarioRow : List String := ["单选题", "2+2=?", "3", "4", "", "", "", "", "B", ""]

/-- A five-row grid without header whose row 3 has an invalid type and whose
row 5 has one answer for two blanks. -/
def scenarioGrid : List (List String) :=
  [["单选题", "2+2=?", "3", "4", "", "", "", "", "B", ""],
   ["判断题", "JavaScript是一种强类型语言。", "", "", "", "", "", "", "错误", ""],
   ["连线题", "1+1=?", "", "", "", "", "", "", "2", ""],
   ["简答题", "请简述什么是闭包？", "", "", "", "", "", "", "", ""],
   ["填空题", "HTML的全称是___，CSS的全称是___。", "", "", "", "", "", "", "HyperText", ""]]

/-- A fill-in row with two blanks whose answer `Paris|` has two segments, the
second one empty. -/
def emptySegmentRow : List String :=
  ["填空题", "法国的首都是___，德国的首都是___。", "", "", "", "", "", "", "Paris|", ""]

/-- The list with every element removed that occurred before: the first
occurrences, in their order. -/
def firstOccurrences : List String → List String
  | [] => []
  | x :: rest => x :: (firstOccurrences rest).filter (fun y => y != x)

/-- The pieces of a character list between the characters of the class
`isSep`. -/
def splitWhere (isSep : Char → Bool) : List Char → List (List Char)
  | [] => [[]]
  | c :: cs =>
    if isSep c then [] :: splitWhere isSep cs
    else
      match splitWhere isSep cs with
      | [] => [[c]]
      | seg :: segs => (c :: seg) :: segs

/-- The tokens of a character list that is split on runs of characters of the
class `isSep`: the non-empty pieces. -/
def tokensOf (isSep : Char → Bool) (cs : List Char) : List (List Char) :=
  (splitWhere isSep cs).filter (fun t => t != [])

/-- The separators of a multiple-choice answer: halfwidth and fullwidth comma,
the enumeration comma, whitespace, and `|`. -/
def isAnswerSep (c : Char) : Bool :=
  c == ',' || c == '，' || c == '、' || isJsSpace c || c == '|'

/-- The multiple-choice answer of a string in the words of the specification:
trim and upper-case the input, split it on runs of separators, take the
letters of the tokens that consist of letters `A` to `Z`, keep the first
occurrence of every letter, and join with `|`. -/
def multipleReference (x : String) : String :=
  let s := jsToUpperCase (jsTrim x)
  let letters := (tokensOf isAnswerSep s.data).flatMap
    (fun t => if t.all isUpperAZ then t.map (fun c => String.mk [c]) else [])
  jsJoin "|" (firstOccurrences letters)

/-- An array answer of a multiple-choice question with a repeated token:
`["a", "a"]`. -/
def repeatedTokens : JsVal := .arr [.str "a", .str "a"]

/-- The array answer `["a", "b", "B", "a"]`. -/
def mixedCaseTokens : JsVal := .arr [.str "a", .str "b", .str "B", .str "a"]

/-- The characters that `upperChar` maps to another form. -/
def casedChars : List Char :=
  ['a', 'b', 'c', 'd', 'e', 'f', 'g', 'h', 'i', 'j', 'k', 'l', 'm', 'n', 'o', 'p', 'q', 'r',
   's', 't', 'u', 'v', 'w', 'x', 'y', 'z',
   '\u00DF', '\u0131', '\u017F', '\u0149', '\u01F0', '\u1E96', '\u1E97', '\u1E98', '\u1E99',
   '\u1E9A', '\uFB00', '\uFB01', '\uFB02', '\uFB03', '\uFB04', '\uFB05', '\uFB06']

/-- The maximal runs of a character list with respect to a class `isSep`:
consecutive characters that are all in the class or all outside it. -/
def classRuns (isSep : Char → Bool) : List Char → List (List Char)
  | [] => []
  | c :: cs =>
    match classRuns isSep cs with
    | (d :: run) :: runs =>
      if isSep c == isSep d then (c :: d :: run) :: runs else [c] :: (d :: run) :: runs
    | [] :: runs => [c] :: runs
    | [] => [[c]]

/-- The character list with every maximal run of characters of the class
replaced by one `|`. -/
def collapseRuns (isSep : Char → Bool) (cs : List Char) : List Char :=
  (classRuns isSep cs).flatMap (fun run =>
    match run with
    | d :: _ => if isSep d then ['|'] else run
    | [] => [])

/-- The fill answer of the JSON import in the words of the specification, for
`b` blanks: unchanged when `b = 1`, unchanged when the answer contains `|`,
otherwise every maximal run of the separators `,` `，` `、` `;` `；` replaced by
one `|`. -/
def fillReference (b : Nat) (answer : String) : String :=
  if b = 1 then answer
  else if answer.data.contains '|' then answer
  else ⟨collapseRuns isFillSep answer.data⟩

/-- An option record with a blank id: `{id: " ", text: "x"}`. -/
def blankIdOption : JsVal := .obj [("id", .str " "), ("text", .str "x")]

/-- Two option records, the first without id, the second with the id ` b `:
`[{text: "x"}, {id: " b ", text: "y"}]`. -/
def looseOptions : List JsVal :=
  [.obj [("text", .str "x")], .obj [("id", .str " b "), ("text", .str "y")]]

/-- An entry of the questions list is a structured record: an object (arrays
included), not `null` and not a primitive. -/
def isRecord (q : JsVal) : Bool := q.truthy && q.typeofObject

/-- A payload whose only candidate has an answer record that shadows
`toString`: `{questions: [{type: "single", content: "1+1=?", answer: {toString: null}}]}`. -/
def unprintableAnswerPayload : JsVal :=
  .obj [("questions", .arr [.obj [("type", .str "single"), ("content", .str "1+1=?"),
    ("answer", .obj [("toString", .null)])]])]

/-- A candidate with a type token outside the synonym table:
`{type: "essay", content: "论述题", answer: "略"}`. -/
def essayCandidate : JsVal :=
  .obj [("type", .str "essay"), ("content", .str "论述题"), ("answer", .str "略")]

/-- The payload `{questions: [essayCandidate]}`. -/
def essayPayload : JsVal := .obj [("questions", .arr [essayCandidate])]

/-- The rows of the wrong book for one question. -/
def entriesOf (book : List WrongBookEntry) (questionId : Int) : List WrongBookEntry :=
  book.filter (fun e => e.questionId == questionId)

/-- A practice result for question `q` of bank `b`. -/
def practiceResult (q b : Int) (isCorrect : Bool) : PracticeResult :=
  ⟨some q, some b, isCorrect⟩

/-- A result counts for question `q` when the loop of
`updateWrongBookFromPractice` does not skip it: its question id is `q` and its
bank id is a positive number. -/
def countsFor (q : Int) (r : PracticeResult) : Bool :=
  r.questionId == some q &&
    match r.bankId with
    | some b => decide (0 < b)
    | none => false

/-- The number of correct results that count for question `q`. -/
def correctsFor (q : Int) (results : List PracticeResult) : Nat :=
  (results.filter (fun r => countsFor q r && r.isCorrect)).length

/-- The number of wrong results that count for question `q`. -/
def wrongsFor (q : Int) (results : List PracticeResult) : Nat :=
  (results.filter (fun r => countsFor q r && !r.isCorrect)).length

/-- A row of the wrong book with its timestamps set aside (both set to 0). -/
def WrongBookEntry.withoutTimes (e : WrongBookEntry) : WrongBookEntry :=
  { e with addedAt := 0, lastWrongAt := 0 }

/-- The state invariant of the wrong book for threshold `t`: one row per
question id at most, every wrong count at least 1, every correct count from 0
to `t - 1`. -/
def WrongBookInvariant (t : Int) (book : List WrongBookEntry) : Prop :=
  (book.map (fun e => e.questionId)).Nodup ∧
  ∀ e ∈ book, 1 ≤ e.wrongCount ∧ 0 ≤ e.correctCount ∧ e.correctCount < t

instance (t : Int) (book : List WrongBookEntry) : Decidable (WrongBookInvariant t book) := by
  unfold WrongBookInvariant
  infer_instance

/-- A sequence of calls of `updateWrongBookFromPractice` with one threshold,
from a wrong book on: every call comes with the ids of the table `questions`
at its time, its results and its time. -/
def applyBatches (t : Int) (book : List WrongBookEntry) :
    List (List Int × List PracticeResult × Nat) → List WrongBookEntry
  | [] => book
  | (ids, results, now) :: rest =>
    applyBatches t (updateWrongBookFromPractice ⟨ids, book⟩ results t now).wrongBook rest

/-- Results for question 1 of bank 1: wrong, correct, correct, wrong. -/
def interruptedRun : List PracticeResult :=
  [practiceResult 1 1 false, practiceResult 1 1 true, practiceResult 1 1 true,
   practiceResult 1 1 false]

/-- Two batches for the questions 7 and 8 at the times 100 and 200. -/
def exampleBatches : List (List Int × List PracticeResult × Nat) :=
  [([7, 8], [practiceResult 7 1 false, practiceResult 8 1 false, practiceResult 7 1 true], 100),
   ([7, 8], [practiceResult 7 1 false, practiceResult 8 1 true, practiceResult 8 1 true], 200)]

/-- Two banks with one question each, both questions in the wrong book. -/
def exampleTables : BankTables :=
  ⟨[1, 2], [⟨10, 1⟩, ⟨20, 2⟩], [⟨10, 1, 1, 0, 5, 5⟩, ⟨20, 2, 1, 0, 6, 6⟩]⟩

/-- The text of the option that an id designates: the text of the first option
with that id. -/
def optionText (options : List OptionCell) (id : String) : Option String :=
  (options.find? (fun o => o.id == id)).map (fun o => o.text)

/-- The ids of `n` options lettered contiguously from position `i` on: the
characters with the codes `65 + i`, `65 + i + 1`, ... (`A`, `B`, `C`, ... for
`i = 0`). -/
def letterIds (i n : Nat) : List String :=
  (List.range' i n).map (fun j => fromCharCode (65 + j))

/-- The options `A` to `D` with the texts `a` to `d`. -/
def fourOptions : List OptionCell := [⟨"A", "a"⟩, ⟨"B", "b"⟩, ⟨"C", "c"⟩, ⟨"D", "d"⟩]

/-- Export followed by import of one record: `parseRow(questionToRow(q), n)`;
`none` when one of the two calls throws. -/
def roundTrip (q : QuestionData) (rowNumber : Nat) : Option RowResult :=
  (questionToRow q).bind (fun row => parseRowOfValues row rowNumber)

/-- A row whose type cell is the name of a property that every object
inherits: `["constructor", "1+1=?", "", "", "", "", "", "", "2", ""]`. -/
def inheritedTypeRow : List String :=
  ["constructor", "1+1=?", "", "", "", "", "", "", "2", ""]


/-! # Properties -/

/-! ## Strings -/

theorem trimChars_eq_nil_iff (cs : List Char) :
    trimChars cs = [] ↔ ∀ c ∈ cs, isJsSpace c = true := by
  unfold trimChars
  rw [List.reverse_eq_nil_iff, List.dropWhile_eq_nil_iff]
  constructor
  · intro h
    have hnil : cs.dropWhile isJsSpace = [] := by
      cases hd : cs.dropWhile isJsSpace with
      | nil => rfl
      | cons x xs =>
        have hx : isJsSpace x = true := h x (by simp [hd])
        have hx2 := List.head_dropWhile_not isJsSpace cs (by simp [hd])
        simp [hd, hx] at hx2
    exact List.dropWhile_eq_nil_iff.mp hnil
  · intro h x hx
    have hnil := List.dropWhile_eq_nil_iff.mpr h
    simp [hnil] at hx

theorem jsTrim_eq_empty_iff (s : String) :
    jsTrim s = "" ↔ ∀ c ∈ s.data, isJsSpace c = true := by
  rw [← trimChars_eq_nil_iff]
  unfold jsTrim
  constructor
  · intro h
    have := congrArg String.data h
    simpa using this
  · intro h
    rw [h]

theorem splitChars_ne_nil (sep : Char) (cs : List Char) : splitChars sep cs ≠ [] := by
  induction cs with
  | nil => simp [splitChars]
  | cons c cs ih =>
    unfold splitChars
    split
    · simp
    · split <;> simp

theorem splitChars_of_not_mem (sep : Char) (cs : List Char) (h : sep ∉ cs) :
    splitChars sep cs = [cs] := by
  induction cs with
  | nil => simp [splitChars]
  | cons c cs ih =>
    have hc : c ≠ sep := fun e => h (by simp [e])
    have hcs : sep ∉ cs := fun e => h (by simp [e])
    simp [splitChars, hc, ih hcs]


/-! ## The validator: shape of the result -/

theorem validateOptions_none (opts : List JsVal) (i : Nat)
    (h : validateOptions i opts = none) :
    ∃ opt ∈ opts, (opt.get "id").toStr = none := by
  induction opts generalizing i with
  | nil => simp [validateOptions] at h
  | cons opt rest ih =>
    unfold validateOptions at h
    split at h
    · simp at h
    · split at h
      · split at h
        · simp at h
        · rename_i hnone
          exact ⟨opt, by simp, hnone⟩
      · obtain ⟨o, ho, hs⟩ := ih _ h
        exact ⟨o, by simp [ho], hs⟩

/-- Whenever `validateQuestion` returns, the result is `{valid: true, errors: []}`
or `{valid: false, errors: [msg]}` with exactly one message. -/
theorem validateQuestion_result_shape (d : JsVal) (r : ValidationResult)
    (h : validateQuestion d = some r) : r = valid ∨ ∃ msg, r = invalid msg := by
  unfold validateQuestion at h
  split at h
  · exact Or.inr ⟨_, (Option.some.inj h).symm⟩
  · simp only at h
    split at h
    · rename_i hc
      have := Option.some.inj h
      subst this
      unfold validateContent at hc ⊢
      split
      · exact Or.inr ⟨_, rfl⟩
      · split
        · split
          · exact Or.inr ⟨_, rfl⟩
          · exact Or.inl rfl
        · exact Or.inr ⟨_, rfl⟩
    · split at h
      · unfold validateSingleChoice at h
        repeat' split at h
        all_goals first
          | exact Or.inr ⟨_, (Option.some.inj h).symm⟩
          | exact Or.inl (Option.some.inj h).symm
          | simp at h
      · unfold validateMultipleChoice at h
        repeat' split at h
        all_goals first
          | exact Or.inr ⟨_, (Option.some.inj h).symm⟩
          | exact Or.inl (Option.some.inj h).symm
          | simp at h
      · unfold validateBoolean at h
        repeat' split at h
        all_goals first
          | exact Or.inr ⟨_, (Option.some.inj h).symm⟩
          | exact Or.inl (Option.some.inj h).symm
      · unfold validateFillBlank at h
        repeat' split at h
        all_goals first
          | exact Or.inr ⟨_, (Option.some.inj h).symm⟩
          | exact Or.inl (Option.some.inj h).symm
          | simp at h
      · unfold validateShortAnswer at h
        simp only at h
        repeat' split at h
        all_goals first
          | exact Or.inr ⟨_, (Option.some.inj h).symm⟩
          | exact Or.inl (Option.some.inj h).symm
      · exact Or.inr ⟨_, (Option.some.inj h).symm⟩


/-! ## Fill-in questions -/

theorem blankScan_runs (cs : List Char) :
    ((underscoreRunLengths 0 cs).filter (fun n => 2 ≤ n)).length = blankScan false cs ∧
    ((underscoreRunLengths 1 cs).filter (fun n => 2 ≤ n)).length = blankScan false ('_' :: cs) ∧
    ∀ k, 2 ≤ k →
      ((underscoreRunLengths k cs).filter (fun n => 2 ≤ n)).length = 1 + blankScan true cs := by
  induction cs with
  | nil =>
    refine ⟨by simp [underscoreRunLengths, blankScan], by simp [underscoreRunLengths, blankScan], ?_⟩
    intro k hk
    have : k ≠ 0 := by omega
    simp [underscoreRunLengths, blankScan, this, hk]
  | cons c cs ih =>
    obtain ⟨ih0, ih1, ih2⟩ := ih
    by_cases hc : c = '_'
    · subst hc
      refine ⟨?_, ?_, ?_⟩
      · simpa [underscoreRunLengths] using ih1
      · have := ih2 2 (le_refl 2)
        simpa [underscoreRunLengths, blankScan] using this
      · intro k hk
        have := ih2 (k + 1) (by omega)
        simpa [underscoreRunLengths, blankScan] using this
    · refine ⟨?_, ?_, ?_⟩
      · simpa [underscoreRunLengths, blankScan, hc] using ih0
      · simpa [underscoreRunLengths, blankScan, hc] using ih0
      · intro k hk
        have hk0 : k ≠ 0 := by omega
        simp [underscoreRunLengths, blankScan, hc, hk0, hk, ih0]
        omega

theorem blankCount_eq_underscoreRuns (content : String) :
    blankCount content = underscoreRuns content :=
  ((blankScan_runs content.data).1).symm


theorem get_str_isRecord (d : JsVal) (key s : String) (h : d.get key = .str s) :
    d.truthy = true ∧ d.typeofObject = true := by
  cases d <;> simp [JsVal.get] at h
  simp [JsVal.truthy, JsVal.typeofObject]

theorem jsTrim_empty : jsTrim "" = "" := by decide

theorem validateContent_of_nonblank (content : String) (hnb : jsTrim content ≠ "") :
    validateContent (.str content) = valid := by
  have hne : content ≠ "" := fun e => hnb (by rw [e]; exact jsTrim_empty)
  simp [validateContent, JsVal.nullish, JsVal.eqStr, hne, hnb]

/-- With a non-blank string content, `validateQuestion` is the dispatch on
`type`. -/
theorem validateQuestion_dispatch (d : JsVal) (content : String)
    (hc : d.get "content" = .str content) (hnb : jsTrim content ≠ "") :
    validateQuestion d =
      match d.get "type" with
      | .str "single" => validateSingleChoice d
      | .str "multiple" => validateMultipleChoice d
      | .str "boolean" => some (validateBoolean d)
      | .str "fill" => validateFillBlank d
      | .str "short" => some (validateShortAnswer d)
      | _ => some (invalid "无效的题型") := by
  obtain ⟨h1, h2⟩ := get_str_isRecord d _ _ hc
  unfold validateQuestion
  simp [h1, h2, hc, validateContent_of_nonblank content hnb, valid]

theorem firstEmptySegment_eq_none_iff (i : Nat) (l : List String) :
    firstEmptySegment i l = none ↔ ∀ a ∈ l, jsTrim a ≠ "" := by
  induction l generalizing i with
  | nil => simp [firstEmptySegment]
  | cons a rest ih =>
    unfold firstEmptySegment
    by_cases h : jsTrim a = ""
    · simp [h]
    · simp [h, ih]

theorem blankAnswer_str (a : String) : blankAnswer (.str a) = false ↔ jsTrim a ≠ "" := by
  by_cases h : a = ""
  · subst h
    simp [blankAnswer, JsVal.truthy, jsTrim_empty]
  · simp [blankAnswer, JsVal.truthy, JsVal.typeofString, blankText, h]

theorem isJsSpace_bar : isJsSpace '|' = false := by decide

theorem jsTrim_ne_empty_of_segments (a : String)
    (h : ∀ seg ∈ jsSplit a '|', jsTrim seg ≠ "") : jsTrim a ≠ "" := by
  intro he
  have hall := (jsTrim_eq_empty_iff a).mp he
  have hbar : '|' ∉ a.data := fun hm => by
    have := hall _ hm
    rw [isJsSpace_bar] at this
    exact Bool.noConfusion this
  have hs : jsSplit a '|' = [a] := by
    simp [jsSplit, splitChars_of_not_mem _ _ hbar]
  exact h a (by simp [hs]) he

theorem underscoreRunLengths_replicate (n k : Nat) (hk : k + n ≠ 0) :
    underscoreRunLengths k (List.replicate n '_') = [k + n] := by
  induction n generalizing k with
  | zero => simp [underscoreRunLengths, Nat.add_zero] at hk ⊢; exact hk
  | succ n ih =>
    simp only [List.replicate_succ, underscoreRunLengths, if_true]
    rw [ih (k + 1) (by omega)]
    congr 1
    omega

theorem underscoreRuns_replicate (n : Nat) (h : 2 ≤ n) :
    underscoreRuns ⟨List.replicate n '_'⟩ = 1 := by
  unfold underscoreRuns
  rw [underscoreRunLengths_replicate n 0 (by omega)]
  simp [h]

/-- C2. For every candidate of type `fill` whose content is a non-blank string,
`validateQuestion` accepts it if and only if the content holds at least one
maximal run of two or more consecutive underscores, the answer is a string
whose number of `|`-separated segments equals that number of runs, and every
segment is non-empty after trimming.  The count used by the code (the matches
of `/_{2,}/g`) is that number of runs; a single underscore is no run, and a
run of any length from two on counts once. -/
theorem validateQuestion_fill_iff (d : JsVal) (content : String)
    (htype : d.get "type" = .str "fill") (hcontent : d.get "content" = .str content)
    (hnb : jsTrim content ≠ "") :
    blankCount content = underscoreRuns content ∧
    (accepted d = true ↔
      1 ≤ underscoreRuns content ∧
      ∃ answer, d.get "answer" = .str answer ∧
        (jsSplit answer '|').length = underscoreRuns content ∧
        ∀ seg ∈ jsSplit answer '|', jsTrim seg ≠ "") ∧
    underscoreRuns "_" = 0 ∧
    ∀ n, 2 ≤ n → underscoreRuns ⟨List.replicate n '_'⟩ = 1 := by
  refine ⟨blankCount_eq_underscoreRuns content, ?_, by decide, underscoreRuns_replicate⟩
  rw [← blankCount_eq_underscoreRuns]
  unfold accepted
  rw [validateQuestion_dispatch d content hcontent hnb, htype]
  simp only [validateFillBlank, hcontent]
  by_cases h0 : blankCount content = 0
  · simp [h0, invalid]
  · have h1 : 1 ≤ blankCount content := Nat.one_le_iff_ne_zero.mpr h0
    simp only [h0, if_false, h1, true_and]
    cases ha : d.get "answer" with
    | str answer =>
      by_cases hb : blankAnswer (.str answer) = true
      · have hne : ¬ jsTrim answer ≠ "" := fun hn => by
          have := (blankAnswer_str answer).mpr hn
          rw [this] at hb
          exact Bool.noConfusion hb
        simp only [hb, if_true, invalid]
        constructor
        · intro h
          exact Bool.noConfusion h
        · rintro ⟨a, hEq, _, hseg⟩
          cases hEq
          exact absurd (jsTrim_ne_empty_of_segments _ hseg) hne
      · simp only [hb]
        by_cases hlen : (jsSplit answer '|').length = blankCount content
        · cases hf : firstEmptySegment 0 (jsSplit answer '|') with
          | none =>
            have := (firstEmptySegment_eq_none_iff 0 _).mp hf
            simp [hlen, valid]
            exact this
          | some msg =>
            have hn : ¬ ∀ a ∈ jsSplit answer '|', jsTrim a ≠ "" := fun hh => by
              have := (firstEmptySegment_eq_none_iff 0 _).mpr hh
              rw [this] at hf
              exact Option.noConfusion hf
            simp [hlen, invalid]
            simpa using hn
        · simp [hlen, invalid]
    | undefined => simp [invalid]
    | null => simp [invalid]
    | bool b => simp [invalid]
    | num n => simp [invalid]
    | arr xs => simp [invalid]
    | obj fs => simp [invalid]
    | native n c => simp [invalid]


/-! ## Choice questions -/

theorem eqStr_eq_true_iff (v : JsVal) (s : String) : v.eqStr s = true ↔ v = .str s := by
  cases v <;> simp [JsVal.eqStr]

theorem includesId_iff (options : List JsVal) (answer : String) :
    includesId options answer = true ↔ ∃ opt ∈ options, opt.get "id" = .str answer := by
  simp [includesId, eqStr_eq_true_iff]

@[simp] theorem truthy_undefined : JsVal.undefined.truthy = false := rfl
@[simp] theorem truthy_null : JsVal.null.truthy = false := rfl
@[simp] theorem truthy_str (s : String) : (JsVal.str s).truthy = (s != "") := rfl
@[simp] theorem blankText_str (s : String) : blankText (.str s) = (jsTrim s == "") := rfl

theorem blankText_of_not_str (v : JsVal) (h : ∀ s, v ≠ .str s) : blankText v = true := by
  cases v <;> first | rfl | exact absurd rfl (h _)

theorem validateOptions_cons_ne_of_blankText (i : Nat) (opt : JsVal) (rest : List JsVal)
    (h : blankText (opt.get "text") = true) :
    validateOptions i (opt :: rest) ≠ some none := by
  unfold validateOptions
  split
  · simp
  · split <;> simp

theorem validateOptions_eq_some_none_iff (i : Nat) (opts : List JsVal) :
    validateOptions i opts = some none ↔ ∀ opt ∈ opts, wellFormedOption opt := by
  induction opts generalizing i with
  | nil => simp [validateOptions]
  | cons opt rest ih =>
    by_cases hw : wellFormedOption opt
    · obtain ⟨hid, t, ht, hb⟩ := hw
      have hne : t ≠ "" := fun e => hb (by rw [e]; exact jsTrim_empty)
      have hrec : opt.truthy = true ∧ opt.typeofObject = true := get_str_isRecord opt _ _ ht
      have hw : wellFormedOption opt := ⟨hid, t, ht, hb⟩
      unfold validateOptions
      rw [ht]
      simp [hid, hrec.1, hrec.2, hne, hb, ih, hw]
    · simp only [List.mem_cons, forall_eq_or_imp, hw, false_and, iff_false]
      by_cases hbt : blankText (opt.get "text") = true
      · exact validateOptions_cons_ne_of_blankText i opt rest hbt
      · by_cases hid : (opt.get "id").truthy = true
        · exfalso
          cases ht : opt.get "text" with
          | str t =>
            rw [ht] at hbt
            exact hw ⟨hid, t, ht, by simpa using hbt⟩
          | undefined => rw [ht] at hbt; exact hbt rfl
          | null => rw [ht] at hbt; exact hbt rfl
          | bool b => rw [ht] at hbt; exact hbt rfl
          | num n => rw [ht] at hbt; exact hbt rfl
          | arr xs => rw [ht] at hbt; exact hbt rfl
          | obj fs => rw [ht] at hbt; exact hbt rfl
          | native n c => rw [ht] at hbt; exact hbt rfl
        · unfold validateOptions
          simp [hid]


/-- C3. For every candidate of type `single` whose content is a non-blank
string, `validateQuestion` accepts it if and only if `options` is a list of at
least two entries, each with a non-empty id and a text that is non-empty after
trimming, the answer is a non-blank string, and the answer is the id of some
option. -/
theorem validateQuestion_single_iff (d : JsVal) (content : String)
    (htype : d.get "type" = .str "single") (hcontent : d.get "content" = .str content)
    (hnb : jsTrim content ≠ "") :
    accepted d = true ↔
      ∃ options, d.get "options" = .arr options ∧ 2 ≤ options.length ∧
        (∀ opt ∈ options, wellFormedOption opt) ∧
        ∃ answer, d.get "answer" = .str answer ∧ jsTrim answer ≠ "" ∧
          ∃ opt ∈ options, opt.get "id" = .str answer := by
  unfold accepted
  rw [validateQuestion_dispatch d content hcontent hnb, htype]
  simp only [validateSingleChoice]
  cases ho : d.get "options" with
  | arr options =>
    simp only [JsVal.arr.injEq, exists_eq_left']
    by_cases hlen : options.length < 2
    · have : ¬ 2 ≤ options.length := by omega
      simp [hlen, invalid, this]
    · have hlen2 : 2 ≤ options.length := by omega
      simp only [hlen, if_false, hlen2, true_and]
      rw [← validateOptions_eq_some_none_iff 0 options]
      cases hv : validateOptions 0 options with
      | none => simp
      | some m =>
        cases m with
        | some msg => simp [invalid]
        | none =>
          simp only [true_and]
          cases ha : d.get "answer" with
          | str answer =>
            simp only [JsVal.str.injEq, exists_eq_left']
            rw [← includesId_iff]
            by_cases hb : blankAnswer (.str answer) = true
            · have hne : ¬ jsTrim answer ≠ "" := fun hn => by
                have := (blankAnswer_str answer).mpr hn
                rw [this] at hb
                exact Bool.noConfusion hb
              simp [hb, invalid, hne]
            · have hne : jsTrim answer ≠ "" := (blankAnswer_str answer).mp (by simpa using hb)
              by_cases hi : includesId options answer = true
              · simp [hb, hne, hi, valid]
              · simp [hb, hne, hi, invalid]
          | undefined => simp [invalid]
          | null => simp [invalid]
          | bool b => simp [invalid]
          | num n => simp [invalid]
          | arr xs => simp [invalid]
          | obj fs => simp [invalid]
          | native n c => simp [invalid]
  | undefined => simp [invalid]
  | null => simp [invalid]
  | bool b => simp [invalid]
  | num n => simp [invalid]
  | str s => simp [invalid]
  | obj fs => simp [invalid]
  | native n c => simp [invalid]


theorem firstUnknownId_eq_none_iff (options : List JsVal) (l : List String) :
    firstUnknownId options l = none ↔ ∀ a ∈ l, ∃ opt ∈ options, opt.get "id" = .str a := by
  induction l with
  | nil => simp [firstUnknownId]
  | cons a rest ih =>
    unfold firstUnknownId
    by_cases h : includesId options a = true
    · have := (includesId_iff options a).mp h
      simp [h, ih, this]
    · have hn : ¬ ∃ opt ∈ options, opt.get "id" = .str a :=
        fun hh => h ((includesId_iff options a).mpr hh)
      simp only [h, Bool.not_eq_true, List.mem_cons, forall_eq_or_imp, hn, false_and, iff_false]
      simp [h]

/-- Acceptance by `validateQuestion` of a candidate of type `multiple` with a
non-blank string content. -/
theorem multiple_accepted_iff (d : JsVal) (content : String)
    (htype : d.get "type" = .str "multiple") (hcontent : d.get "content" = .str content)
    (hnb : jsTrim content ≠ "") :
    accepted d = true ↔
      ∃ options, d.get "options" = .arr options ∧ 2 ≤ options.length ∧
        (∀ opt ∈ options, wellFormedOption opt) ∧
        ∃ answer, d.get "answer" = .str answer ∧ jsTrim answer ≠ "" ∧
          answerIds answer ≠ [] ∧
          ∀ seg ∈ answerIds answer, ∃ opt ∈ options, opt.get "id" = .str seg := by
  unfold accepted
  rw [validateQuestion_dispatch d content hcontent hnb, htype]
  simp only [validateMultipleChoice]
  cases ho : d.get "options" with
  | arr options =>
    simp only [JsVal.arr.injEq, exists_eq_left']
    by_cases hlen : options.length < 2
    · have : ¬ 2 ≤ options.length := by omega
      simp [hlen, invalid, this]
    · have hlen2 : 2 ≤ options.length := by omega
      simp only [hlen, if_false, hlen2, true_and]
      rw [← validateOptions_eq_some_none_iff 0 options]
      cases hv : validateOptions 0 options with
      | none => simp
      | some m =>
        cases m with
        | some msg => simp [invalid]
        | none =>
          simp only [true_and]
          cases ha : d.get "answer" with
          | str answer =>
            simp only [JsVal.str.injEq, exists_eq_left']
            rw [← firstUnknownId_eq_none_iff]
            by_cases hb : blankAnswer (.str answer) = true
            · have hne : ¬ jsTrim answer ≠ "" := fun hn => by
                have := (blankAnswer_str answer).mpr hn
                rw [this] at hb
                exact Bool.noConfusion hb
              simp [hb, invalid, hne]
            · have hne : jsTrim answer ≠ "" := (blankAnswer_str answer).mp (by simpa using hb)
              by_cases hl : (answerIds answer).length < 1
              · have hnil : answerIds answer = [] := List.length_eq_zero.mp (by omega)
                simp [hb, hne, hl, hnil, invalid]
              · have hnn : answerIds answer ≠ [] := fun e => hl (by simp [e])
                cases hf : firstUnknownId options (answerIds answer) with
                | none => simp [hb, hne, hl, hnn, valid]
                | some a => simp [hb, hne, hl, hnn, invalid]
          | undefined => simp [invalid]
          | null => simp [invalid]
          | bool b => simp [invalid]
          | num n => simp [invalid]
          | arr xs => simp [invalid]
          | obj fs => simp [invalid]
          | native n c => simp [invalid]
  | undefined => simp [invalid]
  | null => simp [invalid]
  | bool b => simp [invalid]
  | num n => simp [invalid]
  | str s => simp [invalid]
  | obj fs => simp [invalid]
  | native n c => simp [invalid]


theorem accepted_iff (d : JsVal) :
    accepted d = true ↔ ∃ r, validateQuestion d = some r ∧ r.valid = true := by
  unfold accepted
  cases validateQuestion d <;> simp

/-- An accepted candidate has a non-blank string content. -/
theorem accepted_content (d : JsVal) (h : accepted d = true) :
    ∃ content, d.get "content" = .str content ∧ jsTrim content ≠ "" := by
  obtain ⟨r, hr, hv⟩ := (accepted_iff d).mp h
  unfold validateQuestion at hr
  split at hr
  · cases Option.some.inj hr
    exact absurd hv (by decide)
  · simp only at hr
    split at hr
    · cases Option.some.inj hr
      rename_i hc
      rw [hv] at hc
      exact absurd hc (by decide)
    · rename_i hc
      unfold validateContent at hc
      split at hc
      · exact absurd hc (by decide)
      · split at hc
        · rename_i s heq
          split at hc
          · exact absurd hc (by decide)
          · rename_i hne
            exact ⟨s, heq, hne⟩
        · exact absurd hc (by decide)

/-- C4. For every candidate of type `multiple` whose content is a non-blank
string, `validateQuestion` accepts it if and only if `options` has at least two
well-formed entries, the answer is a non-blank string, the list of trimmed
non-empty `|`-separated segments of the answer is non-empty, and every such
segment is the id of some option. -/
theorem validateQuestion_multiple_iff (d : JsVal) (content : String)
    (htype : d.get "type" = .str "multiple") (hcontent : d.get "content" = .str content)
    (hnb : jsTrim content ≠ "") :
    accepted d = true ↔
      ∃ options, d.get "options" = .arr options ∧ 2 ≤ options.length ∧
        (∀ opt ∈ options, wellFormedOption opt) ∧
        ∃ answer, d.get "answer" = .str answer ∧ jsTrim answer ≠ "" ∧
          answerIds answer ≠ [] ∧
          ∀ seg ∈ answerIds answer, ∃ opt ∈ options, opt.get "id" = .str seg :=
  multiple_accepted_iff d content htype hcontent hnb

/-- C5, as stated: it is not the case that every accepted candidate of type
`multiple` has pairwise distinct `|`-separated answer segments; the candidate
with answer `A|A` is accepted. -/
theorem multiple_answer_not_deduplicated :
    ¬ ∀ (d : JsVal) (answer : String), d.get "type" = .str "multiple" →
        accepted d = true → d.get "answer" = .str answer →
        (jsSplit answer '|').Nodup := by
  intro h
  have hdup := h duplicateAnswerCandidate "A|A" rfl (by decide) rfl
  revert hdup
  decide

/-- C5, amended. Every candidate of type `multiple` that `validateQuestion`
accepts has a string answer with at least one trimmed non-empty `|`-separated
segment, and each such segment is the id of some option of the candidate (the
segments need not be pairwise distinct). -/
theorem multiple_accepted_answer_ids (d : JsVal)
    (htype : d.get "type" = .str "multiple") (hacc : accepted d = true) :
    ∃ options answer, d.get "options" = .arr options ∧ d.get "answer" = .str answer ∧
      answerIds answer ≠ [] ∧
      ∀ seg ∈ answerIds answer, ∃ opt ∈ options, opt.get "id" = .str seg := by
  obtain ⟨content, hcontent, hnb⟩ := accepted_content d hacc
  obtain ⟨options, ho, _, _, answer, ha, _, hne, hall⟩ :=
    (multiple_accepted_iff d content htype hcontent hnb).mp hacc
  exact ⟨options, answer, ho, ha, hne, hall⟩

/-! ## True/false questions -/

/-- C6. For every candidate of type `boolean` whose content is a non-blank
string, `validateQuestion` accepts it if and only if the answer is exactly the
string `正确` or exactly the string `错误`; the synonyms `对`, `true`, `√`, `1`
and the padded form ` 正确 ` are rejected. -/
theorem validateQuestion_boolean_iff (d : JsVal) (content : String)
    (htype : d.get "type" = .str "boolean") (hcontent : d.get "content" = .str content)
    (hnb : jsTrim content ≠ "") :
    (accepted d = true ↔ d.get "answer" = .str "正确" ∨ d.get "answer" = .str "错误") ∧
    ∀ a ∈ ["对", "true", "√", "1", " 正确 "], d.get "answer" = .str a → accepted d = false := by
  have key : accepted d = true ↔ d.get "answer" = .str "正确" ∨ d.get "answer" = .str "错误" := by
    unfold accepted
    rw [validateQuestion_dispatch d content hcontent hnb, htype]
    simp only [validateBoolean]
    cases ha : d.get "answer" with
    | str answer =>
      simp only [JsVal.str.injEq]
      by_cases hb : blankAnswer (.str answer) = true
      · have hne : ¬ jsTrim answer ≠ "" := fun hn => by
          have := (blankAnswer_str answer).mpr hn
          rw [this] at hb
          exact Bool.noConfusion hb
        have h1 : answer ≠ "正确" := fun e => hne (by rw [e]; decide)
        have h2 : answer ≠ "错误" := fun e => hne (by rw [e]; decide)
        simp [hb, invalid, h1, h2]
      · by_cases hm : answer = "正确" ∨ answer = "错误"
        · simp [hb, hm, valid]
        · have hm2 := hm
          rw [not_or] at hm2
          simp [hb, hm, hm2.1, hm2.2, invalid]
    | undefined => simp [invalid]
    | null => simp [invalid]
    | bool b => simp [invalid]
    | num n => simp [invalid]
    | arr xs => simp [invalid]
    | obj fs => simp [invalid]
    | native n c => simp [invalid]
  refine ⟨key, ?_⟩
  intro a ha hans
  cases hacc : accepted d with
  | false => rfl
  | true =>
    exfalso
    rw [hans] at key
    rcases key.mp hacc with h | h
    · have := JsVal.str.inj h
      subst this
      revert ha
      decide
    · have := JsVal.str.inj h
      subst this
      revert ha
      decide


/-! ## The CSV parser -/

theorem parseRow_withRow (row : List String) (n m : Nat) :
    parseRow row m = (parseRow row n).withRow m := by
  unfold parseRow
  simp only []
  generalize (List.map trimCell row).getD 0 "" = typeStr
  generalize (List.map trimCell row).getD 1 "" = content
  generalize (List.map trimCell row).getD 8 "" = answer
  generalize (List.map trimCell row).getD 9 "" = analysis
  by_cases h1 : typeStr = ""
  · simp only [if_pos h1]; rfl
  simp only [if_neg h1]
  by_cases h2 : (!(TYPE_MAP typeStr).truthy) = true
  · simp only [if_pos h2]; rfl
  simp only [if_neg h2]
  by_cases h3 : content = ""
  · simp only [if_pos h3]; rfl
  simp only [if_neg h3]
  by_cases h4 : ((TYPE_MAP typeStr).eqStr "single" || (TYPE_MAP typeStr).eqStr "multiple") = true
  · simp only [if_pos h4]
    split
    · rfl
    · by_cases h5 : answer = ""
      · simp only [if_pos h5]; rfl
      simp only [if_neg h5]
      split
      · rfl
      · split
        · rfl
        · rfl
  simp only [if_neg h4]
  by_cases h6 : (TYPE_MAP typeStr).eqStr "boolean" = true
  · simp only [if_pos h6]
    by_cases h5 : answer = ""
    · simp only [if_pos h5]; rfl
    simp only [if_neg h5]
    split
    · rfl
    · rfl
  simp only [if_neg h6]
  by_cases h7 : (TYPE_MAP typeStr).eqStr "fill" = true
  · simp only [if_pos h7]
    by_cases h8 : blankCount content = 0
    · simp only [if_pos h8]; rfl
    simp only [if_neg h8]
    by_cases h5 : answer = ""
    · simp only [if_pos h5]; rfl
    simp only [if_neg h5]
    split
    · rfl
    · rfl
  simp only [if_neg h7]
  rfl


/-- What `parseRow` returns: one error, or a question record built from the
trimmed cells that passed the checks of its type. -/
theorem parseRow_cases (row : List String) (n : Nat) :
    (∃ e, parseRow row n = .fail [e]) ∨
    ∃ q, parseRow row n = .ok q ∧
      (row.map trimCell).getD 0 "" ≠ "" ∧
      q.type = TYPE_MAP ((row.map trimCell).getD 0 "") ∧ q.type.truthy = true ∧
      q.content = (row.map trimCell).getD 1 "" ∧ q.content ≠ "" ∧
      q.answer = (row.map trimCell).getD 8 "" ∧
      (((q.type.eqStr "single" || q.type.eqStr "multiple") = true ∧
          q.options = some (collectOptions (row.map trimCell)) ∧
          2 ≤ (collectOptions (row.map trimCell)).length ∧ q.answer ≠ "" ∧
          firstInvalidAnswer ((collectOptions (row.map trimCell)).map (fun o => o.id))
            ((jsSplit q.answer '|').map jsTrim) = none ∧
          (q.type.eqStr "single" = true → (jsSplit q.answer '|').length ≤ 1)) ∨
       ((q.type.eqStr "single" || q.type.eqStr "multiple") = false ∧ q.options = none ∧
          q.type.eqStr "boolean" = true ∧ (q.answer = "正确" ∨ q.answer = "错误")) ∨
       ((q.type.eqStr "single" || q.type.eqStr "multiple") = false ∧ q.options = none ∧
          q.type.eqStr "boolean" = false ∧ q.type.eqStr "fill" = true ∧
          blankCount q.content ≠ 0 ∧ q.answer ≠ "" ∧
          (jsSplit q.answer '|').length = blankCount q.content) ∨
       ((q.type.eqStr "single" || q.type.eqStr "multiple") = false ∧ q.options = none ∧
          q.type.eqStr "boolean" = false ∧ q.type.eqStr "fill" = false)) := by
  unfold parseRow
  simp only []
  generalize (List.map trimCell row).getD 0 "" = typeStr
  generalize (List.map trimCell row).getD 1 "" = content
  generalize (List.map trimCell row).getD 8 "" = answer
  generalize (List.map trimCell row).getD 9 "" = analysis
  generalize collectOptions (List.map trimCell row) = options
  by_cases h1 : typeStr = ""
  · simp only [if_pos h1]; exact Or.inl ⟨_, rfl⟩
  simp only [if_neg h1]
  by_cases h2 : (!(TYPE_MAP typeStr).truthy) = true
  · simp only [if_pos h2]; exact Or.inl ⟨_, rfl⟩
  simp only [if_neg h2]
  have h2t : (TYPE_MAP typeStr).truthy = true := by simpa using h2
  by_cases h3 : content = ""
  · simp only [if_pos h3]; exact Or.inl ⟨_, rfl⟩
  simp only [if_neg h3]
  by_cases h4 : ((TYPE_MAP typeStr).eqStr "single" || (TYPE_MAP typeStr).eqStr "multiple") = true
  · simp only [if_pos h4]
    by_cases h9 : options.length < 2
    · simp only [if_pos h9]; exact Or.inl ⟨_, rfl⟩
    simp only [if_neg h9]
    by_cases h5 : answer = ""
    · simp only [if_pos h5]; exact Or.inl ⟨_, rfl⟩
    simp only [if_neg h5]
    cases hf : firstInvalidAnswer (List.map (fun o => o.id) options)
        (List.map jsTrim (jsSplit answer '|')) with
    | some aid => exact Or.inl ⟨_, rfl⟩
    | none =>
      simp only []
      by_cases h10 : ((TYPE_MAP typeStr).eqStr "single" &&
          decide ((List.map jsTrim (jsSplit answer '|')).length > 1)) = true
      · simp only [if_pos h10]; exact Or.inl ⟨_, rfl⟩
      simp only [if_neg h10]
      refine Or.inr ⟨_, rfl, h1, rfl, h2t, rfl, h3, rfl, Or.inl ⟨h4, rfl, by omega, h5, hf, ?_⟩⟩
      intro hs
      simp only [hs, Bool.true_and, decide_eq_true_eq, List.length_map] at h10
      show (jsSplit answer '|').length ≤ 1
      omega
  simp only [if_neg h4]
  have h4f : ((TYPE_MAP typeStr).eqStr "single" || (TYPE_MAP typeStr).eqStr "multiple") = false := by
    simpa using h4
  by_cases h6 : (TYPE_MAP typeStr).eqStr "boolean" = true
  · simp only [if_pos h6]
    by_cases h5 : answer = ""
    · simp only [if_pos h5]; exact Or.inl ⟨_, rfl⟩
    simp only [if_neg h5]
    by_cases h11 : (decide (answer ≠ "正确") && decide (answer ≠ "错误")) = true
    · simp only [if_pos h11]; exact Or.inl ⟨_, rfl⟩
    simp only [if_neg h11]
    refine Or.inr ⟨_, rfl, h1, rfl, h2t, rfl, h3, rfl, Or.inr (Or.inl ⟨h4f, rfl, h6, ?_⟩)⟩
    simp only [Bool.and_eq_true, decide_eq_true_eq, not_and, not_not] at h11
    by_cases hz : answer = "正确"
    · exact Or.inl hz
    · exact Or.inr (h11 hz)
  simp only [if_neg h6]
  have h6f : (TYPE_MAP typeStr).eqStr "boolean" = false := by simpa using h6
  by_cases h7 : (TYPE_MAP typeStr).eqStr "fill" = true
  · simp only [if_pos h7]
    by_cases h8 : blankCount content = 0
    · simp only [if_pos h8]; exact Or.inl ⟨_, rfl⟩
    simp only [if_neg h8]
    by_cases h5 : answer = ""
    · simp only [if_pos h5]; exact Or.inl ⟨_, rfl⟩
    simp only [if_neg h5]
    by_cases h12 : (jsSplit answer '|').length ≠ blankCount content
    · simp only [if_pos h12]; exact Or.inl ⟨_, rfl⟩
    simp only [if_neg h12]
    exact Or.inr ⟨_, rfl, h1, rfl, h2t, rfl, h3, rfl,
      Or.inr (Or.inr (Or.inl ⟨h4f, rfl, h6f, h7, h8, h5, not_not.mp h12⟩))⟩
  simp only [if_neg h7]
  have h7f : (TYPE_MAP typeStr).eqStr "fill" = false := by simpa using h7
  exact Or.inr ⟨_, rfl, h1, rfl, h2t, rfl, h3, rfl, Or.inr (Or.inr (Or.inr ⟨h4f, rfl, h6f, h7f⟩))⟩


theorem trimCell_eq_jsTrim (cell : String) : trimCell cell = jsTrim cell := by
  unfold trimCell
  split
  · rename_i h
    rw [h, jsTrim_empty]
  · rfl

theorem isBlankRow_eq_blankRow (row : List String) : isBlankRow row = blankRow row := by
  unfold isBlankRow blankRow
  congr 1
  funext cell
  by_cases h : cell = ""
  · subst h
    simp [jsTrim_empty]
  · simp [h]

theorem rowData_eq_some_iff (row : List String) (n : Nat) (q : QuestionData) :
    rowData row = some q ↔ parseRow row n = .ok q := by
  unfold rowData
  constructor
  · intro h
    rw [parseRow_withRow row 0 n]
    cases hp : parseRow row 0 with
    | ok d =>
      rw [hp] at h
      cases h
      rfl
    | fail es =>
      rw [hp] at h
      cases h
  · intro h
    rw [parseRow_withRow row n 0, h]
    rfl

theorem rowData_eq_none_iff (row : List String) (n : Nat) :
    rowData row = none ↔ ∃ e, parseRow row n = .fail [e] := by
  constructor
  · intro h
    rcases parseRow_cases row n with hf | ⟨q, hq, _⟩
    · exact hf
    · rw [(rowData_eq_some_iff row n q).mpr hq] at h
      cases h
  · rintro ⟨e, he⟩
    cases hr : rowData row with
    | none => rfl
    | some q =>
      rw [(rowData_eq_some_iff row n q).mp hr] at he
      cases he

theorem rowData_of_blank (row : List String) (h : isBlankRow row = true) :
    rowData row = none := by
  cases hr : rowData row with
  | none => rfl
  | some q =>
    exfalso
    have hp := (rowData_eq_some_iff row 0 q).mp hr
    rcases parseRow_cases row 0 with ⟨e, he⟩ | ⟨q2, _, hne, _⟩
    · rw [hp] at he
      cases he
    · apply hne
      cases row with
      | nil => rfl
      | cons c rest =>
        simp only [isBlankRow, List.all_cons, Bool.and_eq_true, Bool.or_eq_true,
          beq_iff_eq] at h
        simp only [List.map_cons, List.getD_cons_zero]
        rw [trimCell_eq_jsTrim]
        rcases h.1 with h0 | h0
        · rw [h0, jsTrim_empty]
        · exact h0

theorem rowData_of_header (rest : List String) : rowData ("题型" :: rest) = none := by
  cases hr : rowData ("题型" :: rest) with
  | none => rfl
  | some q =>
    exfalso
    have hp := (rowData_eq_some_iff _ 0 q).mp hr
    rcases parseRow_cases ("题型" :: rest) 0 with ⟨e, he⟩ | ⟨q2, _, _, ht, htr, _⟩
    · rw [hp] at he
      cases he
    · simp only [List.map_cons, List.getD_cons_zero] at ht
      have h1 : trimCell "题型" = "题型" := by decide
      have h2 : TYPE_MAP "题型" = .undefined := by rfl
      rw [h1, h2] at ht
      rw [ht] at htr
      exact Bool.noConfusion htr

/-- The loop of `parseCSV`: accepted records are appended in row order, each
rejected row adds one error, each blank row lowers `totalRows` by one. -/
theorem parseRows_spec (rows : List (List String)) (i : Nat) (acc : CsvResult) :
    (parseRows i rows acc).valid =
      acc.valid ++ (rows.filter (fun row => !isBlankRow row)).filterMap rowData ∧
    (parseRows i rows acc).errors.length =
      acc.errors.length +
        ((rows.filter (fun row => !isBlankRow row)).filter
          (fun row => (rowData row).isNone)).length ∧
    (parseRows i rows acc).totalRows =
      acc.totalRows - ((rows.filter isBlankRow).length : Int) := by
  induction rows generalizing i acc with
  | nil => simp [parseRows]
  | cons row rest ih =>
    unfold parseRows
    by_cases hb : isBlankRow row = true
    · simp only [if_pos hb]
      obtain ⟨h1, h2, h3⟩ := ih (i + 1) { acc with totalRows := acc.totalRows - 1 }
      refine ⟨?_, ?_, ?_⟩
      · rw [h1]; simp [hb]
      · rw [h2]; simp [hb]
      · rw [h3]; simp [hb]; omega
    · simp only [if_neg hb]
      have hb2 : isBlankRow row = false := by simpa using hb
      cases hp : parseRow row (i + 1) with
      | ok data =>
        have hd := (rowData_eq_some_iff row (i + 1) data).mpr hp
        obtain ⟨h1, h2, h3⟩ := ih (i + 1) { acc with valid := acc.valid ++ [data] }
        refine ⟨?_, ?_, ?_⟩
        · simp only []; rw [h1]; simp [hb2, hd]
        · simp only []; rw [h2]; simp [hb2, hd]
        · simp only []; rw [h3]; simp [hb2]
      | fail errors =>
        have hd : rowData row = none := (rowData_eq_none_iff row (i + 1)).mpr (by
          rcases parseRow_cases row (i + 1) with hf | ⟨q, hq, _⟩
          · exact hf
          · rw [hp] at hq
            cases hq)
        have hlen : errors.length = 1 := by
          obtain ⟨e, he⟩ := (rowData_eq_none_iff row (i + 1)).mp hd
          rw [hp] at he
          cases he
          rfl
        obtain ⟨h1, h2, h3⟩ := ih (i + 1) { acc with errors := acc.errors ++ errors }
        refine ⟨?_, ?_, ?_⟩
        · simp only []; rw [h1]; simp [hb2, hd]
        · simp only []; rw [h2]; simp [hb2, hd, hlen]; omega
        · simp only []; rw [h3]; simp [hb2]


theorem length_filter_add_filter_not {α : Type} (p : α → Bool) (l : List α) :
    ((l.filter (fun x => !p x)).length : Int) = (l.length : Int) - (l.filter p).length := by
  induction l with
  | nil => simp
  | cons x xs ih =>
    by_cases h : p x = true
    · simp only [List.filter_cons, h, Bool.not_true, Bool.false_eq_true, if_false, if_true,
        List.length_cons, ih]
      push_cast
      omega
    · simp only [List.filter_cons, h, Bool.not_false, Bool.not_eq_true, if_false, if_true,
        List.length_cons, ih]
      have h' : p x = false := by simpa using h
      simp only [h', Bool.not_false, if_true, List.length_cons, Bool.false_eq_true, if_false, ih]
      push_cast
      omega

theorem length_filterMap_add_filter_isNone {α β : Type} (f : α → Option β) (l : List α) :
    (l.filterMap f).length + (l.filter (fun x => (f x).isNone)).length = l.length := by
  induction l with
  | nil => simp
  | cons x xs ih =>
    cases h : f x with
    | none =>
      simp only [List.filterMap_cons, h, List.filter_cons, Option.isNone_none, if_true,
        List.length_cons]
      omega
    | some y =>
      simp only [List.filterMap_cons, h, List.filter_cons, Option.isNone_some,
        Bool.false_eq_true, if_false, List.length_cons]
      omega

theorem drop_startIndex_filter (rows : List (List String)) :
    (rows.drop (startIndex rows)).filter (fun row => !isBlankRow row) = countedRows rows := by
  have hf : (fun row => !isBlankRow row) = (fun row => !blankRow row) := by
    funext row
    rw [isBlankRow_eq_blankRow]
  rw [hf]
  unfold countedRows hasHeader startIndex
  cases rows with
  | nil => simp
  | cons r rest =>
    cases r with
    | nil => simp
    | cons c cs =>
      by_cases h : c = "题型"
      · simp [h]
      · simp [h]

/-- The result of `parseCSV` in terms of the counted rows. -/
theorem parseCSV_spec (rows : List (List String)) (errs : List PapaError) :
    (parseCSV ⟨rows, errs⟩).valid = (countedRows rows).filterMap rowData ∧
    (parseCSV ⟨rows, errs⟩).errors.length =
      errs.length + ((countedRows rows).filter (fun row => (rowData row).isNone)).length ∧
    (parseCSV ⟨rows, errs⟩).totalRows = ((countedRows rows).length : Int) := by
  unfold parseCSV
  simp only []
  by_cases h0 : rows.length = 0
  · have : rows = [] := List.length_eq_zero.mp h0
    subst this
    simp [countedRows, hasHeader]
  · simp only [if_neg h0]
    obtain ⟨h1, h2, h3⟩ := parseRows_spec (rows.drop (startIndex rows)) (startIndex rows)
      { valid := [], errors := errs.map (fun err => ⟨err.row + 1, "", "CSV解析错误: " ++ err.message⟩),
        totalRows := (rows.length : Int) - (startIndex rows : Int) }
    rw [drop_startIndex_filter] at h1 h2
    refine ⟨?_, ?_, ?_⟩
    · rw [h1]; simp
    · rw [h2]; simp
    · have hcount := length_filter_add_filter_not isBlankRow (rows.drop (startIndex rows))
      rw [h3, ← drop_startIndex_filter, hcount]
      have hle : startIndex rows ≤ rows.length := by
        cases rows with
        | nil => simp [startIndex]
        | cons r rest =>
          cases r with
          | nil => simp [startIndex]
          | cons c cs => by_cases hc : c = "题型" <;> simp [startIndex, hc]
      simp only [List.length_drop]
      omega

theorem filterMap_rowData_counted (rows : List (List String)) :
    (countedRows rows).filterMap rowData = rows.filterMap rowData := by
  have hfilter : ∀ l : List (List String),
      (l.filter (fun row => !blankRow row)).filterMap rowData = l.filterMap rowData := by
    intro l
    induction l with
    | nil => rfl
    | cons r rest ih =>
      by_cases hb : blankRow r = true
      · have : rowData r = none := rowData_of_blank r (by rw [isBlankRow_eq_blankRow]; exact hb)
        simp [hb, this, ih]
      · have hb2 : blankRow r = false := by simpa using hb
        simp only [List.filter_cons, hb2, Bool.not_false, if_true, List.filterMap_cons, ih]
  unfold countedRows
  rw [hfilter]
  unfold hasHeader
  cases rows with
  | nil => simp
  | cons r rest =>
    cases r with
    | nil => simp
    | cons c cs =>
      by_cases h : c = "题型"
      · subst h
        simp [rowData_of_header]
      · simp [h]

/-- C8. For every grid of rows without framing errors, the result of `parseCSV`
satisfies `valid.length + errors.length = totalRows`, where `totalRows` is the
number of rows that are not entirely blank, not counting row 0 when its first
cell is the header label; the accepted and the rejected rows among them are
counted by `valid` and `errors`.  In particular a grid of five rows without
header and without blank rows, exactly two of which `parseRow` rejects, yields
`valid.length = 3`, `errors.length = 2` and `totalRows = 5`. -/
theorem parseCSV_row_counts (rows : List (List String)) :
    ((parseCSV ⟨rows, []⟩).valid.length : Int) + (parseCSV ⟨rows, []⟩).errors.length =
      (parseCSV ⟨rows, []⟩).totalRows ∧
    (parseCSV ⟨rows, []⟩).totalRows = ((countedRows rows).length : Int) ∧
    (parseCSV ⟨rows, []⟩).valid.length =
      ((countedRows rows).filter (fun row => (rowData row).isSome)).length ∧
    (parseCSV ⟨rows, []⟩).errors.length =
      ((countedRows rows).filter (fun row => (rowData row).isNone)).length ∧
    (rows.length = 5 → hasHeader rows = false → (∀ row ∈ rows, blankRow row = false) →
      (rows.filter (fun row => (rowData row).isNone)).length = 2 →
      (parseCSV ⟨rows, []⟩).valid.length = 3 ∧ (parseCSV ⟨rows, []⟩).errors.length = 2 ∧
        (parseCSV ⟨rows, []⟩).totalRows = 5) := by
  obtain ⟨h1, h2, h3⟩ := parseCSV_spec rows []
  have hsum := length_filterMap_add_filter_isNone rowData (countedRows rows)
  have hsome : ((countedRows rows).filterMap rowData).length =
      ((countedRows rows).filter (fun row => (rowData row).isSome)).length := by
    generalize countedRows rows = l
    induction l with
    | nil => rfl
    | cons r rest ih =>
      cases h : rowData r with
      | none => simp [h, ih]
      | some q => simp [h, ih]
  simp only [List.length_nil, Nat.zero_add] at h2
  refine ⟨?_, h3, ?_, h2, ?_⟩
  · rw [h1, h2, h3]
    omega
  · rw [h1, hsome]
  · intro hlen hhead hblank hrej
    have hc : countedRows rows = rows := by
      unfold countedRows
      rw [hhead]
      simp only [Bool.false_eq_true, if_false]
      rw [List.filter_eq_self]
      intro row hrow
      simp [hblank row hrow]
    rw [hc] at h1 h2 h3 hsum
    rw [h1, h2, h3]
    omega

/-- C9. CSV batch isolation: for all grids `g1` and `g2` (and whatever framing
errors the reader reports), the valid list of `parseCSV` on `g1 ++ g2` is the
valid list for `g1` followed by the valid list for `g2`; the valid list is the
list of the records of the accepted rows, in row order. -/
theorem parseCSV_valid_append (g1 g2 : List (List String)) (e e1 e2 : List PapaError) :
    (parseCSV ⟨g1 ++ g2, e⟩).valid = (parseCSV ⟨g1, e1⟩).valid ++ (parseCSV ⟨g2, e2⟩).valid ∧
    (parseCSV ⟨g1, e1⟩).valid = g1.filterMap rowData := by
  have key : ∀ (g : List (List String)) (errs : List PapaError),
      (parseCSV ⟨g, errs⟩).valid = g.filterMap rowData := fun g errs => by
    rw [(parseCSV_spec g errs).1, filterMap_rowData_counted]
  exact ⟨by rw [key, key, key, List.filterMap_append], key g1 e1⟩


/-! ## The validator: exceptions and example candidates -/

/-- The only way `validateQuestion` throws: building the message for an option
whose text is blank, when the `id` of that option has no string value. -/
theorem validateQuestion_none (d : JsVal) (h : validateQuestion d = none) :
    ∃ options, d.get "options" = .arr options ∧
      ∃ opt ∈ options, (opt.get "id").toStr = none := by
  unfold validateQuestion at h
  split at h
  · exact Option.noConfusion h
  · simp only at h
    split at h
    · exact Option.noConfusion h
    · rename_i hc
      split at h
      · unfold validateSingleChoice at h
        split at h
        · rename_i options ho
          split at h
          · exact Option.noConfusion h
          · split at h
            · rename_i hv
              exact ⟨options, ho, validateOptions_none options 0 hv⟩
            · exact Option.noConfusion h
            · split at h
              · split at h
                · exact Option.noConfusion h
                · split at h <;> exact Option.noConfusion h
              · exact Option.noConfusion h
        · exact Option.noConfusion h
      · unfold validateMultipleChoice at h
        split at h
        · rename_i options ho
          split at h
          · exact Option.noConfusion h
          · split at h
            · rename_i hv
              exact ⟨options, ho, validateOptions_none options 0 hv⟩
            · exact Option.noConfusion h
            · split at h
              · split at h
                · exact Option.noConfusion h
                · split at h
                  · exact Option.noConfusion h
                  · split at h <;> exact Option.noConfusion h
              · exact Option.noConfusion h
        · exact Option.noConfusion h
      · exact Option.noConfusion h
      · exfalso
        unfold validateFillBlank at h
        split at h
        · repeat' split at h
          all_goals exact Option.noConfusion h
        · rename_i hns
          unfold validateContent at hc
          split at hc
          · exact hc rfl
          · split at hc
            · rename_i s hs
              exact hns s hs
            · exact hc rfl
      · exact Option.noConfusion h
      · exact Option.noConfusion h

/-- C1. The candidate
`{type: 'single', content: '1+1=?', options: [{id: {toString: null}, text: '  '},
{id: 'B', text: '2'}], answer: 'B'}` makes `validateQuestion` throw: no result
is returned, because the message for the blank option text interpolates an
`id` that has no string value. -/
theorem validateQuestion_throws_on_unprintable_id :
    validateQuestion unprintableIdCandidate = none := by
  decide

theorem validateQuestion_fill_iff_witness :
    jsTrim "HTML的全称是___，CSS的全称是___。" ≠ "" ∧
    blankCount "HTML的全称是___，CSS的全称是___。" = 2 ∧
    accepted fillCandidate = true ∧
    ∃ answer, fillCandidate.get "answer" = .str answer ∧
      (jsSplit answer '|').length = underscoreRuns "HTML的全称是___，CSS的全称是___。" ∧
      ∀ seg ∈ jsSplit answer '|', jsTrim seg ≠ "" :=
  ⟨by decide, by decide, by decide,
    (((validateQuestion_fill_iff fillCandidate "HTML的全称是___，CSS的全称是___。" rfl rfl
      (by decide)).2.1).mp (by decide)).2⟩

theorem validateQuestion_single_iff_witness :
    jsTrim "2+2=?" ≠ "" ∧ accepted singleCandidate = true ∧
    ∃ options, singleCandidate.get "options" = .arr options ∧ 2 ≤ options.length ∧
      (∀ opt ∈ options, wellFormedOption opt) ∧
      ∃ answer, singleCandidate.get "answer" = .str answer ∧ jsTrim answer ≠ "" ∧
        ∃ opt ∈ options, opt.get "id" = .str answer :=
  ⟨by decide, by decide,
    (validateQuestion_single_iff singleCandidate "2+2=?" rfl rfl (by decide)).mp (by decide)⟩

theorem validateQuestion_multiple_iff_witness :
    jsTrim "以下哪些是前端框架？" ≠ "" ∧ accepted multipleCandidate = true ∧
    ∃ options, multipleCandidate.get "options" = .arr options ∧ 2 ≤ options.length ∧
      (∀ opt ∈ options, wellFormedOption opt) ∧
      ∃ answer, multipleCandidate.get "answer" = .str answer ∧ jsTrim answer ≠ "" ∧
        answerIds answer ≠ [] ∧
        ∀ seg ∈ answerIds answer, ∃ opt ∈ options, opt.get "id" = .str seg :=
  ⟨by decide, by decide,
    (validateQuestion_multiple_iff multipleCandidate "以下哪些是前端框架？" rfl rfl
      (by decide)).mp (by decide)⟩

theorem multiple_accepted_answer_ids_witness :
    accepted duplicateAnswerCandidate = true ∧
    ∃ options answer, duplicateAnswerCandidate.get "options" = .arr options ∧
      duplicateAnswerCandidate.get "answer" = .str answer ∧ answerIds answer ≠ [] ∧
      ∀ seg ∈ answerIds answer, ∃ opt ∈ options, opt.get "id" = .str seg :=
  ⟨by decide, multiple_accepted_answer_ids duplicateAnswerCandidate rfl (by decide)⟩

theorem validateQuestion_boolean_iff_witness :
    jsTrim "JavaScript是一种强类型语言。" ≠ "" ∧ accepted booleanCandidate = true ∧
    (booleanCandidate.get "answer" = .str "正确" ∨ booleanCandidate.get "answer" = .str "错误") :=
  ⟨by decide, by decide,
    ((validateQuestion_boolean_iff booleanCandidate "JavaScript是一种强类型语言。" rfl rfl
      (by decide)).1).mp (by decide)⟩

/-- C7. The fill-in row `["填空题", "法国的首都是___，德国的首都是___。", "", …, "Paris|", ""]`
is accepted by `parseRow` (two blanks, two `|`-separated segments), and
`validateQuestion` rejects the record that `parseRow` returns for it, because
the second segment is empty. -/
theorem parseRow_accepts_empty_fill_segment :
    ∃ q, parseRow emptySegmentRow 2 = .ok q ∧
      validateQuestion q.toJs = some (invalid "第 2 个空的答案不能为空") :=
  ⟨_, rfl, by decide⟩

theorem parseCSV_row_counts_witness :
    scenarioGrid.length = 5 ∧ hasHeader scenarioGrid = false ∧
    (parseCSV ⟨scenarioGrid, []⟩).valid.length = 3 ∧
    (parseCSV ⟨scenarioGrid, []⟩).errors.length = 2 ∧
    (parseCSV ⟨scenarioGrid, []⟩).totalRows = 5 :=
  ⟨rfl, by decide,
    (parseCSV_row_counts scenarioGrid).2.2.2.2 rfl (by decide) (by decide) (by decide)⟩


/-! ## The options collected from a row -/

theorem filter_optionValues (texts : List String) :
    ([⟨"A", texts.getD 0 ""⟩, ⟨"B", texts.getD 1 ""⟩, ⟨"C", texts.getD 2 ""⟩,
      ⟨"D", texts.getD 3 ""⟩, ⟨"E", texts.getD 4 ""⟩, ⟨"F", texts.getD 5 ""⟩] :
        List OptionCell).filter (fun opt => opt.text != "") =
    ((["A", "B", "C", "D", "E", "F"].zip texts).filter
      (fun p => p.2 != "")).map (fun p => ⟨p.1, p.2⟩) := by
  have step : ∀ (id : String) (t : String) (ids : List String) (ts : List String)
      (l : List OptionCell),
      l.filter (fun opt => opt.text != "") =
        ((ids.zip ts).filter (fun p => p.2 != "")).map (fun p => ⟨p.1, p.2⟩) →
      ((⟨id, t⟩ : OptionCell) :: l).filter (fun opt => opt.text != "") =
        (((id :: ids).zip (t :: ts)).filter (fun p => p.2 != "")).map (fun p => ⟨p.1, p.2⟩) := by
    intro id t ids ts l hl
    by_cases ht : t = ""
    · simp [List.filter_cons, ht, hl]
    · simp [List.filter_cons, ht, hl]
  have pad : ∀ (id : String) (l : List OptionCell),
      l.filter (fun opt => opt.text != "") = [] →
      ((⟨id, ""⟩ : OptionCell) :: l).filter (fun opt => opt.text != "") = [] := by
    intro id l hl
    simp [List.filter_cons, hl]
  rcases texts with _ | ⟨t0, _ | ⟨t1, _ | ⟨t2, _ | ⟨t3, _ | ⟨t4, _ | ⟨t5, rest⟩⟩⟩⟩⟩⟩
  · simp
  · simp only [List.getD_cons_zero, List.getD_cons_succ, List.getD_nil]
    exact step _ _ _ _ _ (by simp)
  · simp only [List.getD_cons_zero, List.getD_cons_succ, List.getD_nil]
    exact step _ _ _ _ _ (step _ _ _ _ _ (by simp))
  · simp only [List.getD_cons_zero, List.getD_cons_succ, List.getD_nil]
    exact step _ _ _ _ _ (step _ _ _ _ _ (step _ _ _ _ _ (by simp)))
  · simp only [List.getD_cons_zero, List.getD_cons_succ, List.getD_nil]
    exact step _ _ _ _ _ (step _ _ _ _ _ (step _ _ _ _ _ (step _ _ _ _ _ (by simp))))
  · simp only [List.getD_cons_zero, List.getD_cons_succ, List.getD_nil]
    exact step _ _ _ _ _ (step _ _ _ _ _ (step _ _ _ _ _ (step _ _ _ _ _
      (step _ _ _ _ _ (by simp)))))
  · simp only [List.getD_cons_zero, List.getD_cons_succ, List.getD_nil]
    exact step _ _ _ _ _ (step _ _ _ _ _ (step _ _ _ _ _ (step _ _ _ _ _
      (step _ _ _ _ _ (step _ _ _ _ _ (by simp))))))

theorem getD_drop_two (cells : List String) (k : Nat) :
    cells.getD (k + 2) "" = (cells.drop 2).getD k "" := by
  rcases cells with _ | ⟨a, _ | ⟨b, rest⟩⟩ <;> simp

theorem collectOptions_eq_optionCells (row : List String) :
    collectOptions (row.map trimCell) = optionCells row := by
  have hmap : row.map trimCell = row.map jsTrim := by
    congr 1
    funext cell
    exact trimCell_eq_jsTrim cell
  rw [hmap]
  unfold collectOptions optionCells
  simp only []
  have h := filter_optionValues ((row.map jsTrim).drop 2)
  simp only [← getD_drop_two, Nat.zero_add, Nat.reduceAdd] at h
  rw [List.map_drop]
  exact h

/-- C10. For every row that `parseRow` accepts with type `single` or
`multiple`, the options of the resulting question are exactly the option cells
(columns 3 to 8) that are non-empty after trimming, in column order, each with
the letter of its column as id and the trimmed cell as text.  The row
`["单选题","2+2=?","3","4","","","","","B",""]` yields type `single`, content
`2+2=?`, options `[{A,"3"},{B,"4"}]` and answer `B`. -/
theorem parseRow_choice_options (row : List String) (n : Nat) (q : QuestionData)
    (h : parseRow row n = .ok q)
    (htype : q.type = .str "single" ∨ q.type = .str "multiple") :
    q.options = some (optionCells row) ∧
    ∃ q0, parseRow scenarioRow 1 = .ok q0 ∧ q0.type = .str "single" ∧
      q0.content = "2+2=?" ∧ q0.options = some [⟨"A", "3"⟩, ⟨"B", "4"⟩] ∧ q0.answer = "B" := by
  refine ⟨?_, _, rfl, rfl, rfl, rfl, rfl⟩
  have hchoice : (q.type.eqStr "single" || q.type.eqStr "multiple") = true := by
    rcases htype with ht | ht <;> rw [ht] <;> rfl
  rcases parseRow_cases row n with ⟨e, he⟩ | ⟨q', hq', _, _, _, _, _, _, hbranch⟩
  · rw [h] at he
    cases he
  · rw [h] at hq'
    cases hq'
    rcases hbranch with ⟨_, ho, _⟩ | ⟨hf, _⟩ | ⟨hf, _⟩ | ⟨hf, _⟩
    · rw [ho, collectOptions_eq_optionCells]
    · rw [hchoice] at hf
      exact Bool.noConfusion hf
    · rw [hchoice] at hf
      exact Bool.noConfusion hf
    · rw [hchoice] at hf
      exact Bool.noConfusion hf

theorem parseRow_choice_options_witness :
    ∃ q, parseRow scenarioRow 1 = .ok q ∧ q.type = .str "single" ∧
      q.options = some (optionCells scenarioRow) ∧
      optionCells scenarioRow = [⟨"A", "3"⟩, ⟨"B", "4"⟩] :=
  ⟨_, rfl, rfl, (parseRow_choice_options scenarioRow 1 _ rfl (Or.inl rfl)).1, by decide⟩


/-- Apart from the candidates with an option `id` that has no string value,
`validateQuestion` returns a result, and the result is `valid: true` with no
message or `valid: false` with exactly one message. -/
theorem validateQuestion_returns (d : JsVal)
    (h : ∀ options, d.get "options" = .arr options →
      ∀ opt ∈ options, (opt.get "id").toStr ≠ none) :
    ∃ r, validateQuestion d = some r ∧ (r = valid ∨ ∃ msg, r = invalid msg) := by
  cases hv : validateQuestion d with
  | none =>
    obtain ⟨options, ho, opt, hopt, hs⟩ := validateQuestion_none d hv
    exact absurd hs (h options ho opt hopt)
  | some r => exact ⟨r, rfl, validateQuestion_result_shape d r hv⟩


/-! ## The records of accepted rows and the validator -/

theorem dropWhile_eq_self_of_head {p : Char → Bool} (l : List Char)
    (h : ∀ x, l.head? = some x → p x = false) : l.dropWhile p = l := by
  cases l with
  | nil => rfl
  | cons x xs =>
    have := h x rfl
    simp [List.dropWhile_cons, this]

theorem head_dropWhile_isJsSpace (l : List Char) :
    ∀ x, (l.dropWhile isJsSpace).head? = some x → isJsSpace x = false := by
  intro x hx
  induction l with
  | nil => simp at hx
  | cons y ys ih =>
    by_cases hy : isJsSpace y = true
    · simp only [List.dropWhile_cons, hy, if_true] at hx
      exact ih hx
    · have hy2 : isJsSpace y = false := by simpa using hy
      simp only [List.dropWhile_cons, hy2, Bool.false_eq_true, if_false, List.head?_cons,
        Option.some.injEq] at hx
      rw [← hx]
      exact hy2

/-- Trimming is idempotent. -/
theorem trimChars_idem (cs : List Char) : trimChars (trimChars cs) = trimChars cs := by
  unfold trimChars
  generalize hl : cs.dropWhile isJsSpace = l
  have hhead : ∀ x, l.head? = some x → isJsSpace x = false := by
    rw [← hl]
    exact head_dropWhile_isJsSpace cs
  generalize hm : l.reverse.dropWhile isJsSpace = m
  have hmhead : ∀ x, m.head? = some x → isJsSpace x = false := by
    rw [← hm]
    exact head_dropWhile_isJsSpace l.reverse
  have hsplit : l.reverse = l.reverse.takeWhile isJsSpace ++ m := by
    rw [← hm]
    exact (List.takeWhile_append_dropWhile _ _).symm
  have hl2 : l = m.reverse ++ (l.reverse.takeWhile isJsSpace).reverse := by
    have := congrArg List.reverse hsplit
    simpa using this
  have hrhead : ∀ x, m.reverse.head? = some x → isJsSpace x = false := by
    intro x hx
    apply hhead
    rw [hl2]
    cases hmr : m.reverse with
    | nil => rw [hmr] at hx; simp at hx
    | cons y ys =>
      rw [hmr] at hx
      simpa using hx
  rw [dropWhile_eq_self_of_head m.reverse hrhead, List.reverse_reverse,
    dropWhile_eq_self_of_head m hmhead]

theorem jsTrim_idem (s : String) : jsTrim (jsTrim s) = jsTrim s := by
  unfold jsTrim
  simp only [trimChars_idem]

theorem splitChars_length_le_one (sep : Char) (cs : List Char)
    (h : (splitChars sep cs).length ≤ 1) : splitChars sep cs = [cs] := by
  apply splitChars_of_not_mem
  intro hmem
  induction cs with
  | nil => simp at hmem
  | cons c rest ih =>
    unfold splitChars at h
    by_cases hc : c = sep
    · simp only [hc, if_true, List.length_cons] at h
      have := splitChars_ne_nil sep rest
      have : 0 < (splitChars sep rest).length := List.length_pos.mpr this
      omega
    · simp only [hc, if_false] at h
      have hmem2 : sep ∈ rest := by
        rcases List.mem_cons.mp hmem with h1 | h1
        · exact absurd h1.symm hc
        · exact h1
      cases hs : splitChars sep rest with
      | nil => exact absurd hs (splitChars_ne_nil sep rest)
      | cons seg segs =>
        rw [hs] at h
        simp only [List.length_cons] at h
        exact ih (by rw [hs]; simpa using h) hmem2


theorem jsTrim_trimCell_ne (cell : String) (h : trimCell cell ≠ "") :
    jsTrim (trimCell cell) ≠ "" := by
  rw [trimCell_eq_jsTrim] at h ⊢
  rw [jsTrim_idem]
  exact h

theorem getD_map_trimCell (row : List String) (k : Nat) :
    jsTrim ((row.map trimCell).getD k "") = (row.map trimCell).getD k "" := by
  rw [List.getD_eq_getElem?_getD, List.getElem?_map]
  cases row[k]? with
  | none => exact jsTrim_empty
  | some c =>
    simp only [Option.map_some', Option.getD_some]
    rw [trimCell_eq_jsTrim, jsTrim_idem]

theorem firstInvalidAnswer_eq_none_iff (ids : List String) (l : List String) :
    firstInvalidAnswer ids l = none ↔ ∀ a ∈ l, a ∈ ids := by
  induction l with
  | nil => simp [firstInvalidAnswer]
  | cons a rest ih =>
    unfold firstInvalidAnswer
    by_cases h : a ∈ ids
    · simp [h, ih]
    · simp [h]

theorem collectOptions_mem (cells : List String) (o : OptionCell)
    (h : o ∈ collectOptions cells) :
    o.text ≠ "" ∧ ∃ k, o.text = cells.getD k "" ∧ o.id ≠ "" := by
  unfold collectOptions at h
  simp only [List.mem_filter, bne_iff_ne, ne_eq] at h
  refine ⟨h.2, ?_⟩
  simp only [List.mem_cons, List.mem_singleton, List.not_mem_nil, or_false] at h
  rcases h.1 with h1 | h1 | h1 | h1 | h1 | h1 <;> subst h1
  · exact ⟨2, rfl, show ("A" : String) ≠ "" by decide⟩
  · exact ⟨3, rfl, show ("B" : String) ≠ "" by decide⟩
  · exact ⟨4, rfl, show ("C" : String) ≠ "" by decide⟩
  · exact ⟨5, rfl, show ("D" : String) ≠ "" by decide⟩
  · exact ⟨6, rfl, show ("E" : String) ≠ "" by decide⟩
  · exact ⟨7, rfl, show ("F" : String) ≠ "" by decide⟩

/-- The options of an accepted choice row, as values, are well formed. -/
theorem collectOptions_wellFormed (row : List String) :
    ∀ opt ∈ (collectOptions (row.map trimCell)).map
        (fun o => JsVal.obj [("id", .str o.id), ("text", .str o.text)]),
      wellFormedOption opt := by
  intro opt hopt
  obtain ⟨o, ho, rfl⟩ := List.mem_map.mp hopt
  obtain ⟨hne, k, hk, hid⟩ := collectOptions_mem _ o ho
  refine ⟨?_, o.text, rfl, ?_⟩
  · show (JsVal.str o.id).truthy = true
    simp [hid]
  · rw [hk, getD_map_trimCell, ← hk]
    exact hne

theorem includesId_collected (options : List OptionCell) (a : String) :
    includesId (options.map (fun o => JsVal.obj [("id", .str o.id), ("text", .str o.text)])) a
      = true ↔ a ∈ options.map (fun o => o.id) := by
  rw [includesId_iff]
  simp only [List.mem_map]
  constructor
  · rintro ⟨opt, ⟨o, ho, rfl⟩, hget⟩
    refine ⟨o, ho, ?_⟩
    have : (JsVal.obj [("id", .str o.id), ("text", .str o.text)]).get "id" = .str o.id := rfl
    rw [this] at hget
    exact JsVal.str.inj hget
  · rintro ⟨o, ho, rfl⟩
    exact ⟨_, ⟨o, ho, rfl⟩, rfl⟩


theorem toJs_get_type (q : QuestionData) : q.toJs.get "type" = q.type := rfl

theorem toJs_get_content (q : QuestionData) : q.toJs.get "content" = .str q.content := rfl

theorem toJs_get_answer (q : QuestionData) : q.toJs.get "answer" = .str q.answer := rfl

theorem toJs_get_options (q : QuestionData) (options : List OptionCell)
    (h : q.options = some options) :
    q.toJs.get "options" =
      .arr (options.map (fun o => .obj [("id", .str o.id), ("text", .str o.text)])) := by
  unfold QuestionData.toJs
  rw [h]
  rfl


/-- The records of accepted rows and the validator: a record of type `single`,
`multiple`, `boolean` or `short` that `parseRow` returns is accepted by
`validateQuestion`; a record of type `fill` is accepted by `validateQuestion`
if and only if every `|`-separated segment of its answer is non-empty after
trimming. -/
theorem parseRow_ok_accepted (row : List String) (n : Nat) (q : QuestionData)
    (h : parseRow row n = .ok q) :
    (q.type = .str "single" ∨ q.type = .str "multiple" ∨ q.type = .str "boolean" ∨
        q.type = .str "short" → accepted q.toJs = true) ∧
    (q.type = .str "fill" →
      (accepted q.toJs = true ↔ ∀ seg ∈ jsSplit q.answer '|', jsTrim seg ≠ "")) := by
  rcases parseRow_cases row n with ⟨e, he⟩ | ⟨q', hq', _, _, _, hcontent, hcne, hanswer, hbranch⟩
  · rw [h] at he
    cases he
  rw [h] at hq'
  cases hq'
  have hctrim : jsTrim q.content = q.content := by rw [hcontent, getD_map_trimCell]
  have hatrim : jsTrim q.answer = q.answer := by rw [hanswer, getD_map_trimCell]
  have hcnb : jsTrim q.content ≠ "" := by rw [hctrim]; exact hcne
  have hdisp := validateQuestion_dispatch q.toJs q.content (toJs_get_content q) hcnb
  rw [toJs_get_type] at hdisp
  constructor
  · intro htype
    unfold accepted
    rw [hdisp]
    rcases htype with ht | ht | ht | ht
    · rw [ht] at hbranch ⊢
      rcases hbranch with ⟨_, ho, hlen, hane, hids, hone⟩ | ⟨hf, _⟩ | ⟨hf, _⟩ | ⟨hf, _⟩
      · have hsplit : jsSplit q.answer '|' = [q.answer] := by
          have h1 : (splitChars '|' q.answer.data).length ≤ 1 := by
            have := hone rfl
            simpa [jsSplit] using this
          simp [jsSplit, splitChars_length_le_one _ _ h1]
        have hmem : q.answer ∈ (collectOptions (row.map trimCell)).map (fun o => o.id) := by
          have := (firstInvalidAnswer_eq_none_iff _ _).mp hids (jsTrim q.answer)
            (by simp [hsplit])
          rw [hatrim] at this
          exact this
        have hinc := (includesId_collected _ _).mpr hmem
        have hopts := (validateOptions_eq_some_none_iff 0 _).mpr (collectOptions_wellFormed row)
        have hblank : blankAnswer (.str q.answer) = false :=
          (blankAnswer_str q.answer).mpr (by rw [hatrim]; exact hane)
        have hlen2 : ¬ ((collectOptions (row.map trimCell)).map
            (fun o => JsVal.obj [("id", .str o.id), ("text", .str o.text)])).length < 2 := by
          simp only [List.length_map]
          omega
        simp only [validateSingleChoice, toJs_get_options q _ ho, toJs_get_answer, if_neg hlen2,
          hopts, hblank, hinc, Bool.false_eq_true, if_false, Bool.not_true, valid]
      · exact absurd hf (by decide)
      · exact absurd hf (by decide)
      · exact absurd hf (by decide)
    · rw [ht] at hbranch ⊢
      rcases hbranch with ⟨_, ho, hlen, hane, hids, _⟩ | ⟨hf, _⟩ | ⟨hf, _⟩ | ⟨hf, _⟩
      · have hall := (firstInvalidAnswer_eq_none_iff _ _).mp hids
        have hopts := (validateOptions_eq_some_none_iff 0 _).mpr (collectOptions_wellFormed row)
        have hblank : blankAnswer (.str q.answer) = false :=
          (blankAnswer_str q.answer).mpr (by rw [hatrim]; exact hane)
        have hlen2 : ¬ ((collectOptions (row.map trimCell)).map
            (fun o => JsVal.obj [("id", .str o.id), ("text", .str o.text)])).length < 2 := by
          simp only [List.length_map]
          omega
        have hsub : ∀ a ∈ answerIds q.answer,
            a ∈ (collectOptions (row.map trimCell)).map (fun o => o.id) := by
          intro a ha
          unfold answerIds at ha
          exact hall a (List.mem_filter.mp ha).1
        have hnone : firstUnknownId ((collectOptions (row.map trimCell)).map
            (fun o => JsVal.obj [("id", .str o.id), ("text", .str o.text)]))
            (answerIds q.answer) = none := by
          rw [firstUnknownId_eq_none_iff]
          intro a ha
          exact (includesId_iff _ _).mp ((includesId_collected _ _).mpr (hsub a ha))
        have hne : ¬ (answerIds q.answer).length < 1 := by
          have hsne : jsSplit q.answer '|' ≠ [] := by
            simp [jsSplit, splitChars_ne_nil]
          obtain ⟨s0, hs0⟩ := List.exists_mem_of_ne_nil _ hsne
          have hin : jsTrim s0 ∈ (jsSplit q.answer '|').map jsTrim := List.mem_map_of_mem _ hs0
          obtain ⟨o, ho1, ho2⟩ := List.mem_map.mp (hall _ hin)
          have hne0 : jsTrim s0 ≠ "" := by
            rw [← ho2]
            exact (collectOptions_mem _ o ho1).2.choose_spec.2
          have hseg : jsTrim s0 ∈ answerIds q.answer := by
            unfold answerIds
            rw [List.mem_filter]
            exact ⟨hin, by simpa using hne0⟩
          have := List.length_pos_of_mem hseg
          omega
        simp only [validateMultipleChoice, toJs_get_options q _ ho, toJs_get_answer,
          if_neg hlen2, hopts, hblank, if_neg hne, hnone, Bool.false_eq_true, if_false, valid]
      · exact absurd hf (by decide)
      · exact absurd hf (by decide)
      · exact absurd hf (by decide)
    · rw [ht] at hbranch ⊢
      rcases hbranch with ⟨hf, _⟩ | ⟨_, _, _, hans⟩ | ⟨_, _, _, hf, _⟩ | ⟨_, _, hf, _⟩
      · exact absurd hf (by decide)
      · have hane : q.answer ≠ "" := by
          rcases hans with e | e <;> rw [e] <;> decide
        have hblank : blankAnswer (.str q.answer) = false :=
          (blankAnswer_str q.answer).mpr (by rw [hatrim]; exact hane)
        have hcont : ["正确", "错误"].contains q.answer = true := by
          rcases hans with e | e <;> rw [e] <;> decide
        simp only [validateBoolean, toJs_get_answer, hblank, hcont, Bool.false_eq_true,
          if_false, Bool.not_true, valid]
      · exact absurd hf (by decide)
      · exact absurd hf (by decide)
    · rw [ht]
      simp only [validateShortAnswer, toJs_get_answer, JsVal.typeofString, Bool.not_true,
        Bool.and_false, Bool.false_eq_true, if_false, valid]
  · intro ht
    unfold accepted
    rw [hdisp]
    rw [ht] at hbranch ⊢
    rcases hbranch with ⟨hf, _⟩ | ⟨_, _, hf, _⟩ | ⟨_, _, _, _, hbc, hane, hlen⟩ | ⟨_, _, _, hf⟩
    · exact absurd hf (by decide)
    · exact absurd hf (by decide)
    · have hblank : blankAnswer (.str q.answer) = false :=
        (blankAnswer_str q.answer).mpr (by rw [hatrim]; exact hane)
      simp only [validateFillBlank, toJs_get_content, toJs_get_answer, if_neg hbc, hblank,
        Bool.false_eq_true, if_false, hlen, ne_eq, not_true_eq_false]
      rw [← firstEmptySegment_eq_none_iff 0]
      cases hf : firstEmptySegment 0 (jsSplit q.answer '|') with
      | none => simp [valid]
      | some msg => simp [invalid]
    · exact absurd hf (by decide)


/-! ## Answers of accepted choice rows -/

theorem splitChars_length_of_mem (sep : Char) (cs : List Char) (h : sep ∈ cs) :
    2 ≤ (splitChars sep cs).length := by
  induction cs with
  | nil => simp at h
  | cons c rest ih =>
    unfold splitChars
    by_cases hc : c = sep
    · simp only [hc, if_true, List.length_cons]
      have : 0 < (splitChars sep rest).length := List.length_pos.mpr (splitChars_ne_nil sep rest)
      omega
    · simp only [hc, if_false]
      have hmem : sep ∈ rest := by
        rcases List.mem_cons.mp h with h1 | h1
        · exact absurd h1.symm hc
        · exact h1
      have := ih hmem
      cases hs : splitChars sep rest with
      | nil => rw [hs] at this; simp at this
      | cons seg segs =>
        rw [hs] at this
        simpa using this

/-- C11. For every row that `parseRow` accepts with type `single` or `multiple`,
every trimmed `|`-separated segment of the answer is the id of one of the
collected options; for type `single` the answer has exactly one segment (it
holds no `|`), so every row with the type label of `single` whose trimmed
answer cell contains `|` is rejected. -/
theorem parseRow_choice_answer (row : List String) (n : Nat) (q : QuestionData)
    (h : parseRow row n = .ok q)
    (htype : q.type = .str "single" ∨ q.type = .str "multiple") :
    (∀ seg ∈ jsSplit q.answer '|', ∃ o ∈ optionCells row, o.id = jsTrim seg) ∧
    (q.type = .str "single" → (jsSplit q.answer '|').length = 1 ∧ '|' ∉ q.answer.data) ∧
    ∀ (row2 : List String) (n2 : Nat), (row2.map trimCell).getD 0 "" = "单选题" →
      '|' ∈ ((row2.map trimCell).getD 8 "").data → (parseRow row2 n2).valid = false := by
  have hchoice : (q.type.eqStr "single" || q.type.eqStr "multiple") = true := by
    rcases htype with ht | ht <;> rw [ht] <;> rfl
  refine ⟨?_, ?_, ?_⟩
  · rcases parseRow_cases row n with ⟨e, he⟩ | ⟨q2, hq2, _, _, _, _, _, _, hbranch⟩
    · rw [h] at he
      cases he
    · rw [h] at hq2
      cases hq2
      rcases hbranch with ⟨_, _, _, _, hids, _⟩ | ⟨hf, _⟩ | ⟨hf, _⟩ | ⟨hf, _⟩
      · intro seg hseg
        have := (firstInvalidAnswer_eq_none_iff _ _).mp hids (jsTrim seg)
          (List.mem_map_of_mem _ hseg)
        rw [collectOptions_eq_optionCells] at this
        obtain ⟨o, ho, hoid⟩ := List.mem_map.mp this
        exact ⟨o, ho, hoid⟩
      · rw [hchoice] at hf
        exact Bool.noConfusion hf
      · rw [hchoice] at hf
        exact Bool.noConfusion hf
      · rw [hchoice] at hf
        exact Bool.noConfusion hf
  · intro hs
    rcases parseRow_cases row n with ⟨e, he⟩ | ⟨q2, hq2, _, _, _, _, _, _, hbranch⟩
    · rw [h] at he
      cases he
    · rw [h] at hq2
      cases hq2
      rcases hbranch with ⟨_, _, _, _, _, hone⟩ | ⟨hf, _⟩ | ⟨hf, _⟩ | ⟨hf, _⟩
      · have hle : (jsSplit q.answer '|').length ≤ 1 := hone (by rw [hs]; rfl)
        have hpos : 0 < (jsSplit q.answer '|').length := by
          simp only [jsSplit, List.length_map]
          exact List.length_pos.mpr (splitChars_ne_nil _ _)
        refine ⟨by omega, ?_⟩
        intro hmem
        have := splitChars_length_of_mem '|' q.answer.data hmem
        simp only [jsSplit, List.length_map] at hle
        omega
      · rw [hchoice] at hf
        exact Bool.noConfusion hf
      · rw [hchoice] at hf
        exact Bool.noConfusion hf
      · rw [hchoice] at hf
        exact Bool.noConfusion hf
  · intro row2 n2 hlabel hbar
    rcases parseRow_cases row2 n2 with ⟨e, he⟩ | ⟨q2, hq2, _, ht, _, _, _, hans, hbranch⟩
    · rw [he]
      rfl
    · exfalso
      rw [hlabel] at ht
      have ht2 : q2.type = .str "single" := by rw [ht]; rfl
      rcases hbranch with ⟨_, _, _, _, _, hone⟩ | ⟨hf, _⟩ | ⟨hf, _⟩ | ⟨hf, _⟩
      · have hle : (jsSplit q2.answer '|').length ≤ 1 := hone (by rw [ht2]; rfl)
        rw [← hans] at hbar
        have := splitChars_length_of_mem '|' q2.answer.data hbar
        simp only [jsSplit, List.length_map] at hle
        omega
      · rw [ht2] at hf
        exact absurd hf (by decide)
      · rw [ht2] at hf
        exact absurd hf (by decide)
      · rw [ht2] at hf
        exact absurd hf (by decide)

theorem parseRow_choice_answer_witness :
    ∃ q, parseRow scenarioRow 1 = .ok q ∧ q.type = .str "single" ∧
      (∀ seg ∈ jsSplit q.answer '|', ∃ o ∈ optionCells scenarioRow, o.id = jsTrim seg) ∧
      (jsSplit q.answer '|').length = 1 :=
  ⟨_, rfl, rfl, (parseRow_choice_answer scenarioRow 1 _ rfl (Or.inl rfl)).1,
    ((parseRow_choice_answer scenarioRow 1 _ rfl (Or.inl rfl)).2.1 rfl).1⟩


/-! ## Multiple-choice answers -/

theorem uniqFilter_eq (seen l : List String) :
    uniqFilter seen l = (firstOccurrences l).filter (fun y => !seen.contains y) := by
  induction l generalizing seen with
  | nil => rfl
  | cons x rest ih =>
    unfold uniqFilter firstOccurrences
    by_cases hx : seen.contains x = true
    · simp only [hx, if_true, List.filter_cons, Bool.not_true, Bool.false_eq_true, if_false]
      rw [ih, List.filter_filter]
      apply List.filter_congr
      intro y _
      have hxm : x ∈ seen := by simpa using hx
      by_cases hy : y ∈ seen
      · simp [hy]
      · have hne : y ≠ x := fun e => hy (e ▸ hxm)
        simp [hy, hne]
    · have hx2 : seen.contains x = false := by simpa using hx
      simp only [hx2, Bool.false_eq_true, if_false, List.filter_cons, Bool.not_false, if_true]
      rw [ih, List.filter_filter]
      congr 1
      apply List.filter_congr
      intro y _
      by_cases hyx : y = x
      · simp [hyx]
      · simp [hyx, List.contains_cons]

theorem uniqFilter_nil (l : List String) : uniqFilter [] l = firstOccurrences l := by
  rw [uniqFilter_eq]
  simp

theorem mem_firstOccurrences (l : List String) (x : String) :
    x ∈ firstOccurrences l ↔ x ∈ l := by
  induction l with
  | nil => simp [firstOccurrences]
  | cons y rest ih =>
    unfold firstOccurrences
    by_cases h : x = y
    · simp [h]
    · simp [h, List.mem_filter, ih]

theorem nodup_firstOccurrences (l : List String) : (firstOccurrences l).Nodup := by
  induction l with
  | nil => simp [firstOccurrences]
  | cons y rest ih =>
    unfold firstOccurrences
    rw [List.nodup_cons]
    refine ⟨?_, ih.filter _⟩
    simp [List.mem_filter]


theorem splitWhere_ne_nil (p : Char → Bool) (cs : List Char) : splitWhere p cs ≠ [] := by
  induction cs with
  | nil => simp [splitWhere]
  | cons c cs ih =>
    unfold splitWhere
    split
    · simp
    · split <;> simp

/-- Replacing the runs of a class by `|` and splitting on `|` gives the pieces
between the characters of the class and `|`, up to empty pieces. -/
theorem split_replaceScan (p : Char → Bool) (cs : List Char) :
    (∃ seg segs segs2, splitChars '|' (replaceScan p false cs) = seg :: segs ∧
      splitWhere (fun c => p c || c == '|') cs = seg :: segs2 ∧
      segs.filter (fun t => t != []) = segs2.filter (fun t => t != [])) ∧
    (splitChars '|' (replaceScan p true cs)).filter (fun t => t != []) =
      (splitWhere (fun c => p c || c == '|') cs).filter (fun t => t != []) := by
  induction cs with
  | nil =>
    exact ⟨⟨[], [], [], rfl, rfl, rfl⟩, rfl⟩
  | cons c cs ih =>
    obtain ⟨⟨seg, segs, segs2, h1, h2, h3⟩, h4⟩ := ih
    by_cases hp : p c = true
    · constructor
      · refine ⟨[], splitChars '|' (replaceScan p true cs),
          splitWhere (fun c => p c || c == '|') cs, ?_, ?_, h4⟩
        · simp [replaceScan, hp, splitChars]
        · simp [splitWhere, hp]
      · simp only [replaceScan, hp, if_true, splitWhere, Bool.true_or]
        rw [h4]
        simp
    · have hp2 : p c = false := by simpa using hp
      by_cases hbar : c = '|'
      · subst hbar
        constructor
        · refine ⟨[], seg :: segs, seg :: segs2, ?_, ?_, ?_⟩
          · simp [replaceScan, hp2, splitChars, h1]
          · simp [splitWhere, hp2, h2]
          · simp only [List.filter_cons, h3]
        · simp only [replaceScan, hp2, Bool.false_eq_true, if_false, splitWhere, Bool.false_or,
            beq_self_eq_true, if_true, splitChars, h1, h2, List.filter_cons, h3]
      · constructor
        · refine ⟨c :: seg, segs, segs2, ?_, ?_, h3⟩
          · simp [replaceScan, hp2, splitChars, hbar, h1]
          · simp [splitWhere, hp2, hbar, h2]
        · simp only [replaceScan, hp2, Bool.false_eq_true, if_false, splitChars, hbar, h1,
            splitWhere, Bool.false_or, beq_iff_eq, h2, List.filter_cons, h3]

theorem replaceScan_pieces (p : Char → Bool) (b : Bool) (cs : List Char) :
    ∀ piece ∈ splitChars '|' (replaceScan p b cs), ∀ c ∈ piece, p c = false := by
  induction cs generalizing b with
  | nil =>
    intro piece hpiece c hc
    simp [replaceScan, splitChars] at hpiece
    subst hpiece
    simp at hc
  | cons d cs ih =>
    intro piece hpiece c hc
    by_cases hp : p d = true
    · cases b with
      | true =>
        simp only [replaceScan, hp, if_true] at hpiece
        exact ih true piece hpiece c hc
      | false =>
        simp only [replaceScan, hp, if_true, Bool.false_eq_true, if_false, splitChars,
          List.mem_cons] at hpiece
        rcases hpiece with h | h
        · subst h
          simp at hc
        · exact ih true piece h c hc
    · have hp2 : p d = false := by simpa using hp
      simp only [replaceScan, hp2, Bool.false_eq_true, if_false] at hpiece
      unfold splitChars at hpiece
      by_cases hbar : d = '|'
      · simp only [hbar, if_true, List.mem_cons] at hpiece
        rcases hpiece with h | h
        · subst h
          simp at hc
        · exact ih false piece h c hc
      · simp only [hbar, if_false] at hpiece
        cases hs : splitChars '|' (replaceScan p false cs) with
        | nil => exact absurd hs (splitChars_ne_nil _ _)
        | cons seg segs =>
          rw [hs] at hpiece
          simp only [List.mem_cons] at hpiece
          rcases hpiece with h | h
          · subst h
            rcases List.mem_cons.mp hc with h1 | h1
            · rw [h1]
              exact hp2
            · exact ih false seg (by rw [hs]; simp) c h1
          · exact ih false piece (by rw [hs]; simp [h]) c hc

theorem trimChars_of_no_space (cs : List Char) (h : ∀ c ∈ cs, isJsSpace c = false) :
    trimChars cs = cs := by
  unfold trimChars
  have h1 : cs.dropWhile isJsSpace = cs := by
    apply dropWhile_eq_self_of_head
    intro x hx
    cases cs with
    | nil => simp at hx
    | cons y ys =>
      simp only [List.head?_cons, Option.some.injEq] at hx
      exact h x (by rw [← hx]; simp)
  rw [h1]
  have h2 : cs.reverse.dropWhile isJsSpace = cs.reverse := by
    apply dropWhile_eq_self_of_head
    intro x hx
    have : x ∈ cs.reverse := List.mem_of_mem_head? hx
    exact h x (List.mem_reverse.mp this)
  rw [h2, List.reverse_reverse]


theorem splitChars_append_sep (sep : Char) (t rest : List Char) (h : sep ∉ t) :
    splitChars sep (t ++ sep :: rest) = t :: splitChars sep rest := by
  induction t with
  | nil => simp [splitChars]
  | cons c t ih =>
    have hc : c ≠ sep := fun e => h (by simp [e])
    have ht : sep ∉ t := fun e => h (by simp [e])
    simp [splitChars, hc, ih ht]

theorem splitChars_intercalate (sep : Char) (pieces : List (List Char)) (hne : pieces ≠ [])
    (h : ∀ t ∈ pieces, sep ∉ t) :
    splitChars sep (List.intercalate [sep] pieces) = pieces := by
  induction pieces with
  | nil => exact absurd rfl hne
  | cons t rest ih =>
    cases rest with
    | nil =>
      simp only [List.intercalate, List.intersperse_single, List.flatten_cons, List.flatten_nil,
        List.append_nil]
      exact splitChars_of_not_mem sep t (h t (by simp))
    | cons u rest2 =>
      have hrec := ih (by simp) (fun t2 ht2 => h t2 (by simp [ht2]))
      simp only [List.intercalate, List.intersperse_cons₂, List.flatten_cons] at hrec ⊢
      rw [show t ++ ([sep] ++ (List.intersperse [sep] (u :: rest2)).flatten) =
        t ++ sep :: (List.intersperse [sep] (u :: rest2)).flatten from rfl]
      rw [splitChars_append_sep sep t _ (h t (by simp)), hrec]

theorem replaceScan_no_bar (p : Char → Bool) (cs : List Char)
    (h : '|' ∉ replaceScan p false cs) :
    replaceScan p false cs = cs ∧ ∀ c ∈ cs, p c = false := by
  induction cs with
  | nil => simp [replaceScan]
  | cons c cs ih =>
    by_cases hp : p c = true
    · simp [replaceScan, hp] at h
    · have hp2 : p c = false := by simpa using hp
      simp only [replaceScan, hp2, Bool.false_eq_true, if_false, List.mem_cons, not_or] at h
      obtain ⟨h1, h2⟩ := ih h.2
      refine ⟨by simp [replaceScan, hp2, h1], ?_⟩
      intro d hd
      rcases List.mem_cons.mp hd with e | e
      · rw [e]; exact hp2
      · exact h2 d e

theorem splitWhere_of_none (p : Char → Bool) (cs : List Char) (h : ∀ c ∈ cs, p c = false) :
    splitWhere p cs = [cs] := by
  induction cs with
  | nil => rfl
  | cons c cs ih =>
    have hc : p c = false := h c (by simp)
    have := ih (fun d hd => h d (by simp [hd]))
    simp [splitWhere, hc, this]

theorem isAnswerSep_eq : isAnswerSep = fun c => isMultipleSep c || c == '|' := by
  funext c
  simp only [isAnswerSep, isMultipleSep]
  cases (c == ',') <;> cases (c == '，') <;> cases (c == '、') <;> cases (isJsSpace c) <;>
    cases (c == '|') <;> rfl

theorem isUpperAZ_not_sep (c : Char) (h : isUpperAZ c = true) :
    isAnswerSep c = false ∧ isJsSpace c = false := by
  have hn : 65 ≤ c.toNat ∧ c.toNat ≤ 90 := by
    simpa [isUpperAZ] using h
  have hne : ∀ d : Char, (d.toNat < 65 ∨ 90 < d.toNat) → c ≠ d := by
    intro d hd e
    rw [e] at hn
    omega
  have hsp : isJsSpace c = false := by
    simp only [isJsSpace, Bool.or_eq_false_iff, Bool.and_eq_false_iff, beq_eq_false_iff_ne, ne_eq,
      decide_eq_false_iff_not, not_le]
    omega
  refine ⟨?_, hsp⟩
  simp only [isAnswerSep, hsp, Bool.or_false, Bool.or_eq_false_iff, beq_eq_false_iff_ne, ne_eq]
  exact ⟨⟨⟨hne ',' (by decide), hne '，' (by decide)⟩, hne '、' (by decide)⟩, hne '|' (by decide)⟩

theorem collectLetters_map (toks : List (List Char)) (h : ∀ t ∈ toks, t ≠ []) :
    collectLetters (toks.map String.mk) =
      toks.flatMap (fun t => if t.all isUpperAZ then t.map (fun c => String.mk [c]) else []) := by
  induction toks with
  | nil => rfl
  | cons t rest ih =>
    have ih2 := ih (fun u hu => h u (by simp [hu]))
    have hne : t ≠ [] := h t (by simp)
    simp only [List.map_cons, List.flatMap_cons]
    unfold collectLetters
    by_cases hall : t.all isUpperAZ = true
    · rw [if_pos hall, ih2]
      by_cases hone : oneUpperAZ ⟨t⟩ = true
      · rw [if_pos hone]
        unfold oneUpperAZ at hone
        split at hone
        · rename_i c hc
          have : t = [c] := hc
          subst this
          rfl
        · exact absurd hone (by decide)
      · rw [if_neg hone]
        have hal : allUpperAZ ⟨t⟩ = true := by
          simp only [allUpperAZ, Bool.and_eq_true, bne_iff_ne, ne_eq]
          exact ⟨hne, hall⟩
        rw [if_pos hal]
        rfl
    · rw [if_neg hall, ih2]
      have hone : oneUpperAZ ⟨t⟩ = false := by
        unfold oneUpperAZ
        split
        · rename_i c hc
          have : t = [c] := hc
          subst this
          simpa using hall
        · rfl
      have hal : allUpperAZ ⟨t⟩ = false := by
        simp only [allUpperAZ, Bool.and_eq_false_iff]
        exact Or.inr (by simpa using hall)
      simp [hone, hal]


theorem flatMap_singletons (l : List Char) (h : ∀ c ∈ l, isUpperAZ c = true) :
    (l.map (fun c => [c])).flatMap
        (fun t => if t.all isUpperAZ then t.map (fun c => String.mk [c]) else []) =
      l.map (fun c => String.mk [c]) := by
  induction l with
  | nil => rfl
  | cons c l ih =>
    have hc : isUpperAZ c = true := h c (by simp)
    have := ih (fun d hd => h d (by simp [hd]))
    simp only [List.map_cons, List.flatMap_cons, this]
    simp [hc]

theorem jsJoin_nil (sep : String) : jsJoin sep [] = "" := rfl

/-- On a string, `normalizeMultipleAnswer` computes the reference answer. -/
theorem normalizeMultipleString_eq (x : String) :
    normalizeMultipleString x = multipleReference x := by
  unfold normalizeMultipleString multipleReference
  simp only []
  generalize hs : jsToUpperCase (jsTrim x) = s
  by_cases hempty : s = ""
  · subst hempty
    rw [if_pos rfl]
    rfl
  rw [if_neg hempty]
  have hcs : s.data ≠ [] := by
    intro e
    apply hempty
    cases s
    simp only at e
    subst e
    rfl
  rw [uniqFilter_nil]
  congr 2
  by_cases hcond : (!(replaceScan isMultipleSep false s.data).contains '|' &&
      allUpperAZ ⟨replaceScan isMultipleSep false s.data⟩ &&
      decide ((replaceScan isMultipleSep false s.data).length > 1)) = true
  · rw [if_pos hcond]
    simp only [Bool.and_eq_true, Bool.not_eq_true', decide_eq_true_eq] at hcond
    obtain ⟨⟨hnobar, hall⟩, _⟩ := hcond
    have hnb : '|' ∉ replaceScan isMultipleSep false s.data := by
      intro hm
      have : (replaceScan isMultipleSep false s.data).contains '|' = true := by
        simpa using hm
      rw [this] at hnobar
      exact Bool.noConfusion hnobar
    obtain ⟨hsame, _⟩ := replaceScan_no_bar isMultipleSep s.data hnb
    rw [hsame] at hall hnb ⊢
    have hupper : ∀ c ∈ s.data, isUpperAZ c = true := by
      simp only [allUpperAZ, Bool.and_eq_true, List.all_eq_true] at hall
      exact hall.2
    -- the code: split of the joined letters
    have hsplit : jsSplit (jsJoin "|" (jsChars ⟨s.data⟩)) '|' = s.data.map (fun c => ⟨[c]⟩) := by
      unfold jsSplit jsJoin jsChars
      simp only [List.map_map]
      have hpieces : splitChars '|' (List.intercalate ['|'] (s.data.map (fun c => [c]))) =
          s.data.map (fun c => [c]) := by
        apply splitChars_intercalate
        · simpa using hcs
        · intro t ht
          obtain ⟨c, hc, rfl⟩ := List.mem_map.mp ht
          intro hm
          have hcb : '|' = c := List.mem_singleton.mp hm
          exact hnb (hcb ▸ hc)
      have : (List.map (String.data ∘ fun c => ({ data := [c] } : String)) s.data) =
          s.data.map (fun c => [c]) := by
        apply List.map_congr_left
        intro c _
        rfl
      show List.map String.mk (splitChars '|' (List.intercalate ['|']
        (List.map (String.data ∘ fun c => ({ data := [c] } : String)) s.data))) = _
      rw [this, hpieces, List.map_map]
      rfl
    rw [hsplit]
    have htrim : (s.data.map (fun c => (⟨[c]⟩ : String))).map jsTrim =
        s.data.map (fun c => (⟨[c]⟩ : String)) := by
      rw [List.map_map]
      apply List.map_congr_left
      intro c hc
      show jsTrim ⟨[c]⟩ = ⟨[c]⟩
      unfold jsTrim
      rw [trimChars_of_no_space]
      intro d hd
      have : d = c := by simpa using hd
      rw [this]
      exact (isUpperAZ_not_sep c (hupper c hc)).2
    rw [htrim]
    have hfilter : (s.data.map (fun c => (⟨[c]⟩ : String))).filter (fun p => p != "") =
        (s.data.map (fun c => [c])).map String.mk := by
      rw [List.map_map, List.filter_eq_self.mpr]
      · rfl
      · intro p hp
        obtain ⟨c, _, rfl⟩ := List.mem_map.mp hp
        rw [bne_iff_ne]
        intro e
        have := congrArg String.data e
        simp at this
    rw [hfilter, collectLetters_map _ (by
      intro t ht
      obtain ⟨c, _, rfl⟩ := List.mem_map.mp ht
      simp)]
    have htok : tokensOf isAnswerSep s.data = [s.data] := by
      unfold tokensOf
      rw [splitWhere_of_none _ _ (fun c hc => (isUpperAZ_not_sep c (hupper c hc)).1)]
      simp [hcs]
    rw [htok]
    have hallb : s.data.all isUpperAZ = true := by
      rw [List.all_eq_true]
      exact hupper
    simp only [List.flatMap_cons, List.flatMap_nil, List.append_nil, hallb, if_true]
    exact flatMap_singletons s.data hupper
  · rw [if_neg hcond]
    have hpieces := replaceScan_pieces isMultipleSep false s.data
    have htrim : (jsSplit ⟨replaceScan isMultipleSep false s.data⟩ '|').map jsTrim =
        jsSplit ⟨replaceScan isMultipleSep false s.data⟩ '|' := by
      unfold jsSplit
      rw [List.map_map]
      apply List.map_congr_left
      intro piece hpiece
      show jsTrim ⟨piece⟩ = ⟨piece⟩
      unfold jsTrim
      rw [trimChars_of_no_space]
      intro d hd
      have := hpieces piece hpiece d hd
      simp only [isMultipleSep, Bool.or_eq_false_iff] at this
      exact this.2
    rw [htrim]
    obtain ⟨⟨seg, segs, segs2, h1, h2, h3⟩, _⟩ := split_replaceScan isMultipleSep s.data
    have hparts : (jsSplit ⟨replaceScan isMultipleSep false s.data⟩ '|').filter
        (fun p => p != "") = (tokensOf isAnswerSep s.data).map String.mk := by
      unfold jsSplit tokensOf
      rw [isAnswerSep_eq, h1, h2, List.filter_map]
      congr 1
      have hf : ((fun p : String => p != "") ∘ String.mk) = fun t : List Char => t != [] := by
        funext t
        cases t with
        | nil => rfl
        | cons a b =>
          show (String.mk (a :: b) != "") = true
          rw [bne_iff_ne]
          intro e
          have := congrArg String.data e
          simp at this
      rw [hf]
      simp only [List.filter_cons, h3]
    rw [hparts, collectLetters_map]
    intro t ht
    unfold tokensOf at ht
    have := (List.mem_filter.mp ht).2
    simpa using this


/-- The reference answer is a joined list of pairwise distinct single letters. -/
theorem multipleReference_shape (x : String) :
    ∃ uniq : List String, multipleReference x = jsJoin "|" uniq ∧ uniq.Nodup ∧
      ∀ u ∈ uniq, oneUpperAZ u = true := by
  unfold multipleReference
  simp only []
  refine ⟨_, rfl, nodup_firstOccurrences _, ?_⟩
  intro u hu
  rw [mem_firstOccurrences] at hu
  obtain ⟨t, _, hut⟩ := List.mem_flatMap.mp hu
  by_cases hall : t.all isUpperAZ = true
  · rw [if_pos hall] at hut
    obtain ⟨c, hc, rfl⟩ := List.mem_map.mp hut
    exact List.all_eq_true.mp hall c hc
  · rw [if_neg hall] at hut
    simp at hut

/-- C12. For every string input, `normalizeMultipleAnswer` returns the
reference answer: the input trimmed and upper-cased, split on runs of commas
(halfwidth and fullwidth), the enumeration comma, whitespace and `|`, the
all-letter tokens split into their letters, the first occurrence of every
letter kept, joined with `|`.  The result is a `|`-joined list of pairwise
distinct single letters `A` to `Z`; `a,b,B,a` gives `A|B` and `ABC` gives
`A|B|C`. -/
theorem normalizeMultipleAnswer_string (x : String) :
    normalizeMultipleAnswer (.str x) = some (.str (multipleReference x)) ∧
    (∃ uniq : List String, multipleReference x = jsJoin "|" uniq ∧ uniq.Nodup ∧
      ∀ u ∈ uniq, oneUpperAZ u = true) ∧
    normalizeMultipleAnswer (.str "a,b,B,a") = some (.str "A|B") ∧
    normalizeMultipleAnswer (.str "ABC") = some (.str "A|B|C") := by
  refine ⟨?_, multipleReference_shape x, rfl, rfl⟩
  show some (JsVal.str (normalizeMultipleString x)) = _
  rw [normalizeMultipleString_eq]


/-! ## Array answers and idempotence -/

theorem mapAnswerTokens_strings (tokens : List String) :
    mapAnswerTokens (tokens.map JsVal.str) =
      some (tokens.map (fun a => jsToUpperCase (jsTrim a))) := by
  induction tokens with
  | nil => rfl
  | cons a rest ih =>
    simp only [List.map_cons, mapAnswerTokens, JsVal.toStr, ih]

/-- On an array of string tokens, `normalizeMultipleAnswer` joins the tokens
after trimming and upper-casing each one and dropping the empty ones; tokens
that occur more than once are all kept. -/
theorem normalizeMultipleAnswer_array (tokens : List String) :
    normalizeMultipleAnswer (.arr (tokens.map JsVal.str)) =
      some (.str (jsJoin "|"
        ((tokens.map (fun a => jsToUpperCase (jsTrim a))).filter (fun a => a != "")))) := by
  simp only [normalizeMultipleAnswer, mapAnswerTokens_strings]

/-- C13. For type `multiple` and the array answer `["a", "a"]`, normalising
once gives `A|A` and normalising the result again gives `A`: normalisation is
not idempotent on this input. -/
theorem normalizeAiAnswer_not_idempotent_on_array :
    normalizeAiAnswer (.str "multiple") repeatedTokens = some (.str "A|A") ∧
    normalizeAiAnswer (.str "multiple") (.str "A|A") = some (.str "A") :=
  ⟨rfl, rfl⟩

/-- C14. For the array answer `["a", "b", "B", "a"]`, `normalizeMultipleAnswer`
returns `A|B|B|A`: the tokens `B` and `A` occur twice in the result. -/
theorem normalizeMultipleAnswer_array_keeps_duplicates :
    normalizeMultipleAnswer mixedCaseTokens = some (.str "A|B|B|A") :=
  rfl

/-! ## Idempotence away from array answers -/

theorem upperChar_of_not_cased (c : Char) (h : c ∉ casedChars) : upperChar c = [c] := by
  unfold upperChar
  split <;> first
    | rfl
    | (exfalso; apply h; decide)

theorem upperChar_cased :
    ∀ c ∈ casedChars, isJsSpace c = false ∧ isUpperAZ c = false ∧ upperChar c ≠ [] ∧
      ∀ d ∈ upperChar c, isJsSpace d = false ∧ upperChar d = [d] := by
  decide

/-- Every character of an uppercase form is its own uppercase form, a space
is its own uppercase form, and the uppercase form of another character is not
empty and holds no space. -/
theorem upperChar_props (c : Char) :
    upperChar c ≠ [] ∧ (∀ d ∈ upperChar c, upperChar d = [d]) ∧
    (isJsSpace c = true → upperChar c = [c]) ∧
    (isJsSpace c = false → ∀ d ∈ upperChar c, isJsSpace d = false) := by
  by_cases hc : c ∈ casedChars
  · obtain ⟨h1, _, h3, h4⟩ := upperChar_cased c hc
    refine ⟨h3, fun d hd => (h4 d hd).2, ?_, fun _ d hd => (h4 d hd).1⟩
    intro hs
    rw [h1] at hs
    exact absurd hs (by decide)
  · have h := upperChar_of_not_cased c hc
    rw [h]
    refine ⟨by simp, ?_, fun _ => rfl, ?_⟩
    · intro d hd
      rw [List.mem_singleton.mp hd]
      exact h
    · intro hs d hd
      rw [List.mem_singleton.mp hd]
      exact hs

theorem flatMap_eq_self (f : Char → List Char) (l : List Char) (h : ∀ c ∈ l, f c = [c]) :
    l.flatMap f = l := by
  induction l with
  | nil => rfl
  | cons c cs ih =>
    rw [List.flatMap_cons, h c (List.mem_cons_self _ _),
      ih (fun d hd => h d (List.mem_cons_of_mem _ hd))]
    rfl

theorem flatMap_upperChar_idem (l : List Char) :
    (l.flatMap upperChar).flatMap upperChar = l.flatMap upperChar := by
  apply flatMap_eq_self
  intro d hd
  obtain ⟨c, _, hdc⟩ := List.mem_flatMap.mp hd
  exact (upperChar_props c).2.1 d hdc

theorem jsToUpperCase_idem (s : String) : jsToUpperCase (jsToUpperCase s) = jsToUpperCase s := by
  unfold jsToUpperCase
  rw [flatMap_upperChar_idem]

/-- Dropping the leading spaces commutes with a character-wise mapping that
keeps the spaces and maps the other characters to non-empty lists without
spaces at either end. -/
theorem dropWhile_flatMap (f : Char → List Char)
    (hs : ∀ c, isJsSpace c = true → f c = [c])
    (hn : ∀ c, isJsSpace c = false → ∃ d ds, f c = d :: ds ∧ isJsSpace d = false)
    (l : List Char) :
    (l.flatMap f).dropWhile isJsSpace = (l.dropWhile isJsSpace).flatMap f := by
  induction l with
  | nil => rfl
  | cons c cs ih =>
    by_cases hc : isJsSpace c = true
    · rw [List.flatMap_cons, hs c hc, List.dropWhile_cons_of_pos hc]
      show (c :: cs.flatMap f).dropWhile isJsSpace = _
      rw [List.dropWhile_cons_of_pos hc, ih]
    · have hc2 : isJsSpace c = false := by simpa using hc
      obtain ⟨d, ds, hf, hd⟩ := hn c hc2
      rw [List.dropWhile_cons_of_neg hc, List.flatMap_cons, hf]
      show (d :: (ds ++ cs.flatMap f)).dropWhile isJsSpace = _
      rw [List.dropWhile_cons_of_neg (by simp [hd])]
      rfl

theorem reverse_flatMap (f : Char → List Char) (l : List Char) :
    (l.flatMap f).reverse = l.reverse.flatMap (fun c => (f c).reverse) := by
  induction l with
  | nil => rfl
  | cons c cs ih =>
    rw [List.flatMap_cons, List.reverse_append, ih, List.reverse_cons, List.flatMap_append]
    simp

theorem trimChars_flatMap_upperChar (l : List Char) :
    trimChars (l.flatMap upperChar) = (trimChars l).flatMap upperChar := by
  have hs : ∀ c, isJsSpace c = true → upperChar c = [c] := fun c => (upperChar_props c).2.2.1
  have hn : ∀ c, isJsSpace c = false → ∃ d ds, upperChar c = d :: ds ∧ isJsSpace d = false := by
    intro c hc
    have hp := upperChar_props c
    cases hu : upperChar c with
    | nil => exact absurd hu hp.1
    | cons d ds => exact ⟨d, ds, rfl, hp.2.2.2 hc d (by rw [hu]; exact List.mem_cons_self _ _)⟩
  have hs2 : ∀ c, isJsSpace c = true → (upperChar c).reverse = [c] := by
    intro c hc
    rw [hs c hc]
    rfl
  have hn2 : ∀ c, isJsSpace c = false →
      ∃ d ds, (upperChar c).reverse = d :: ds ∧ isJsSpace d = false := by
    intro c hc
    have hp := upperChar_props c
    cases hu : (upperChar c).reverse with
    | nil => exact absurd (List.reverse_eq_nil_iff.mp hu) hp.1
    | cons d ds =>
      refine ⟨d, ds, rfl, hp.2.2.2 hc d ?_⟩
      have : d ∈ (upperChar c).reverse := by rw [hu]; exact List.mem_cons_self _ _
      exact List.mem_reverse.mp this
  unfold trimChars
  rw [dropWhile_flatMap upperChar hs hn, reverse_flatMap,
    dropWhile_flatMap (fun c => (upperChar c).reverse) hs2 hn2, reverse_flatMap]
  simp

theorem upper_trim_idem (s : String) :
    jsToUpperCase (jsTrim (jsToUpperCase (jsTrim s))) = jsToUpperCase (jsTrim s) := by
  unfold jsToUpperCase jsTrim
  simp only []
  rw [trimChars_flatMap_upperChar, trimChars_idem, flatMap_upperChar_idem]

theorem splitWhere_append_sep (p : Char → Bool) (sep : Char) (t rest : List Char)
    (hs : p sep = true) (h : ∀ c ∈ t, p c = false) :
    splitWhere p (t ++ sep :: rest) = t :: splitWhere p rest := by
  induction t with
  | nil => simp [splitWhere, hs]
  | cons c t ih =>
    have hc : p c = false := h c (by simp)
    have ht : ∀ d ∈ t, p d = false := fun d hd => h d (by simp [hd])
    simp [splitWhere, hc, ih ht]

theorem splitWhere_intercalate (p : Char → Bool) (sep : Char) (pieces : List (List Char))
    (hne : pieces ≠ []) (hs : p sep = true) (h : ∀ t ∈ pieces, ∀ c ∈ t, p c = false) :
    splitWhere p (List.intercalate [sep] pieces) = pieces := by
  induction pieces with
  | nil => exact absurd rfl hne
  | cons t rest ih =>
    cases rest with
    | nil =>
      simp only [List.intercalate, List.intersperse_single, List.flatten_cons, List.flatten_nil,
        List.append_nil]
      exact splitWhere_of_none p t (h t (by simp))
    | cons u rest2 =>
      have hrec := ih (by simp) (fun t2 ht2 => h t2 (by simp [ht2]))
      simp only [List.intercalate, List.intersperse_cons₂, List.flatten_cons] at hrec ⊢
      rw [show t ++ ([sep] ++ (List.intersperse [sep] (u :: rest2)).flatten) =
        t ++ sep :: (List.intersperse [sep] (u :: rest2)).flatten from rfl]
      rw [splitWhere_append_sep p sep t _ hs (h t (by simp)), hrec]

theorem firstOccurrences_of_nodup (l : List String) (h : l.Nodup) : firstOccurrences l = l := by
  induction l with
  | nil => rfl
  | cons x rest ih =>
    obtain ⟨hx, hrest⟩ := List.nodup_cons.mp h
    show x :: (firstOccurrences rest).filter (fun y => y != x) = x :: rest
    rw [ih hrest]
    congr 1
    apply List.filter_eq_self.mpr
    intro y hy
    rw [bne_iff_ne]
    intro e
    exact hx (e ▸ hy)

theorem mem_intercalate_singletons (sep : Char) (l : List Char) (c : Char)
    (hc : c ∈ List.intercalate [sep] (l.map (fun d => [d]))) : c = sep ∨ c ∈ l := by
  induction l with
  | nil => simp [List.intercalate] at hc
  | cons d rest ih =>
    cases rest with
    | nil =>
      simp only [List.map, List.intercalate, List.intersperse_single, List.flatten_cons,
        List.flatten_nil, List.append_nil, List.mem_singleton] at hc
      exact Or.inr (by simp [hc])
    | cons e rest2 =>
      simp only [List.map, List.intercalate, List.intersperse_cons₂, List.flatten_cons,
        List.mem_append, List.mem_singleton] at hc ih
      rcases hc with h | h | h
      · exact Or.inr (by simp [h])
      · exact Or.inl h
      · rcases ih h with h2 | h2
        · exact Or.inl h2
        · exact Or.inr (List.mem_cons_of_mem _ h2)

theorem letters_of_oneUpperAZ (us : List String) (h : ∀ u ∈ us, oneUpperAZ u = true) :
    ∃ l : List Char, us = l.map (fun c => String.mk [c]) ∧ ∀ c ∈ l, isUpperAZ c = true := by
  induction us with
  | nil => exact ⟨[], rfl, by simp⟩
  | cons u rest ih =>
    obtain ⟨l, hl, hall⟩ := ih (fun v hv => h v (List.mem_cons_of_mem _ hv))
    have hu := h u (List.mem_cons_self _ _)
    obtain ⟨data⟩ := u
    unfold oneUpperAZ at hu
    simp only at hu
    match data, hu with
    | [c], hu =>
      refine ⟨c :: l, by rw [hl]; rfl, ?_⟩
      intro d hd
      rcases List.mem_cons.mp hd with e | e
      · rw [e]; exact hu
      · exact hall d e

/-- A joined list of pairwise distinct letters is its own reference answer. -/
theorem multipleReference_join (uniq : List String) (hnd : uniq.Nodup)
    (hall : ∀ u ∈ uniq, oneUpperAZ u = true) :
    multipleReference (jsJoin "|" uniq) = jsJoin "|" uniq := by
  obtain ⟨l, rfl, hl⟩ := letters_of_oneUpperAZ uniq hall
  by_cases hne : l = []
  · subst hne
    rfl
  have hdata : (jsJoin "|" (l.map (fun c => String.mk [c]))).data =
      List.intercalate ['|'] (l.map (fun c => [c])) := by
    unfold jsJoin
    simp only [List.map_map]
    rfl
  have hchars : ∀ c ∈ (jsJoin "|" (l.map (fun c => String.mk [c]))).data,
      c = '|' ∨ isUpperAZ c = true := by
    intro c hc
    rw [hdata] at hc
    rcases mem_intercalate_singletons '|' l c hc with h | h
    · exact Or.inl h
    · exact Or.inr (hl c h)
  have htrim : jsTrim (jsJoin "|" (l.map (fun c => String.mk [c]))) =
      jsJoin "|" (l.map (fun c => String.mk [c])) := by
    unfold jsTrim
    rw [trimChars_of_no_space]
    intro c hc
    rcases hchars c hc with h | h
    · rw [h]; rfl
    · exact (isUpperAZ_not_sep c h).2
  have hupper : jsToUpperCase (jsJoin "|" (l.map (fun c => String.mk [c]))) =
      jsJoin "|" (l.map (fun c => String.mk [c])) := by
    unfold jsToUpperCase
    rw [flatMap_eq_self]
    intro c hc
    rcases hchars c hc with h | h
    · rw [h]; rfl
    · apply upperChar_of_not_cased
      intro hm
      have := (upperChar_cased c hm).2.1
      rw [h] at this
      exact Bool.noConfusion this
  unfold multipleReference
  simp only []
  rw [htrim, hupper, hdata]
  have htok : tokensOf isAnswerSep (List.intercalate ['|'] (l.map (fun c => [c]))) =
      l.map (fun c => [c]) := by
    unfold tokensOf
    rw [splitWhere_intercalate isAnswerSep '|' _ (by simpa using hne) (by decide)]
    · apply List.filter_eq_self.mpr
      intro t ht
      obtain ⟨c, _, rfl⟩ := List.mem_map.mp ht
      rfl
    · intro t ht c hc
      obtain ⟨d, hd, rfl⟩ := List.mem_map.mp ht
      rw [List.mem_singleton.mp hc]
      exact (isUpperAZ_not_sep d (hl d hd)).1
  rw [htok, flatMap_singletons l hl, firstOccurrences_of_nodup _ hnd]

theorem multipleReference_idem (x : String) :
    multipleReference (multipleReference x) = multipleReference x := by
  obtain ⟨uniq, hu, hnd, hall⟩ := multipleReference_shape x
  rw [hu]
  exact multipleReference_join uniq hnd hall

theorem toStr_str (m : String) : JsVal.toStr (.str m) = some m := by
  simp [JsVal.toStr]

theorem normalizeMultipleAnswer_str (m : String) :
    normalizeMultipleAnswer (.str m) = some (.str (normalizeMultipleString m)) := by
  simp [normalizeMultipleAnswer, JsVal.nullish, toStr_str]

/-- Answer normalisation is idempotent on every answer that is not an array
given for type `multiple`: whenever a result is returned, normalising it
again returns the same result. -/
theorem normalizeAiAnswer_idempotent_of_not_array (type answer y : JsVal)
    (hna : type.eqStr "multiple" = true → ∀ items, answer ≠ .arr items)
    (h : normalizeAiAnswer type answer = some y) :
    normalizeAiAnswer type y = some y := by
  unfold normalizeAiAnswer at h ⊢
  by_cases hm : type.eqStr "multiple" = true
  · simp only [if_pos hm] at h ⊢
    by_cases hnull : answer.nullish = true
    · have : normalizeMultipleAnswer answer = some answer := by
        cases answer <;> simp [JsVal.nullish] at hnull <;> rfl
      rw [this] at h
      cases h
      exact this
    · have hstr : ∃ s0, y = .str (normalizeMultipleString s0) := by
        cases answer with
        | arr items => exact absurd rfl (hna hm items)
        | undefined => simp [JsVal.nullish] at hnull
        | null => simp [JsVal.nullish] at hnull
        | bool b =>
          simp only [normalizeMultipleAnswer, JsVal.nullish, Bool.false_eq_true, if_false] at h
          cases hs : JsVal.toStr (.bool b) with
          | none => rw [hs] at h; cases h
          | some s0 => rw [hs] at h; cases h; exact ⟨s0, rfl⟩
        | num n =>
          simp only [normalizeMultipleAnswer, JsVal.nullish, Bool.false_eq_true, if_false] at h
          cases hs : JsVal.toStr (.num n) with
          | none => rw [hs] at h; cases h
          | some s0 => rw [hs] at h; cases h; exact ⟨s0, rfl⟩
        | str s =>
          simp only [normalizeMultipleAnswer, JsVal.nullish, Bool.false_eq_true, if_false] at h
          cases hs : JsVal.toStr (.str s) with
          | none => rw [hs] at h; cases h
          | some s0 => rw [hs] at h; cases h; exact ⟨s0, rfl⟩
        | obj fields =>
          simp only [normalizeMultipleAnswer, JsVal.nullish, Bool.false_eq_true, if_false] at h
          cases hs : JsVal.toStr (.obj fields) with
          | none => rw [hs] at h; cases h
          | some s0 => rw [hs] at h; cases h; exact ⟨s0, rfl⟩
        | native name callable =>
          simp only [normalizeMultipleAnswer, JsVal.nullish, Bool.false_eq_true, if_false] at h
          cases hs : JsVal.toStr (.native name callable) with
          | none => rw [hs] at h; cases h
          | some s0 => rw [hs] at h; cases h; exact ⟨s0, rfl⟩
      obtain ⟨s0, rfl⟩ := hstr
      rw [normalizeMultipleAnswer_str, normalizeMultipleString_eq, normalizeMultipleString_eq,
        multipleReference_idem]
  · simp only [if_neg hm] at h ⊢
    by_cases hsingle : type.eqStr "single" = true
    · simp only [if_pos hsingle] at h ⊢
      by_cases hnull : answer.nullish = true
      · simp only [if_pos hnull] at h
        cases h
        simp only [if_pos hnull]
      · simp only [if_neg hnull] at h
        cases hs : answer.toStr with
        | none => rw [hs] at h; cases h
        | some s =>
          rw [hs] at h
          cases h
          simp only [JsVal.nullish, Bool.false_eq_true, if_false, toStr_str, upper_trim_idem]
    · simp only [if_neg hsingle] at h ⊢
      by_cases hbool : type.eqStr "boolean" = true
      · simp only [if_pos hbool] at h ⊢
        by_cases hnull : answer.nullish = true
        · simp only [if_pos hnull] at h
          cases h
          simp only [if_pos hnull]
        · simp only [if_neg hnull] at h
          cases hs : answer.toStr with
          | none => rw [hs] at h; cases h
          | some s0 =>
            rw [hs] at h
            simp only [] at h
            by_cases h1 : (decide (jsTrim s0 = "√") || decide (jsToLowerCase (jsTrim s0) = "true")) = true
            · rw [if_pos h1] at h
              cases h
              rfl
            · rw [if_neg h1] at h
              by_cases h2 : (decide (jsTrim s0 = "×") ||
                  decide (jsToLowerCase (jsTrim s0) = "false")) = true
              · rw [if_pos h2] at h
                cases h
                rfl
              · rw [if_neg h2] at h
                cases h
                simp only [JsVal.nullish, Bool.false_eq_true, if_false, toStr_str, jsTrim_idem,
                  if_neg h1, if_neg h2]
      · simp only [if_neg hbool]

/-! ## True/false answers -/

/-- The boolean branch of the JSON import maps every entry of the synonym
table, and the booleans, to the canonical tokens. -/
theorem handleJsonParseBoolean_table :
    (∀ s ∈ trueValues, handleJsonParseBoolean (.str s) = some "正确") ∧
    (∀ s ∈ falseValues, handleJsonParseBoolean (.str s) = some "错误") ∧
    handleJsonParseBoolean (.bool true) = some "正确" ∧
    handleJsonParseBoolean (.bool false) = some "错误" := by
  refine ⟨by decide, by decide, by decide, by decide⟩

/-- What `normalizeAiAnswer` does with the synonym table for type `boolean`:
`正确`, `true` in any case, `√` and the boolean `true` give `正确`; `错误`,
`false` in any case, `×` and the boolean `false` give `错误`; the other
synonyms are returned unchanged. -/
theorem normalizeAiAnswer_boolean_table :
    (∀ s ∈ ["正确", "true", "True", "TRUE", "√"],
      normalizeAiAnswer (.str "boolean") (.str s) = some (.str "正确")) ∧
    (∀ s ∈ ["错误", "false", "False", "FALSE", "×"],
      normalizeAiAnswer (.str "boolean") (.str s) = some (.str "错误")) ∧
    normalizeAiAnswer (.str "boolean") (.bool true) = some (.str "正确") ∧
    normalizeAiAnswer (.str "boolean") (.bool false) = some (.str "错误") ∧
    (∀ s ∈ ["对", "是", "yes", "Yes", "YES", "1", "错", "否", "no", "No", "NO", "0"],
      normalizeAiAnswer (.str "boolean") (.str s) = some (.str s)) := by
  refine ⟨?_, ?_, rfl, rfl, ?_⟩
  · intro s hs
    simp only [List.mem_cons, List.mem_singleton, List.not_mem_nil, or_false] at hs
    rcases hs with h | h | h | h | h <;> subst h <;> rfl
  · intro s hs
    simp only [List.mem_cons, List.mem_singleton, List.not_mem_nil, or_false] at hs
    rcases hs with h | h | h | h | h <;> subst h <;> rfl
  · intro s hs
    simp only [List.mem_cons, List.mem_singleton, List.not_mem_nil, or_false] at hs
    rcases hs with h | h | h | h | h | h | h | h | h | h | h | h <;> subst h <;> rfl

/-- C15. For type `boolean`, `normalizeAiAnswer` returns the synonym `0`
unchanged, and so the synonym `对`, where the boolean branch of the
JSON import gives `错误` and `正确`. -/
theorem normalizeAiAnswer_boolean_zero :
    normalizeAiAnswer (.str "boolean") (.str "0") = some (.str "0") ∧
    normalizeAiAnswer (.str "boolean") (.str "对") = some (.str "对") ∧
    handleJsonParseBoolean (.str "0") = some "错误" ∧
    handleJsonParseBoolean (.str "对") = some "正确" :=
  ⟨rfl, rfl, rfl, rfl⟩


/-! ## Fill answers of the JSON import -/

theorem replaceScan_eq_collapseRuns (p : Char → Bool) (cs : List Char) :
    replaceScan p false cs = collapseRuns p cs ∧
    replaceScan p true cs =
      match classRuns p cs with
      | (d :: _) :: runs =>
        if p d then
          runs.flatMap (fun run =>
            match run with
            | d :: _ => if p d then ['|'] else run
            | [] => [])
        else collapseRuns p cs
      | _ => collapseRuns p cs := by
  induction cs with
  | nil => exact ⟨rfl, rfl⟩
  | cons c cs ih =>
    obtain ⟨ih1, ih2⟩ := ih
    unfold collapseRuns at ih1 ih2 ⊢
    by_cases hc : p c = true
    · cases hr : classRuns p cs with
      | nil =>
        rw [hr] at ih1 ih2
        simp only [List.flatMap_nil] at ih1 ih2
        simp [replaceScan, hc, classRuns, hr, ih1, ih2]
      | cons r runs =>
        cases r with
        | nil =>
          rw [hr] at ih1 ih2
          simp only [List.flatMap_cons, List.nil_append] at ih1 ih2
          simp [replaceScan, hc, classRuns, hr, ih1, ih2]
        | cons d run =>
          rw [hr] at ih1 ih2
          simp only [List.flatMap_cons] at ih1 ih2
          by_cases hd : p d = true
          · simp only [hd, if_true] at ih1 ih2
            simp [replaceScan, hc, classRuns, hr, hd, ih2]
          · have hd2 : p d = false := by simpa using hd
            simp only [hd2, Bool.false_eq_true, if_false, List.flatMap_cons] at ih1 ih2
            simp [replaceScan, hc, classRuns, hr, hd2, ih2]
    · have hc2 : p c = false := by simpa using hc
      cases hr : classRuns p cs with
      | nil =>
        rw [hr] at ih1 ih2
        simp only [List.flatMap_nil] at ih1 ih2
        simp [replaceScan, hc2, classRuns, hr, ih1]
      | cons r runs =>
        cases r with
        | nil =>
          rw [hr] at ih1 ih2
          simp only [List.flatMap_cons, List.nil_append] at ih1 ih2
          simp [replaceScan, hc2, classRuns, hr, ih1]
        | cons d run =>
          rw [hr] at ih1 ih2
          simp only [List.flatMap_cons] at ih1 ih2
          by_cases hd : p d = true
          · simp only [hd, if_true] at ih1 ih2
            simp [replaceScan, hc2, classRuns, hr, hd, ih1]
          · have hd2 : p d = false := by simpa using hd
            simp only [hd2, Bool.false_eq_true, if_false] at ih1 ih2
            simp [replaceScan, hc2, classRuns, hr, hd2, ih1]

/-- C16. For every string answer and every content with at least one blank, the
fill normalisation of the JSON import computes the reference answer: the
answer unchanged for one blank, unchanged when it contains `|`, otherwise with
every maximal run of the separators `,` `，` `、` `;` `；` replaced by one `|`.
The branch yields that value when it has as many `|`-separated segments as
the content has blanks, and its check of the answer count throws otherwise.  With
one blank `Paris, France` stays as it is; with two blanks `北京,上海` gives
`北京|上海`. -/
theorem jsonFillAnswer_eq_reference (index : Nat) (content answer : String)
    (hb : 1 ≤ blankCount content) :
    jsonFillAnswer (blankCount content) answer = fillReference (blankCount content) answer ∧
    ((jsSplit (fillReference (blankCount content) answer) '|').length = blankCount content →
      handleJsonParseFill index content answer =
        .ok (fillReference (blankCount content) answer)) ∧
    ((jsSplit (fillReference (blankCount content) answer) '|').length ≠ blankCount content →
      ∃ message, handleJsonParseFill index content answer = .error message) ∧
    jsonFillAnswer 1 "Paris, France" = "Paris, France" ∧
    jsonFillAnswer 2 "北京,上海" = "北京|上海" := by
  have key : ∀ b : Nat, 1 ≤ b → jsonFillAnswer b answer = fillReference b answer := by
    intro b hb1
    unfold jsonFillAnswer fillReference
    by_cases h1 : b = 1
    · subst h1
      simp
    · have hgt : b > 1 := by omega
      by_cases hbar : answer.data.contains '|' = true
      · have hm : '|' ∈ answer.data := by simpa using hbar
        simp [h1, hgt, hm]
      · have hbar2 : answer.data.contains '|' = false := by simpa using hbar
        simp only [h1, hgt, hbar2, if_false, decide_True, Bool.not_false, Bool.and_self, if_true,
          Bool.false_eq_true]
        rw [(replaceScan_eq_collapseRuns isFillSep answer.data).1]
  have h0 : blankCount content ≠ 0 := by omega
  refine ⟨key _ hb, ?_, ?_, by decide, by decide⟩
  · intro hlen
    unfold handleJsonParseFill
    simp only [if_neg h0, key _ hb, hlen, ne_eq, not_true_eq_false, if_false]
  · intro hlen
    unfold handleJsonParseFill
    simp only [if_neg h0, key _ hb, if_pos hlen]
    exact ⟨_, rfl⟩

theorem jsonFillAnswer_eq_reference_witness :
    1 ≤ blankCount "中国的首都是___，最大的城市是___。" ∧
    jsonFillAnswer (blankCount "中国的首都是___，最大的城市是___。") "北京,上海" = "北京|上海" ∧
    handleJsonParseFill 0 "中国的首都是___，最大的城市是___。" "北京,上海" = .ok "北京|上海" :=
  ⟨by decide,
    (jsonFillAnswer_eq_reference 0 "中国的首都是___，最大的城市是___。" "北京,上海"
      (by decide)).1.trans (by decide),
    ((jsonFillAnswer_eq_reference 0 "中国的首都是___，最大的城市是___。" "北京,上海"
      (by decide)).2.1 (by decide)).trans (congrArg Except.ok (by decide))⟩


/-! ## Option normalisation -/

theorem mapAiOptions_get (k : Nat) (opts os : List JsVal) (h : mapAiOptions k opts = some os) :
    os.length = opts.length ∧
    ∀ i opt, opts[i]? = some opt → ∃ o, os[i]? = some o ∧ normalizeAiOption opt (k + i) = some o := by
  induction opts generalizing k os with
  | nil =>
    simp only [mapAiOptions, Option.some.injEq] at h
    subst h
    simp
  | cons opt rest ih =>
    unfold mapAiOptions at h
    cases ho : normalizeAiOption opt k with
    | none => rw [ho] at h; exact Option.noConfusion h
    | some o =>
      rw [ho] at h
      cases hr : mapAiOptions (k + 1) rest with
      | none => rw [hr] at h; exact Option.noConfusion h
      | some os2 =>
        rw [hr] at h
        simp only [Option.some.injEq] at h
        subst h
        obtain ⟨hlen, hget⟩ := ih (k + 1) os2 hr
        refine ⟨by simp [hlen], ?_⟩
        intro i opt2 hi
        cases i with
        | zero =>
          simp only [List.getElem?_cons_zero, Option.some.injEq] at hi
          subst hi
          exact ⟨o, by simp, by simpa using ho⟩
        | succ j =>
          simp only [List.getElem?_cons_succ] at hi
          obtain ⟨o2, ho2, hn⟩ := hget j opt2 hi
          refine ⟨o2, by simpa using ho2, ?_⟩
          rw [← hn]
          congr 1
          omega

theorem normalizeAiOption_record (opt o : JsVal) (i : Nat)
    (hrec : opt.truthy = true ∧ opt.typeofObject = true)
    (h : normalizeAiOption opt i = some o) :
    o.truthy = true ∧
    ((opt.get "id").nullish = true →
      o.get "id" = .str (jsToUpperCase (jsTrim ⟨[Char.ofNat (65 + i)]⟩))) ∧
    ((opt.get "id").nullish = false →
      ∃ s, (opt.get "id").toStr = some s ∧ o.get "id" = .str (jsToUpperCase (jsTrim s))) := by
  unfold normalizeAiOption at h
  simp only [hrec.1, hrec.2, Bool.not_true, Bool.or_self, Bool.false_eq_true, if_false] at h
  by_cases hn : (opt.get "id").nullish = true
  · simp only [hn, if_true] at h
    have hs : (JsVal.str ⟨[Char.ofNat (65 + i)]⟩).toStr = some ⟨[Char.ofNat (65 + i)]⟩ := rfl
    rw [hs] at h
    simp only at h
    refine ⟨?_, ?_, fun hf => absurd hn (by rw [hf]; decide)⟩
    · split at h
      · cases h; rfl
      · split at h
        · exact Option.noConfusion h
        · cases h; rfl
    · intro _
      split at h
      · cases h; rfl
      · split at h
        · exact Option.noConfusion h
        · cases h; rfl
  · have hn2 : (opt.get "id").nullish = false := by simpa using hn
    simp only [hn2, Bool.false_eq_true, if_false] at h
    cases hs : (opt.get "id").toStr with
    | none => rw [hs] at h; exact Option.noConfusion h
    | some s =>
      rw [hs] at h
      simp only at h
      refine ⟨?_, fun hf => absurd hf (by rw [hn2]; decide), fun _ => ⟨s, rfl, ?_⟩⟩
      · split at h
        · cases h; rfl
        · split at h
          · exact Option.noConfusion h
          · cases h; rfl
      · split at h
        · cases h; rfl
        · split at h
          · exact Option.noConfusion h
          · cases h; rfl

theorem positional_letter (i : Nat) (h : i < 26) :
    jsToUpperCase (jsTrim ⟨[Char.ofNat (65 + i)]⟩) = ⟨[Char.ofNat (65 + i)]⟩ := by
  interval_cases i <;> decide


/-- C17, as stated: it is not the case that every option with a blank id
receives the positional letter of its index; for `[{id: " ", text: "x"}]` the
id of the result is the empty string. -/
theorem normalizeAiOptions_blank_id_not_positional :
    ¬ ∀ (options result : List JsVal) (i : Nat) (opt r : JsVal),
        normalizeAiOptions (.arr options) = some (.arr result) →
        options[i]? = some opt → result[i]? = some r →
        (∃ s, opt.get "id" = .str s ∧ jsTrim s = "") →
        r.get "id" = .str ⟨[Char.ofNat (65 + i)]⟩ := by
  intro h
  have hA := h [blankIdOption]
    [.obj [("id", .str ""), ("text", .str "x"), ("id", .str " "), ("text", .str "x")]]
    0 blankIdOption _ rfl rfl rfl ⟨" ", rfl, by decide⟩
  have hE : (JsVal.str "" : JsVal) = .str ⟨[Char.ofNat (65 + 0)]⟩ := hA
  have := JsVal.str.inj hE
  revert this
  decide

/-- C17, amended. For every array of option records for which
`normalizeAiOptions` returns, the result has one option per input option, in
order; its id is the string value of the input id, trimmed and upper-cased;
an option whose id is missing (`null` or `undefined`) receives the positional
letter of its index in the input array (`A` for index 0 up to `Z` for index
25); an option whose id is a blank string gets the empty id. -/
theorem normalizeAiOptions_ids (options result : List JsVal)
    (hrec : ∀ opt ∈ options, opt.truthy = true ∧ opt.typeofObject = true)
    (h : normalizeAiOptions (.arr options) = some (.arr result)) :
    result.length = options.length ∧
    ∀ i opt, options[i]? = some opt → ∃ r, result[i]? = some r ∧
      ((opt.get "id").nullish = true → i < 26 → r.get "id" = .str ⟨[Char.ofNat (65 + i)]⟩) ∧
      ((opt.get "id").nullish = false →
        ∃ s, (opt.get "id").toStr = some s ∧ r.get "id" = .str (jsToUpperCase (jsTrim s))) ∧
      (∀ s, opt.get "id" = .str s → jsTrim s = "" → r.get "id" = .str "") := by
  unfold normalizeAiOptions at h
  simp only at h
  cases hm : mapAiOptions 0 options with
  | none => rw [hm] at h; exact Option.noConfusion h
  | some os =>
    rw [hm] at h
    simp only [Option.some.injEq, JsVal.arr.injEq] at h
    obtain ⟨hlen, hget⟩ := mapAiOptions_get 0 options os hm
    have hall : ∀ o ∈ os, o.truthy = true := by
      intro o ho
      obtain ⟨i, hi⟩ := List.getElem?_of_mem ho
      have hlt : i < options.length := by
        rw [← hlen]
        exact (List.getElem?_eq_some_iff.mp hi).1
      obtain ⟨o2, ho2, hn⟩ := hget i options[i] (List.getElem?_eq_getElem hlt)
      rw [hi] at ho2
      cases ho2
      exact (normalizeAiOption_record _ _ _ (hrec _ (List.getElem_mem hlt)) hn).1
    have hos : os = result := by
      rw [← h]
      exact (List.filter_eq_self.mpr hall).symm
    subst hos
    refine ⟨hlen, ?_⟩
    intro i opt hi
    obtain ⟨o, ho, hn⟩ := hget i opt hi
    rw [Nat.zero_add] at hn
    have hmem : opt ∈ options := List.getElem?_mem hi
    obtain ⟨_, h1, h2⟩ := normalizeAiOption_record opt o i (hrec opt hmem) hn
    refine ⟨o, ho, ?_, h2, ?_⟩
    · intro hnull hi26
      rw [h1 hnull, positional_letter i hi26]
    · intro s hs hblank
      have hnn : (opt.get "id").nullish = false := by rw [hs]; rfl
      obtain ⟨s2, hs2, hid⟩ := h2 hnn
      rw [hs] at hs2
      have : s2 = s := by
        have : some s = some s2 := hs2
        exact (Option.some.inj this).symm
      rw [hid, this, hblank]
      rfl

theorem normalizeAiOptions_ids_witness :
    ∃ result, normalizeAiOptions (.arr looseOptions) = some (.arr result) ∧
      result.length = 2 ∧
      ∃ r0 r1, result[0]? = some r0 ∧ result[1]? = some r1 ∧
        r0.get "id" = .str "A" ∧ r1.get "id" = .str "B" := by
  refine ⟨_, rfl, rfl, ?_⟩
  have hrec : ∀ opt ∈ looseOptions, opt.truthy = true ∧ opt.typeofObject = true := by
    intro opt hopt
    simp only [looseOptions, List.mem_cons, List.mem_singleton, List.not_mem_nil, or_false] at hopt
    rcases hopt with e | e <;> subst e <;> exact ⟨rfl, rfl⟩
  obtain ⟨r0, h0, hn0, _, _⟩ := (normalizeAiOptions_ids looseOptions _ hrec rfl).2 0 _ rfl
  obtain ⟨r1, h1, _, hs1, _⟩ := (normalizeAiOptions_ids looseOptions _ hrec rfl).2 1 _ rfl
  refine ⟨r0, r1, h0, h1, hn0 rfl (by decide), ?_⟩
  obtain ⟨s, hs, hid⟩ := hs1 rfl
  have : s = " b " := (Option.some.inj hs).symm
  rw [hid, this]
  rfl


/-! ## The AI parse result -/

theorem normalizeAiQuestion_truthy (q n : JsVal) (h : normalizeAiQuestion q = some n) :
    n.truthy = isRecord q := by
  unfold normalizeAiQuestion at h
  unfold isRecord
  by_cases hq : (!q.truthy || !q.typeofObject) = true
  · rw [if_pos hq] at h
    cases h
    cases ht : q.truthy <;> cases ho : q.typeofObject <;> simp [ht, ho] at hq ⊢
  · rw [if_neg hq] at h
    have hrec : (q.truthy && q.typeofObject) = true := by
      cases ht : q.truthy <;> cases ho : q.typeofObject <;> simp [ht, ho] at hq ⊢
    rw [hrec]
    simp only at h
    split at h
    · exact Option.noConfusion h
    · split at h
      · split at h
        · exact Option.noConfusion h
        · split at h
          · exact Option.noConfusion h
          · cases h; rfl
      · split at h
        · exact Option.noConfusion h
        · cases h; rfl

theorem mapAiQuestions_filter (qs ns : List JsVal) (h : mapAiQuestions qs = some ns) :
    (ns.filter (fun n => n.truthy)).map some = (qs.filter isRecord).map normalizeAiQuestion := by
  induction qs generalizing ns with
  | nil =>
    simp only [mapAiQuestions, Option.some.injEq] at h
    subst h
    rfl
  | cons q rest ih =>
    unfold mapAiQuestions at h
    cases hq : normalizeAiQuestion q with
    | none => rw [hq] at h; exact Option.noConfusion h
    | some n =>
      rw [hq] at h
      cases hr : mapAiQuestions rest with
      | none => rw [hr] at h; exact Option.noConfusion h
      | some ns2 =>
        rw [hr] at h
        simp only [Option.some.injEq] at h
        subst h
        have ht := normalizeAiQuestion_truthy q n hq
        have := ih ns2 hr
        by_cases hrec : isRecord q = true
        · rw [hrec] at ht
          simp only [List.filter_cons, ht, hrec, if_true, List.map_cons, this, hq]
        · have hrec2 : isRecord q = false := by simpa using hrec
          rw [hrec2] at ht
          simp only [List.filter_cons, ht, hrec2, Bool.false_eq_true, if_false, this]

theorem mapAiQuestions_none (qs : List JsVal) (h : mapAiQuestions qs = none) :
    ∃ q ∈ qs, normalizeAiQuestion q = none := by
  induction qs with
  | nil => simp [mapAiQuestions] at h
  | cons q rest ih =>
    unfold mapAiQuestions at h
    cases hq : normalizeAiQuestion q with
    | none => exact ⟨q, by simp, hq⟩
    | some n =>
      rw [hq] at h
      cases hr : mapAiQuestions rest with
      | none =>
        obtain ⟨q2, hq2, hn⟩ := ih hr
        exact ⟨q2, by simp [hq2], hn⟩
      | some ns2 =>
        rw [hr] at h
        exact Option.noConfusion h

/-- Whenever `normalizeAiParseResult` returns, the questions list of the result
is the input questions list without the entries that are no structured records
and with every remaining entry replaced by `normalizeAiQuestion` of it, in the
original order; without a questions array in the payload it returns an empty
questions list; it throws only when `normalizeAiQuestion` throws on an entry. -/
theorem normalizeAiParseResult_questions (result : JsVal) :
    (∀ r, normalizeAiParseResult result = some r →
      ∃ ns, r.get "questions" = .arr ns ∧
        ns.map some = ((payloadQuestions result).filter isRecord).map normalizeAiQuestion) ∧
    (payloadQuestions result = [] →
      ∃ r, normalizeAiParseResult result = some r ∧ r.get "questions" = .arr []) ∧
    (normalizeAiParseResult result = none →
      ∃ q ∈ payloadQuestions result, normalizeAiQuestion q = none) := by
  refine ⟨?_, ?_, ?_⟩
  · intro r hr
    unfold normalizeAiParseResult at hr
    cases hm : mapAiQuestions (payloadQuestions result) with
    | none => rw [hm] at hr; exact Option.noConfusion hr
    | some ns =>
      rw [hm] at hr
      simp only [Option.some.injEq] at hr
      subst hr
      exact ⟨_, rfl, mapAiQuestions_filter _ _ hm⟩
  · intro hnil
    unfold normalizeAiParseResult
    rw [hnil]
    exact ⟨_, rfl, rfl⟩
  · intro hnone
    unfold normalizeAiParseResult at hnone
    cases hm : mapAiQuestions (payloadQuestions result) with
    | none => exact mapAiQuestions_none _ hm
    | some ns =>
      rw [hm] at hnone
      exact Option.noConfusion hnone

/-- C18. The payload
`{questions: [{type: "single", content: "1+1=?", answer: {toString: null}}]}`
makes `normalizeAiParseResult` throw: `String(answer)` has no value for the
answer record of its candidate. -/
theorem normalizeAiParseResult_throws_on_unprintable_answer :
    normalizeAiParseResult unprintableAnswerPayload = none :=
  rfl


theorem typeMap_undefined (key : String) (h : typeMap key = .undefined) :
    key ≠ "single" ∧ key ≠ "multiple" ∧ key ≠ "boolean" := by
  refine ⟨?_, ?_, ?_⟩ <;> (intro e; rw [e] at h; exact JsVal.noConfusion h)

/-- A record whose type token does not resolve keeps its trimmed type token
and its answer. -/
theorem normalizeAiQuestion_unresolved (q : JsVal) (t : String)
    (hrec : isRecord q = true) (htype : q.get "type" = .str t)
    (hun : typeMap (jsTrim t) = .undefined) :
    ∃ n, normalizeAiQuestion q = some n ∧ n.get "type" = .str (jsTrim t) ∧
      n.get "answer" = q.get "answer" := by
  obtain ⟨h1, h2, h3⟩ := typeMap_undefined _ hun
  have hq : (!q.truthy || !q.typeofObject) = false := by
    unfold isRecord at hrec
    cases ht : q.truthy <;> cases ho : q.typeofObject <;> simp [ht, ho] at hrec ⊢
  have hnt : normalizeAiType (.str (jsTrim t)) = some (.str (jsTrim t)) := by
    simp only [normalizeAiType, JsVal.toStr, hun, truthy_undefined, Bool.false_eq_true, if_false]
  have hans : normalizeAiAnswer (.str (jsTrim t)) (q.get "answer") = some (q.get "answer") := by
    simp only [normalizeAiAnswer, JsVal.eqStr, beq_iff_eq, h1, h2, h3, if_false]
  refine ⟨.obj (("answer", q.get "answer") :: ("type", .str (jsTrim t)) :: spreadFields q),
    ?_, rfl, rfl⟩
  unfold normalizeAiQuestion
  simp only [hq, Bool.false_eq_true, if_false, htype, hnt, JsVal.eqStr, beq_iff_eq, h1, h2,
    Bool.or_self, hans]
  rw [if_neg (by simp [h1, h2])]

/-- C19, as stated: it is not the case that every candidate whose type token
is outside the synonym table is absent from the questions list returned by
`normalizeAiParseResult`; the candidate with type `essay` is returned. -/
theorem unresolved_type_not_dropped :
    ¬ ∀ (result r q : JsVal) (t : String) (ns : List JsVal),
        normalizeAiParseResult result = some r → q ∈ payloadQuestions result →
        q.get "type" = .str t → aiTypeTable.lookup (jsTrim t) = none →
        r.get "questions" = .arr ns → ∀ n ∈ ns, normalizeAiQuestion q ≠ some n := by
  intro h
  exact h essayPayload _ essayCandidate "essay" _ rfl (by simp [payloadQuestions, essayPayload,
    JsVal.get, List.lookup]) rfl (by decide) rfl _ (List.mem_singleton.mpr rfl) rfl

/-- C19, amended. For every raw payload for which `normalizeAiParseResult`
returns, a candidate record whose type token does not resolve via the table of
`normalizeAiType` is not dropped: it is in the returned questions list, with
its trimmed type token as type and its answer unchanged. -/
theorem unresolved_type_kept (result r q : JsVal) (t : String)
    (hr : normalizeAiParseResult result = some r) (hq : q ∈ payloadQuestions result)
    (hrec : isRecord q = true) (htype : q.get "type" = .str t)
    (hun : typeMap (jsTrim t) = .undefined) :
    ∃ ns n, r.get "questions" = .arr ns ∧ n ∈ ns ∧ normalizeAiQuestion q = some n ∧
      n.get "type" = .str (jsTrim t) ∧ n.get "answer" = q.get "answer" := by
  obtain ⟨ns, hns, hmap⟩ := (normalizeAiParseResult_questions result).1 r hr
  obtain ⟨n, hn, hty, han⟩ := normalizeAiQuestion_unresolved q t hrec htype hun
  refine ⟨ns, n, hns, ?_, hn, hty, han⟩
  have hmem : normalizeAiQuestion q ∈ ((payloadQuestions result).filter isRecord).map
      normalizeAiQuestion :=
    List.mem_map_of_mem _ (List.mem_filter.mpr ⟨hq, hrec⟩)
  rw [← hmap, hn] at hmem
  obtain ⟨n2, hn2, he⟩ := List.mem_map.mp hmem
  cases he
  exact hn2

theorem unresolved_type_kept_witness :
    isRecord essayCandidate = true ∧ typeMap (jsTrim "essay") = .undefined ∧
    ∃ r, normalizeAiParseResult essayPayload = some r ∧
      ∃ ns n, r.get "questions" = .arr ns ∧ n ∈ ns ∧
        normalizeAiQuestion essayCandidate = some n ∧
        n.get "type" = .str (jsTrim "essay") ∧ n.get "answer" = essayCandidate.get "answer" :=
  ⟨rfl, rfl, _, rfl,
    unresolved_type_kept essayPayload _ essayCandidate "essay" rfl
      (by simp [payloadQuestions, essayPayload, JsVal.get, List.lookup]) rfl rfl rfl⟩


/-! ## Wrong book -/

theorem entriesOf_wrongUpsert (book : List WrongBookEntry) (q b : Int) (now : Nat) :
    entriesOf (wrongUpsert book q b now) q =
      if entriesOf book q = [] then [⟨q, b, 1, 0, now, now⟩]
      else (entriesOf book q).map (fun e =>
        { e with bankId := b, wrongCount := e.wrongCount + 1, lastWrongAt := now }) := by
  unfold wrongUpsert entriesOf
  by_cases hany : book.any (fun e => e.questionId == q) = true
  · have hne : book.filter (fun e => e.questionId == q) ≠ [] := by
      intro hnil
      obtain ⟨e, he, heq⟩ := List.any_eq_true.mp hany
      have : e ∈ book.filter (fun e => e.questionId == q) := List.mem_filter.mpr ⟨he, heq⟩
      rw [hnil] at this
      simp at this
    rw [if_pos hany, if_neg hne]
    clear hany hne
    induction book with
    | nil => rfl
    | cons e rest ih =>
      by_cases he : e.questionId = q
      · simp [List.filter_cons, he, ih]
      · simp [List.filter_cons, he, ih]
  · have hnil : book.filter (fun e => e.questionId == q) = [] := by
      rw [List.filter_eq_nil_iff]
      intro e he heq
      exact hany (List.any_eq_true.mpr ⟨e, he, heq⟩)
    rw [if_neg hany, if_pos hnil, List.filter_append, hnil]
    simp

theorem entriesOf_correctUpdate (book : List WrongBookEntry) (q : Int) :
    entriesOf (correctUpdate book q) q =
      (entriesOf book q).map (fun e => { e with correctCount := e.correctCount + 1 }) := by
  unfold correctUpdate entriesOf
  induction book with
  | nil => rfl
  | cons e rest ih =>
    by_cases he : e.questionId = q
    · simp [List.filter_cons, he, ih]
    · simp [List.filter_cons, he, ih]

theorem selectCorrectCount_eq (book : List WrongBookEntry) (q : Int) :
    selectCorrectCount book q = (entriesOf book q).head?.map (fun e => e.correctCount) := by
  unfold selectCorrectCount entriesOf
  induction book with
  | nil => rfl
  | cons e rest ih =>
    by_cases he : (e.questionId == q) = true
    · simp [List.find?_cons, List.filter_cons, he]
    · have he2 : (e.questionId == q) = false := by simpa using he
      simp only [List.find?_cons, he2, List.filter_cons, Bool.false_eq_true, if_false]
      exact ih

theorem entriesOf_delete (book : List WrongBookEntry) (q : Int) :
    entriesOf (deleteWrongBookEntry book q) q = [] := by
  unfold deleteWrongBookEntry entriesOf
  rw [List.filter_filter, List.filter_eq_nil_iff]
  intro e _
  by_cases he : e.questionId = q <;> simp [he]

/-- A correct result for a valid question and bank: nothing happens without a
row for the question; otherwise the correct count of the row goes up by one
and the row is deleted when the count reaches the threshold. -/
theorem entriesOf_apply_correct (t : Int) (now : Nat) (book : List WrongBookEntry) (q b : Int)
    (hq : 0 < q) (hb : 0 < b) :
    entriesOf (applyPracticeResult t now book (practiceResult q b true)) q =
      match entriesOf book q with
      | [] => []
      | e :: es =>
        if e.correctCount + 1 ≥ t then []
        else (e :: es).map (fun e => { e with correctCount := e.correctCount + 1 }) := by
  have hq2 : ¬ q ≤ 0 := by omega
  have hb2 : ¬ b ≤ 0 := by omega
  simp only [applyPracticeResult, practiceResult, if_neg hq2, if_neg hb2, Bool.not_true,
    Bool.false_eq_true, if_false]
  rw [selectCorrectCount_eq, entriesOf_correctUpdate]
  cases he : entriesOf book q with
  | nil =>
    simp only [List.map_nil, List.head?_nil, Option.map_none']
    rw [entriesOf_correctUpdate, he]
    rfl
  | cons e es =>
    simp only [List.map_cons, List.head?_cons, Option.map_some']
    by_cases hge : e.correctCount + 1 ≥ t
    · rw [if_pos hge, if_pos hge, entriesOf_delete]
    · rw [if_neg hge, if_neg hge, entriesOf_correctUpdate, he]
      rfl

theorem entriesOf_apply_wrong (t : Int) (now : Nat) (book : List WrongBookEntry) (q b : Int)
    (hq : 0 < q) (hb : 0 < b) :
    entriesOf (applyPracticeResult t now book (practiceResult q b false)) q =
      if entriesOf book q = [] then [⟨q, b, 1, 0, now, now⟩]
      else (entriesOf book q).map (fun e =>
        { e with bankId := b, wrongCount := e.wrongCount + 1, lastWrongAt := now }) := by
  have hq2 : ¬ q ≤ 0 := by omega
  have hb2 : ¬ b ≤ 0 := by omega
  simp only [applyPracticeResult, practiceResult, if_neg hq2, if_neg hb2, Bool.not_false,
    if_true]
  exact entriesOf_wrongUpsert book q b now

/-- A run of correct results for one question, from a single row with correct
count `c` below the threshold. -/
theorem entriesOf_fold_corrects (t : Int) (now : Nat) (q : Int) (hq : 0 < q) (bs : List Int)
    (hbs : ∀ x ∈ bs, 0 < x) (book : List WrongBookEntry) (e : WrongBookEntry)
    (he : entriesOf book q = [e]) (hlt : e.correctCount < t) :
    entriesOf ((bs.map (fun x => practiceResult q x true)).foldl (applyPracticeResult t now) book) q =
      if e.correctCount + bs.length < t then
        [{ e with correctCount := e.correctCount + bs.length }]
      else [] := by
  induction bs generalizing book e with
  | nil =>
    simp only [List.map_nil, List.foldl_nil, List.length_nil, Nat.cast_zero, Int.add_zero]
    rw [if_pos hlt, he]
  | cons x rest ih =>
    have hx : 0 < x := hbs x (by simp)
    have hrest : ∀ y ∈ rest, 0 < y := fun y hy => hbs y (by simp [hy])
    simp only [List.map_cons, List.foldl_cons, List.length_cons]
    have hstep := entriesOf_apply_correct t now book q x hq hx
    rw [he] at hstep
    simp only at hstep
    by_cases hge : e.correctCount + 1 ≥ t
    · rw [if_pos hge] at hstep
      have hnil : ∀ (l : List Int) (bk : List WrongBookEntry), (∀ y ∈ l, 0 < y) →
          entriesOf bk q = [] →
          entriesOf ((l.map (fun x => practiceResult q x true)).foldl
            (applyPracticeResult t now) bk) q = [] := by
        intro l
        induction l with
        | nil => intro bk _ h; exact h
        | cons y l ihl =>
          intro bk hl h
          simp only [List.map_cons, List.foldl_cons]
          apply ihl _ (fun z hz => hl z (by simp [hz]))
          rw [entriesOf_apply_correct t now bk q y hq (hl y (by simp)), h]
      rw [hnil rest _ hrest hstep, if_neg]
      push_cast
      omega
    · rw [if_neg hge] at hstep
      simp only [List.map_cons, List.map_nil] at hstep
      have := ih hrest _ _ hstep (by simp only; omega)
      rw [this]
      simp only
      push_cast
      by_cases hfin : e.correctCount + (↑rest.length + 1) < t
      · have h2 : e.correctCount + 1 + ↑rest.length < t := by omega
        rw [if_pos hfin, if_pos h2]
        congr 2
        omega
      · have h2 : ¬ e.correctCount + 1 + ↑rest.length < t := by omega
        rw [if_neg hfin, if_neg h2]


theorem entriesOf_cleanup_nil (db : Database) (q : Int)
    (h : entriesOf db.wrongBook q = []) :
    entriesOf (cleanupWrongBookOrphans db).wrongBook q = [] := by
  unfold cleanupWrongBookOrphans entriesOf at *
  simp only
  rw [List.filter_eq_nil_iff] at h ⊢
  intro e he
  exact h e (List.mem_filter.mp he).1

/-- C20. Wrong-book threshold scenario: for every integer threshold `t ≥ 1`,
every valid question id (and valid bank ids) and every number `k` of correct
results, starting from a wrong book with no row for the question, one wrong
result followed by `k` correct results applied through
`updateWrongBookFromPractice` leave one row with wrong count 1 and correct
count `k` when `k < t`, and no row when `k ≥ t`. -/
theorem wrong_then_corrects (db : Database) (t q b : Int) (bs : List Int) (now : Nat)
    (ht : 1 ≤ t) (hq : 0 < q) (hb : 0 < b) (hbs : ∀ x ∈ bs, 0 < x)
    (hno : entriesOf db.wrongBook q = []) :
    ((bs.length : Int) < t →
      entriesOf (updateWrongBookFromPractice db
        (practiceResult q b false :: bs.map (fun x => practiceResult q x true)) t now).wrongBook q =
        [⟨q, b, 1, bs.length, now, now⟩]) ∧
    (t ≤ (bs.length : Int) →
      entriesOf (updateWrongBookFromPractice db
        (practiceResult q b false :: bs.map (fun x => practiceResult q x true)) t now).wrongBook q =
        []) := by
  have hpos : t > 0 := by omega
  have hcl := entriesOf_cleanup_nil db q hno
  have hwrong := entriesOf_apply_wrong t now (cleanupWrongBookOrphans db).wrongBook q b hq hb
  rw [if_pos hcl] at hwrong
  have hfold := entriesOf_fold_corrects t now q hq bs hbs _ _ hwrong (by simp only; omega)
  simp only [Int.zero_add] at hfold
  have hmain : entriesOf (updateWrongBookFromPractice db
      (practiceResult q b false :: bs.map (fun x => practiceResult q x true)) t now).wrongBook q =
      if (bs.length : Int) < t then [⟨q, b, 1, bs.length, now, now⟩] else [] := by
    simp only [updateWrongBookFromPractice, if_pos hpos, List.foldl_cons]
    exact hfold
  constructor
  · intro hlt
    rw [hmain, if_pos hlt]
  · intro hge
    rw [hmain, if_neg (by omega)]

theorem wrong_then_corrects_witness :
    entriesOf (updateWrongBookFromPractice ⟨[7], []⟩
      [practiceResult 7 1 false, practiceResult 7 1 true, practiceResult 7 1 true] 3 100).wrongBook
      7 = [⟨7, 1, 1, 2, 100, 100⟩] ∧
    entriesOf (updateWrongBookFromPractice ⟨[7], []⟩
      [practiceResult 7 1 false, practiceResult 7 1 true, practiceResult 7 1 true,
        practiceResult 7 1 true] 3 100).wrongBook 7 = [] :=
  ⟨(wrong_then_corrects ⟨[7], []⟩ 3 7 1 [1, 1] 100 (by decide) (by decide) (by decide)
      (by decide) rfl).1 (by decide),
    (wrong_then_corrects ⟨[7], []⟩ 3 7 1 [1, 1, 1] 100 (by decide) (by decide) (by decide)
      (by decide) rfl).2 (by decide)⟩

/-! ## Wrong book: one result -/

theorem entriesOf_wrongUpsert_other (book : List WrongBookEntry) (q b : Int) (now : Nat)
    (q2 : Int) (h : q2 ≠ q) :
    entriesOf (wrongUpsert book q b now) q2 = entriesOf book q2 := by
  unfold wrongUpsert entriesOf
  by_cases hany : book.any (fun e => e.questionId == q) = true
  · rw [if_pos hany]
    clear hany
    induction book with
    | nil => rfl
    | cons e rest ih =>
      by_cases he : e.questionId = q
      · have he2 : ¬ e.questionId = q2 := by rw [he]; exact fun x => h x.symm
        simp [List.filter_cons, he, ih, h.symm]
      · by_cases he2 : e.questionId = q2
        · simp [List.filter_cons, he2, ih, h]
        · simp [List.filter_cons, he, he2, ih]
  · rw [if_neg hany, List.filter_append]
    simp [h.symm]

theorem entriesOf_correctUpdate_other (book : List WrongBookEntry) (q q2 : Int) (h : q2 ≠ q) :
    entriesOf (correctUpdate book q) q2 = entriesOf book q2 := by
  unfold correctUpdate entriesOf
  induction book with
  | nil => rfl
  | cons e rest ih =>
    by_cases he : e.questionId = q
    · simp [List.filter_cons, he, ih, h.symm]
    · by_cases he2 : e.questionId = q2
      · simp [List.filter_cons, he2, ih, h]
      · simp [List.filter_cons, he, he2, ih]

theorem entriesOf_delete_other (book : List WrongBookEntry) (q q2 : Int) (h : q2 ≠ q) :
    entriesOf (deleteWrongBookEntry book q) q2 = entriesOf book q2 := by
  unfold deleteWrongBookEntry entriesOf
  rw [List.filter_filter]
  apply List.filter_congr
  intro e _
  by_cases he : e.questionId = q2
  · simp [he, h]
  · simp [he]

/-- A result leaves the rows of every other question as they are. -/
theorem entriesOf_apply_other (t : Int) (now : Nat) (book : List WrongBookEntry)
    (r : PracticeResult) (q2 : Int) (h : r.questionId ≠ some q2) :
    entriesOf (applyPracticeResult t now book r) q2 = entriesOf book q2 := by
  obtain ⟨rq, rb, rc⟩ := r
  cases rq with
  | none => rfl
  | some q =>
    cases rb with
    | none => rfl
    | some b =>
      have hq : q2 ≠ q := fun e => h (by rw [e])
      simp only [applyPracticeResult]
      by_cases h1 : q ≤ 0
      · rw [if_pos h1]
      rw [if_neg h1]
      by_cases h2 : b ≤ 0
      · rw [if_pos h2]
      rw [if_neg h2]
      cases rc with
      | false =>
        simp only [Bool.not_false, if_true]
        exact entriesOf_wrongUpsert_other book q b now q2 hq
      | true =>
        simp only [Bool.not_true, Bool.false_eq_true, if_false]
        cases selectCorrectCount (correctUpdate book q) q with
        | none => exact entriesOf_correctUpdate_other book q q2 hq
        | some c =>
          simp only
          by_cases hc : c ≥ t
          · rw [if_pos hc, entriesOf_delete_other _ q q2 hq]
            exact entriesOf_correctUpdate_other book q q2 hq
          · rw [if_neg hc]
            exact entriesOf_correctUpdate_other book q q2 hq

/-- A result that the loop skips leaves the wrong book as it is. -/
theorem apply_of_not_countsFor (t : Int) (now : Nat) (book : List WrongBookEntry)
    (r : PracticeResult) (h : ∀ q, 0 < q → countsFor q r = false) :
    applyPracticeResult t now book r = book := by
  obtain ⟨rq, rb, rc⟩ := r
  cases rq with
  | none => rfl
  | some q =>
    cases rb with
    | none => rfl
    | some b =>
      simp only [applyPracticeResult]
      by_cases h1 : q ≤ 0
      · rw [if_pos h1]
      rw [if_neg h1]
      by_cases h2 : b ≤ 0
      · rw [if_pos h2]
      have := h q (by omega)
      simp [countsFor] at this
      omega

theorem countsFor_iff (q : Int) (r : PracticeResult) :
    countsFor q r = true ↔ ∃ b, 0 < b ∧ r.questionId = some q ∧ r.bankId = some b := by
  obtain ⟨rq, rb, rc⟩ := r
  cases rb with
  | none => simp [countsFor]
  | some b => simp [countsFor]; tauto

theorem correctUpdate_of_no_entry (book : List WrongBookEntry) (q : Int)
    (h : entriesOf book q = []) : correctUpdate book q = book := by
  unfold correctUpdate
  unfold entriesOf at h
  rw [List.filter_eq_nil_iff] at h
  conv_rhs => rw [← List.map_id book]
  apply List.map_congr_left
  intro e he
  have := h e he
  simp only [beq_iff_eq] at this
  simp [this]

theorem entriesOf_cleanup_of_mem (db : Database) (q : Int) (h : q ∈ db.questionIds) :
    entriesOf (cleanupWrongBookOrphans db).wrongBook q = entriesOf db.wrongBook q := by
  unfold cleanupWrongBookOrphans entriesOf
  simp only
  rw [List.filter_filter]
  apply List.filter_congr
  intro e _
  by_cases he : e.questionId = q
  · simp [he, h]
  · simp [he]

theorem update_single (db : Database) (r : PracticeResult) (t : Int) (now : Nat) :
    (updateWrongBookFromPractice db [r] t now).wrongBook =
      applyPracticeResult (if t > 0 then t else 3) now (cleanupWrongBookOrphans db).wrongBook r :=
  rfl


/-- C21. Wrong transition of `updateWrongBookFromPractice`: for every
database, every threshold and every wrong result with valid question id `q`
and bank id `b`, on the wrong book as the orphan cleanup at the start of the
call leaves it (the rows of an existing question are the stored ones): without
a row for `q` a row with bank `b`, wrong count 1 and correct count 0 is
created; an existing row gets bank `b`, its wrong count raised by one and its
last-wrong time set to the time of the call, and keeps its correct count and
its added time; the rows of the other questions stay as they are. -/
theorem wrong_transition (db : Database) (t q b : Int) (now : Nat) (hq : 0 < q) (hb : 0 < b) :
    (entriesOf (cleanupWrongBookOrphans db).wrongBook q = [] →
      entriesOf (updateWrongBookFromPractice db [practiceResult q b false] t now).wrongBook q =
        [⟨q, b, 1, 0, now, now⟩]) ∧
    (∀ e, entriesOf (cleanupWrongBookOrphans db).wrongBook q = [e] →
      entriesOf (updateWrongBookFromPractice db [practiceResult q b false] t now).wrongBook q =
        [{ e with bankId := b, wrongCount := e.wrongCount + 1, lastWrongAt := now }]) ∧
    (q ∈ db.questionIds →
      entriesOf (cleanupWrongBookOrphans db).wrongBook q = entriesOf db.wrongBook q) ∧
    (∀ q2, q2 ≠ q →
      entriesOf (updateWrongBookFromPractice db [practiceResult q b false] t now).wrongBook q2 =
        entriesOf (cleanupWrongBookOrphans db).wrongBook q2) := by
  rw [update_single]
  refine ⟨?_, ?_, entriesOf_cleanup_of_mem db q, ?_⟩
  · intro hno
    rw [entriesOf_apply_wrong _ now _ q b hq hb, if_pos hno]
  · intro e he
    rw [entriesOf_apply_wrong _ now _ q b hq hb, he, if_neg (by simp)]
    rfl
  · intro q2 hq2
    apply entriesOf_apply_other
    intro e
    simp only [practiceResult, Option.some.injEq] at e
    exact hq2 e.symm

theorem wrong_transition_witness :
    entriesOf (updateWrongBookFromPractice ⟨[7, 8], [⟨7, 1, 2, 1, 10, 20⟩]⟩
      [practiceResult 7 5 false] 3 100).wrongBook 7 = [⟨7, 5, 3, 1, 10, 100⟩] ∧
    entriesOf (updateWrongBookFromPractice ⟨[7, 8], [⟨7, 1, 2, 1, 10, 20⟩]⟩
      [practiceResult 8 5 false] 3 100).wrongBook 8 = [⟨8, 5, 1, 0, 100, 100⟩] :=
  ⟨(wrong_transition ⟨[7, 8], [⟨7, 1, 2, 1, 10, 20⟩]⟩ 3 7 5 100 (by decide) (by decide)).2.1
      ⟨7, 1, 2, 1, 10, 20⟩ (by decide),
    (wrong_transition ⟨[7, 8], [⟨7, 1, 2, 1, 10, 20⟩]⟩ 3 8 5 100 (by decide) (by decide)).1
      (by decide)⟩

/-- C22. Correct transition of `updateWrongBookFromPractice`: for every
database, every threshold `t ≥ 1` and every correct result with valid question
id `q` and bank id, on the wrong book as the orphan cleanup at the start of the
call leaves it: without a row for `q` the wrong book stays as it is; a row with
correct count `c` is deleted when `c + 1 ≥ t`, and otherwise gets correct count
`c + 1` and keeps its wrong count, bank, added time and last-wrong time; the
rows of the other questions stay as they are. -/
theorem correct_transition (db : Database) (t q b : Int) (now : Nat) (ht : 1 ≤ t)
    (hq : 0 < q) (hb : 0 < b) :
    (entriesOf (cleanupWrongBookOrphans db).wrongBook q = [] →
      (updateWrongBookFromPractice db [practiceResult q b true] t now).wrongBook =
        (cleanupWrongBookOrphans db).wrongBook) ∧
    (∀ e, entriesOf (cleanupWrongBookOrphans db).wrongBook q = [e] →
      (e.correctCount + 1 ≥ t →
        entriesOf (updateWrongBookFromPractice db [practiceResult q b true] t now).wrongBook q =
          []) ∧
      (e.correctCount + 1 < t →
        entriesOf (updateWrongBookFromPractice db [practiceResult q b true] t now).wrongBook q =
          [{ e with correctCount := e.correctCount + 1 }])) ∧
    (q ∈ db.questionIds →
      entriesOf (cleanupWrongBookOrphans db).wrongBook q = entriesOf db.wrongBook q) ∧
    (∀ q2, q2 ≠ q →
      entriesOf (updateWrongBookFromPractice db [practiceResult q b true] t now).wrongBook q2 =
        entriesOf (cleanupWrongBookOrphans db).wrongBook q2) := by
  have hpos : t > 0 := by omega
  rw [update_single, if_pos hpos]
  refine ⟨?_, ?_, entriesOf_cleanup_of_mem db q, ?_⟩
  · intro hno
    have hq2 : ¬ q ≤ 0 := by omega
    have hb2 : ¬ b ≤ 0 := by omega
    simp only [applyPracticeResult, practiceResult, if_neg hq2, if_neg hb2, Bool.not_true,
      Bool.false_eq_true, if_false]
    rw [correctUpdate_of_no_entry _ q hno, selectCorrectCount_eq, hno]
    rfl
  · intro e he
    have hstep := entriesOf_apply_correct t now (cleanupWrongBookOrphans db).wrongBook q b hq hb
    rw [he] at hstep
    simp only at hstep
    constructor
    · intro hge
      rw [hstep, if_pos hge]
    · intro hlt
      rw [hstep, if_neg (by omega)]
      rfl
  · intro q2 hq2
    apply entriesOf_apply_other
    intro e
    simp only [practiceResult, Option.some.injEq] at e
    exact hq2 e.symm

theorem correct_transition_witness :
    entriesOf (updateWrongBookFromPractice ⟨[7, 8], [⟨7, 1, 2, 1, 10, 20⟩]⟩
      [practiceResult 7 5 true] 3 100).wrongBook 7 = [⟨7, 1, 2, 2, 10, 20⟩] ∧
    entriesOf (updateWrongBookFromPractice ⟨[7, 8], [⟨7, 1, 2, 1, 10, 20⟩]⟩
      [practiceResult 7 5 true] 2 100).wrongBook 7 = [] ∧
    (updateWrongBookFromPractice ⟨[7, 8], [⟨7, 1, 2, 1, 10, 20⟩]⟩
      [practiceResult 8 5 true] 3 100).wrongBook = [⟨7, 1, 2, 1, 10, 20⟩] :=
  ⟨((correct_transition ⟨[7, 8], [⟨7, 1, 2, 1, 10, 20⟩]⟩ 3 7 5 100 (by decide) (by decide)
      (by decide)).2.1 ⟨7, 1, 2, 1, 10, 20⟩ (by decide)).2 (by decide),
    ((correct_transition ⟨[7, 8], [⟨7, 1, 2, 1, 10, 20⟩]⟩ 2 7 5 100 (by decide) (by decide)
      (by decide)).2.1 ⟨7, 1, 2, 1, 10, 20⟩ (by decide)).1 (by decide),
    (correct_transition ⟨[7, 8], [⟨7, 1, 2, 1, 10, 20⟩]⟩ 3 8 5 100 (by decide) (by decide)
      (by decide)).1 (by decide)⟩


/-! ## Wrong book: the count of correct results -/

theorem entriesOf_apply_of_not_countsFor (t : Int) (now : Nat) (book : List WrongBookEntry)
    (r : PracticeResult) (q : Int) (h : countsFor q r = false) :
    entriesOf (applyPracticeResult t now book r) q = entriesOf book q := by
  by_cases hr : r.questionId = some q
  · rw [apply_of_not_countsFor]
    intro q2 _
    by_cases h2 : q2 = q
    · rw [h2]; exact h
    · simp [countsFor, hr, Ne.symm h2]
  · exact entriesOf_apply_other t now book r q hr

theorem correctsFor_cons (q : Int) (r : PracticeResult) (rest : List PracticeResult) :
    correctsFor q (r :: rest) =
      (if countsFor q r && r.isCorrect then 1 else 0) + correctsFor q rest := by
  unfold correctsFor
  by_cases h : (countsFor q r && r.isCorrect) = true
  · simp [List.filter_cons, h]; omega
  · simp [List.filter_cons, h]

theorem wrongsFor_cons (q : Int) (r : PracticeResult) (rest : List PracticeResult) :
    wrongsFor q (r :: rest) =
      (if countsFor q r && !r.isCorrect then 1 else 0) + wrongsFor q rest := by
  unfold wrongsFor
  by_cases h : (countsFor q r && !r.isCorrect) = true
  · simp [List.filter_cons, h]; omega
  · simp [List.filter_cons, h]

/-- A row keeps counting: over any results, as long as the correct results
for its question stay below the threshold, its correct count grows by their
number and its wrong count by the number of wrong results for the question. -/
theorem entriesOf_fold_counts (t : Int) (now : Nat) (q : Int) (hq : 0 < q)
    (mid : List PracticeResult) (book : List WrongBookEntry) (e : WrongBookEntry)
    (he : entriesOf book q = [e]) (hlt : e.correctCount + correctsFor q mid < t) :
    ∃ e2, entriesOf (mid.foldl (applyPracticeResult t now) book) q = [e2] ∧
      e2.wrongCount = e.wrongCount + wrongsFor q mid ∧
      e2.correctCount = e.correctCount + correctsFor q mid ∧
      e2.addedAt = e.addedAt := by
  induction mid generalizing book e with
  | nil => exact ⟨e, he, by simp [wrongsFor], by simp [correctsFor], rfl⟩
  | cons r rest ih =>
    rw [List.foldl_cons]
    rw [correctsFor_cons] at hlt ⊢
    rw [wrongsFor_cons]
    by_cases hc : countsFor q r = true
    · obtain ⟨b, hb, hrq, hrb⟩ := (countsFor_iff q r).mp hc
      obtain ⟨rq, rb, rc⟩ := r
      simp only at hrq hrb
      subst hrq hrb
      cases rc with
      | false =>
        have hstep := entriesOf_apply_wrong t now book q b hq hb
        rw [he, if_neg (by simp)] at hstep
        simp only [List.map_cons, List.map_nil] at hstep
        simp only [hc, Bool.and_false, Bool.false_eq_true, if_false, Bool.not_false,
          Bool.and_true, if_true] at hlt ⊢
        obtain ⟨e2, h1, h2, h3, h4⟩ := ih _ _ hstep (by simpa using hlt)
        refine ⟨e2, h1, ?_, ?_, h4⟩
        · rw [h2]; push_cast; omega
        · rw [h3]; push_cast; omega
      | true =>
        have hstep := entriesOf_apply_correct t now book q b hq hb
        rw [he] at hstep
        simp only [hc, Bool.and_true, if_true, Bool.not_true, Bool.and_false,
          Bool.false_eq_true, if_false] at hlt ⊢
        have hlt2 : ¬ e.correctCount + 1 ≥ t := by push_cast at hlt; omega
        simp only [if_neg hlt2, List.map_cons, List.map_nil] at hstep
        obtain ⟨e2, h1, h2, h3, h4⟩ := ih _ _ hstep (by simp only; push_cast at hlt ⊢; omega)
        refine ⟨e2, h1, ?_, ?_, h4⟩
        · rw [h2]; push_cast; omega
        · rw [h3]; push_cast; omega
    · have hc2 : countsFor q r = false := by simpa using hc
      have hstep := entriesOf_apply_of_not_countsFor t now book r q hc2
      rw [he] at hstep
      simp only [hc2, Bool.false_and, Bool.false_eq_true, if_false] at hlt ⊢
      obtain ⟨e2, h1, h2, h3, h4⟩ := ih _ _ hstep (by simpa using hlt)
      exact ⟨e2, h1, by rw [h2]; simp, by rw [h3]; simp, h4⟩

/-- C26, as the code has it. For every threshold `t ≥ 1`: a row created by a
wrong result for a question stays while fewer than `t` correct results have
been applied for the question since, whatever wrong results lie in between:
these raise the wrong count and leave the correct count as it is.  The correct
result that brings the number of correct results since the creation of the row
to `t` deletes the row. -/
theorem deletion_counts_all_corrects (db : Database) (t q b b2 : Int)
    (mid : List PracticeResult) (now : Nat) (ht : 1 ≤ t) (hq : 0 < q) (hb : 0 < b)
    (hb2 : 0 < b2) (hno : entriesOf (cleanupWrongBookOrphans db).wrongBook q = [])
    (hk : (correctsFor q mid : Int) < t) :
    (∃ e, entriesOf (updateWrongBookFromPractice db
        (practiceResult q b false :: mid) t now).wrongBook q = [e] ∧
      e.wrongCount = 1 + wrongsFor q mid ∧ e.correctCount = correctsFor q mid) ∧
    ((correctsFor q mid : Int) + 1 = t →
      entriesOf (updateWrongBookFromPractice db
        (practiceResult q b false :: (mid ++ [practiceResult q b2 true])) t now).wrongBook q =
        []) ∧
    ((correctsFor q mid : Int) + 1 < t →
      ∃ e, entriesOf (updateWrongBookFromPractice db
          (practiceResult q b false :: (mid ++ [practiceResult q b2 true])) t now).wrongBook q =
          [e] ∧
        e.wrongCount = 1 + wrongsFor q mid ∧ e.correctCount = correctsFor q mid + 1) := by
  have hpos : t > 0 := by omega
  have hwrong := entriesOf_apply_wrong t now (cleanupWrongBookOrphans db).wrongBook q b hq hb
  rw [if_pos hno] at hwrong
  obtain ⟨e, he, hw, hc, _⟩ := entriesOf_fold_counts t now q hq mid _ _ hwrong
    (by simp only; omega)
  simp only [Int.zero_add] at hw hc
  have hfirst : entriesOf (updateWrongBookFromPractice db
      (practiceResult q b false :: mid) t now).wrongBook q = [e] := by
    simp only [updateWrongBookFromPractice, if_pos hpos, List.foldl_cons]
    exact he
  have hlast : entriesOf (updateWrongBookFromPractice db
      (practiceResult q b false :: (mid ++ [practiceResult q b2 true])) t now).wrongBook q =
      if e.correctCount + 1 ≥ t then [] else [{ e with correctCount := e.correctCount + 1 }] := by
    simp only [updateWrongBookFromPractice, if_pos hpos, List.foldl_cons, List.foldl_append,
      List.foldl_nil]
    rw [entriesOf_apply_correct t now _ q b2 hq hb2, he]
    rfl
  refine ⟨⟨e, hfirst, hw, hc⟩, ?_, ?_⟩
  · intro heq
    rw [hlast, if_pos (by omega)]
  · intro hlt
    rw [hlast, if_neg (by omega)]
    exact ⟨_, rfl, hw, by simp only; omega⟩

theorem deletion_counts_all_corrects_witness :
    (∃ e, entriesOf (updateWrongBookFromPractice ⟨[1], []⟩
        (practiceResult 1 1 false :: interruptedRun.tail) 3 0).wrongBook 1 = [e] ∧
      e.wrongCount = 1 + wrongsFor 1 interruptedRun.tail ∧
      e.correctCount = correctsFor 1 interruptedRun.tail) ∧
    entriesOf (updateWrongBookFromPractice ⟨[1], []⟩
      (practiceResult 1 1 false :: (interruptedRun.tail ++ [practiceResult 1 1 true])) 3
      0).wrongBook 1 = [] :=
  ⟨(deletion_counts_all_corrects ⟨[1], []⟩ 3 1 1 1 interruptedRun.tail 0 (by decide) (by decide)
      (by decide) (by decide) rfl (by decide)).1,
    (deletion_counts_all_corrects ⟨[1], []⟩ 3 1 1 1 interruptedRun.tail 0 (by decide) (by decide)
      (by decide) (by decide) rfl (by decide)).2.1 (by decide)⟩

/-- C26, as stated, fails for threshold 3 on the results wrong, correct,
correct, wrong, correct for one question: the row is there after the first
four results, the fifth result, a correct one, deletes it, and the three most
recent results are correct, wrong, correct. -/
theorem deletion_after_interrupted_run :
    entriesOf (updateWrongBookFromPractice ⟨[1], []⟩ interruptedRun 3 0).wrongBook 1 =
      [⟨1, 1, 2, 2, 0, 0⟩] ∧
    entriesOf (updateWrongBookFromPractice ⟨[1], []⟩
      (interruptedRun ++ [practiceResult 1 1 true]) 3 0).wrongBook 1 = [] ∧
    ((interruptedRun ++ [practiceResult 1 1 true]).reverse.take 3).map (fun r => r.isCorrect) =
      [true, false, true] := by
  decide


/-! ## Wrong book: results for different questions -/

theorem withoutTimes_wrongUpsert (book : List WrongBookEntry) (q b : Int) (now : Nat) :
    (wrongUpsert book q b now).map WrongBookEntry.withoutTimes =
      wrongUpsert (book.map WrongBookEntry.withoutTimes) q b 0 := by
  unfold wrongUpsert
  have hany : (book.map WrongBookEntry.withoutTimes).any (fun e => e.questionId == q) =
      book.any (fun e => e.questionId == q) := by
    rw [List.any_map]
    rfl
  rw [hany]
  by_cases h : book.any (fun e => e.questionId == q) = true
  · rw [if_pos h, if_pos h, List.map_map, List.map_map]
    apply List.map_congr_left
    intro e _
    by_cases he : e.questionId = q
    · simp [WrongBookEntry.withoutTimes, he]
    · simp [WrongBookEntry.withoutTimes, he]
  · rw [if_neg h, if_neg h, List.map_append]
    rfl

theorem withoutTimes_correctUpdate (book : List WrongBookEntry) (q : Int) :
    (correctUpdate book q).map WrongBookEntry.withoutTimes =
      correctUpdate (book.map WrongBookEntry.withoutTimes) q := by
  unfold correctUpdate
  rw [List.map_map, List.map_map]
  apply List.map_congr_left
  intro e _
  by_cases he : e.questionId = q
  · simp [WrongBookEntry.withoutTimes, he]
  · simp [WrongBookEntry.withoutTimes, he]

theorem withoutTimes_select (book : List WrongBookEntry) (q : Int) :
    selectCorrectCount (book.map WrongBookEntry.withoutTimes) q = selectCorrectCount book q := by
  unfold selectCorrectCount
  induction book with
  | nil => rfl
  | cons e rest ih =>
    by_cases he : (e.questionId == q) = true
    · simp [List.find?_cons, WrongBookEntry.withoutTimes, he]
    · have he2 : (e.questionId == q) = false := by simpa using he
      simp only [List.map_cons, List.find?_cons, WrongBookEntry.withoutTimes, he2]
      exact ih

theorem withoutTimes_delete (book : List WrongBookEntry) (q : Int) :
    (deleteWrongBookEntry book q).map WrongBookEntry.withoutTimes =
      deleteWrongBookEntry (book.map WrongBookEntry.withoutTimes) q := by
  unfold deleteWrongBookEntry
  induction book with
  | nil => rfl
  | cons e rest ih =>
    by_cases he : e.questionId = q
    · simp [List.filter_cons, WrongBookEntry.withoutTimes, he, ih]
    · simp [List.filter_cons, WrongBookEntry.withoutTimes, he, ih]

/-- Timestamps aside, a result acts on the wrong book with its timestamps set
aside. -/
theorem withoutTimes_apply (t : Int) (now : Nat) (book : List WrongBookEntry)
    (r : PracticeResult) :
    (applyPracticeResult t now book r).map WrongBookEntry.withoutTimes =
      applyPracticeResult t 0 (book.map WrongBookEntry.withoutTimes) r := by
  obtain ⟨rq, rb, rc⟩ := r
  cases rq with
  | none => rfl
  | some q =>
    cases rb with
    | none => rfl
    | some b =>
      simp only [applyPracticeResult]
      by_cases h1 : q ≤ 0
      · rw [if_pos h1, if_pos h1]
      rw [if_neg h1, if_neg h1]
      by_cases h2 : b ≤ 0
      · rw [if_pos h2, if_pos h2]
      rw [if_neg h2, if_neg h2]
      cases rc with
      | false =>
        simp only [Bool.not_false, if_true]
        exact withoutTimes_wrongUpsert book q b now
      | true =>
        simp only [Bool.not_true, Bool.false_eq_true, if_false]
        rw [← withoutTimes_correctUpdate, withoutTimes_select]
        cases selectCorrectCount (correctUpdate book q) q with
        | none => rfl
        | some c =>
          simp only
          by_cases hc : c ≥ t
          · rw [if_pos hc, if_pos hc, withoutTimes_delete]
          · rw [if_neg hc, if_neg hc]

theorem withoutTimes_fold (t : Int) (now : Nat) (results : List PracticeResult)
    (book : List WrongBookEntry) :
    (results.foldl (applyPracticeResult t now) book).map WrongBookEntry.withoutTimes =
      results.foldl (applyPracticeResult t 0) (book.map WrongBookEntry.withoutTimes) := by
  induction results generalizing book with
  | nil => rfl
  | cons r rest ih => rw [List.foldl_cons, List.foldl_cons, ih, withoutTimes_apply]

/-- The rows of a question after a result depend on the rows of the question
before it only. -/
theorem entriesOf_apply_congr (t : Int) (now : Nat) (book1 book2 : List WrongBookEntry)
    (r : PracticeResult) (q : Int) (h : entriesOf book1 q = entriesOf book2 q) :
    entriesOf (applyPracticeResult t now book1 r) q =
      entriesOf (applyPracticeResult t now book2 r) q := by
  by_cases hc : countsFor q r = true
  · obtain ⟨b, hb, hrq, hrb⟩ := (countsFor_iff q r).mp hc
    obtain ⟨rq, rb, rc⟩ := r
    simp only at hrq hrb
    subst hrq hrb
    by_cases hq : q ≤ 0
    · simp only [applyPracticeResult, if_pos hq]
      exact h
    have hq2 : 0 < q := by omega
    cases rc with
    | false =>
      have h1 := entriesOf_apply_wrong t now book1 q b hq2 hb
      have h2 := entriesOf_apply_wrong t now book2 q b hq2 hb
      unfold practiceResult at h1 h2
      rw [h1, h2, h]
    | true =>
      have h1 := entriesOf_apply_correct t now book1 q b hq2 hb
      have h2 := entriesOf_apply_correct t now book2 q b hq2 hb
      unfold practiceResult at h1 h2
      rw [h1, h2, h]
  · have hc2 : countsFor q r = false := by simpa using hc
    rw [entriesOf_apply_of_not_countsFor t now book1 r q hc2,
      entriesOf_apply_of_not_countsFor t now book2 r q hc2]
    exact h

theorem entriesOf_apply_comm (t : Int) (now : Nat) (book : List WrongBookEntry)
    (r1 r2 : PracticeResult) (h : r1.questionId ≠ r2.questionId) (q : Int) :
    entriesOf (applyPracticeResult t now (applyPracticeResult t now book r1) r2) q =
      entriesOf (applyPracticeResult t now (applyPracticeResult t now book r2) r1) q := by
  by_cases h1 : r1.questionId = some q
  · have h2 : r2.questionId ≠ some q := fun e => h (h1.trans e.symm)
    rw [entriesOf_apply_other t now _ r2 q h2]
    exact entriesOf_apply_congr t now _ _ r1 q (entriesOf_apply_other t now book r2 q h2).symm
  · rw [entriesOf_apply_other t now _ r1 q h1]
    exact entriesOf_apply_congr t now _ _ r2 q (entriesOf_apply_other t now book r1 q h1)

/-- Two wrong books with the same rows for every question hold the same rows. -/
theorem perm_of_entriesOf (book1 book2 : List WrongBookEntry)
    (h : ∀ q, entriesOf book1 q = entriesOf book2 q) : book1.Perm book2 := by
  rw [List.perm_iff_count]
  intro e
  have key : ∀ book : List WrongBookEntry,
      List.count e (entriesOf book e.questionId) = List.count e book := by
    intro book
    unfold entriesOf
    rw [List.count_filter]
    simp
  rw [← key book1, ← key book2, h]

/-- C23. Results for different questions are independent: for every database,
threshold and two results with distinct question ids, the batch of the two
results in one order (at one time) and in the other order (at another time)
leave the same rows in the wrong book, timestamps aside; and one result leaves
the rows of every other question as they are after the orphan cleanup at the
start of the call. -/
theorem results_for_distinct_questions_commute (db : Database) (t : Int)
    (r1 r2 : PracticeResult) (now1 now2 : Nat) (h : r1.questionId ≠ r2.questionId) :
    ((updateWrongBookFromPractice db [r1, r2] t now1).wrongBook.map
        WrongBookEntry.withoutTimes).Perm
      ((updateWrongBookFromPractice db [r2, r1] t now2).wrongBook.map
        WrongBookEntry.withoutTimes) ∧
    (∀ q, r1.questionId ≠ some q →
      entriesOf (updateWrongBookFromPractice db [r1] t now1).wrongBook q =
        entriesOf (cleanupWrongBookOrphans db).wrongBook q) := by
  constructor
  · simp only [updateWrongBookFromPractice]
    rw [withoutTimes_fold, withoutTimes_fold]
    apply perm_of_entriesOf
    intro q
    simp only [List.foldl_cons, List.foldl_nil]
    exact entriesOf_apply_comm _ 0 _ r1 r2 h q
  · intro q hq
    rw [update_single]
    exact entriesOf_apply_other _ now1 _ r1 q hq

theorem results_for_distinct_questions_commute_witness :
    ((updateWrongBookFromPractice ⟨[7, 8], [⟨7, 1, 2, 1, 10, 20⟩]⟩
        [practiceResult 7 1 true, practiceResult 8 1 false] 3 100).wrongBook.map
        WrongBookEntry.withoutTimes).Perm
      ((updateWrongBookFromPractice ⟨[7, 8], [⟨7, 1, 2, 1, 10, 20⟩]⟩
        [practiceResult 8 1 false, practiceResult 7 1 true] 3 200).wrongBook.map
        WrongBookEntry.withoutTimes) :=
  (results_for_distinct_questions_commute ⟨[7, 8], [⟨7, 1, 2, 1, 10, 20⟩]⟩ 3
    (practiceResult 7 1 true) (practiceResult 8 1 false) 100 200 (by decide)).1


/-! ## Wrong book: the state invariant -/

theorem wrongUpsert_ids (book : List WrongBookEntry) (q b : Int) (now : Nat) :
    (wrongUpsert book q b now).map (fun e => e.questionId) =
      if book.any (fun e => e.questionId == q) then book.map (fun e => e.questionId)
      else book.map (fun e => e.questionId) ++ [q] := by
  unfold wrongUpsert
  by_cases h : book.any (fun e => e.questionId == q) = true
  · rw [if_pos h, if_pos h, List.map_map]
    apply List.map_congr_left
    intro e _
    by_cases he : e.questionId = q
    · simp [he]
    · simp [he]
  · rw [if_neg h, if_neg h, List.map_append]
    rfl

theorem invariant_wrongUpsert (t : Int) (ht : 1 ≤ t) (book : List WrongBookEntry) (q b : Int)
    (now : Nat) (h : WrongBookInvariant t book) :
    WrongBookInvariant t (wrongUpsert book q b now) := by
  obtain ⟨hnd, hall⟩ := h
  refine ⟨?_, ?_⟩
  · rw [wrongUpsert_ids]
    by_cases hany : book.any (fun e => e.questionId == q) = true
    · rw [if_pos hany]
      exact hnd
    · rw [if_neg hany]
      rw [List.nodup_append]
      refine ⟨hnd, List.nodup_singleton q, ?_⟩
      intro x hx hx2
      rw [List.mem_singleton] at hx2
      subst hx2
      obtain ⟨e, he, rfl⟩ := List.mem_map.mp hx
      exact hany (List.any_eq_true.mpr ⟨e, he, by simp⟩)
  · intro e he
    unfold wrongUpsert at he
    by_cases hany : book.any (fun e => e.questionId == q) = true
    · rw [if_pos hany] at he
      obtain ⟨e0, he0, rfl⟩ := List.mem_map.mp he
      have := hall e0 he0
      by_cases hq : e0.questionId = q
      · rw [if_pos hq]
        simp only
        omega
      · rw [if_neg hq]
        exact this
    · rw [if_neg hany] at he
      rcases List.mem_append.mp he with h1 | h1
      · exact hall e h1
      · rw [List.mem_singleton.mp h1]
        simp only
        omega

theorem invariant_filter (t : Int) (book : List WrongBookEntry) (p : WrongBookEntry → Bool)
    (h : WrongBookInvariant t book) : WrongBookInvariant t (book.filter p) := by
  obtain ⟨hnd, hall⟩ := h
  refine ⟨?_, fun e he => hall e (List.mem_filter.mp he).1⟩
  exact ((List.filter_sublist book).map (fun e : WrongBookEntry => e.questionId)).nodup hnd

/-- With one row per question at most, the rows of a question are none or
one. -/
theorem entriesOf_of_nodup (book : List WrongBookEntry)
    (h : (book.map (fun e => e.questionId)).Nodup) (q : Int) :
    (entriesOf book q).length ≤ 1 := by
  induction book with
  | nil => simp [entriesOf]
  | cons e rest ih =>
    rw [List.map_cons, List.nodup_cons] at h
    by_cases he : e.questionId = q
    · have hnil : entriesOf rest q = [] := by
        unfold entriesOf
        rw [List.filter_eq_nil_iff]
        intro x hx hxq
        apply h.1
        rw [he]
        exact List.mem_map.mpr ⟨x, hx, by simpa using hxq⟩
      unfold entriesOf at hnil ⊢
      simp [List.filter_cons, he, hnil]
    · have := ih h.2
      unfold entriesOf at this ⊢
      simpa [List.filter_cons, he] using this

theorem invariant_correct (t : Int) (book : List WrongBookEntry) (q : Int)
    (h : WrongBookInvariant t book) :
    WrongBookInvariant t
      (match selectCorrectCount (correctUpdate book q) q with
        | some correctCount =>
          if correctCount ≥ t then deleteWrongBookEntry (correctUpdate book q) q
          else correctUpdate book q
        | none => correctUpdate book q) := by
  obtain ⟨hnd, hall⟩ := h
  have hids : (correctUpdate book q).map (fun e => e.questionId) =
      book.map (fun e => e.questionId) := by
    unfold correctUpdate
    rw [List.map_map]
    apply List.map_congr_left
    intro e _
    by_cases he : e.questionId = q
    · simp [he]
    · simp [he]
  have hnd2 : ((correctUpdate book q).map (fun e => e.questionId)).Nodup := by
    rw [hids]; exact hnd
  -- the rows of the other questions keep their counts
  have hother : ∀ e ∈ correctUpdate book q, e.questionId ≠ q →
      1 ≤ e.wrongCount ∧ 0 ≤ e.correctCount ∧ e.correctCount < t := by
    intro e he hq
    unfold correctUpdate at he
    obtain ⟨e0, he0, rfl⟩ := List.mem_map.mp he
    by_cases hq0 : e0.questionId = q
    · rw [if_pos hq0] at hq
      exact absurd hq0 hq
    · rw [if_neg hq0]
      exact hall e0 he0
  -- the row of the question has its correct count raised by one
  have hown : ∀ e ∈ correctUpdate book q, e.questionId = q →
      1 ≤ e.wrongCount ∧ 0 ≤ e.correctCount ∧
        selectCorrectCount (correctUpdate book q) q = some e.correctCount := by
    intro e he hq
    have hlen := entriesOf_of_nodup _ hnd2 q
    have hmem : e ∈ entriesOf (correctUpdate book q) q :=
      List.mem_filter.mpr ⟨he, by simp [hq]⟩
    have hsingle : entriesOf (correctUpdate book q) q = [e] := by
      cases hl : entriesOf (correctUpdate book q) q with
      | nil => rw [hl] at hmem; simp at hmem
      | cons x xs =>
        rw [hl] at hmem hlen
        cases xs with
        | nil => rw [List.mem_singleton.mp hmem]
        | cons y ys => simp at hlen
    refine ⟨?_, ?_, ?_⟩
    · unfold correctUpdate at he
      obtain ⟨e0, he0, rfl⟩ := List.mem_map.mp he
      have := hall e0 he0
      by_cases hq0 : e0.questionId = q
      · rw [if_pos hq0]; simp only; omega
      · rw [if_neg hq0]; omega
    · unfold correctUpdate at he
      obtain ⟨e0, he0, rfl⟩ := List.mem_map.mp he
      have := hall e0 he0
      by_cases hq0 : e0.questionId = q
      · rw [if_pos hq0]; simp only; omega
      · rw [if_neg hq0]; omega
    · rw [selectCorrectCount_eq, hsingle]
      rfl
  cases hsel : selectCorrectCount (correctUpdate book q) q with
  | none =>
    simp only
    refine ⟨hnd2, ?_⟩
    intro e he
    by_cases hq : e.questionId = q
    · have := (hown e he hq).2.2
      rw [hsel] at this
      exact Option.noConfusion this
    · exact hother e he hq
  | some c =>
    simp only
    by_cases hc : c ≥ t
    · rw [if_pos hc]
      unfold deleteWrongBookEntry
      refine ⟨?_, ?_⟩
      · exact ((List.filter_sublist (correctUpdate book q)).map
          (fun e : WrongBookEntry => e.questionId)).nodup hnd2
      · intro e he
        obtain ⟨he1, he2⟩ := List.mem_filter.mp he
        exact hother e he1 (by simpa using he2)
    · rw [if_neg hc]
      refine ⟨hnd2, ?_⟩
      intro e he
      by_cases hq : e.questionId = q
      · obtain ⟨h1, h2, h3⟩ := hown e he hq
        rw [hsel] at h3
        simp only [Option.some.injEq] at h3
        exact ⟨h1, h2, by omega⟩
      · exact hother e he hq

theorem invariant_apply (t : Int) (ht : 1 ≤ t) (now : Nat) (book : List WrongBookEntry)
    (r : PracticeResult) (h : WrongBookInvariant t book) :
    WrongBookInvariant t (applyPracticeResult t now book r) := by
  obtain ⟨rq, rb, rc⟩ := r
  cases rq with
  | none => exact h
  | some q =>
    cases rb with
    | none => exact h
    | some b =>
      simp only [applyPracticeResult]
      by_cases h1 : q ≤ 0
      · rw [if_pos h1]; exact h
      rw [if_neg h1]
      by_cases h2 : b ≤ 0
      · rw [if_pos h2]; exact h
      rw [if_neg h2]
      cases rc with
      | false =>
        simp only [Bool.not_false, if_true]
        exact invariant_wrongUpsert t ht book q b now h
      | true =>
        simp only [Bool.not_true, Bool.false_eq_true, if_false]
        exact invariant_correct t book q h

theorem invariant_update (t : Int) (ht : 1 ≤ t) (db : Database) (results : List PracticeResult)
    (now : Nat) (h : WrongBookInvariant t db.wrongBook) :
    WrongBookInvariant t (updateWrongBookFromPractice db results t now).wrongBook := by
  have hpos : t > 0 := by omega
  simp only [updateWrongBookFromPractice, if_pos hpos]
  have hstart : WrongBookInvariant t (cleanupWrongBookOrphans db).wrongBook :=
    invariant_filter t db.wrongBook _ h
  generalize (cleanupWrongBookOrphans db).wrongBook = book at hstart
  induction results generalizing book with
  | nil => exact hstart
  | cons r rest ih =>
    rw [List.foldl_cons]
    exact ih _ (invariant_apply t ht now book r hstart)

theorem invariant_batches (t : Int) (ht : 1 ≤ t)
    (batches : List (List Int × List PracticeResult × Nat)) (book : List WrongBookEntry)
    (h : WrongBookInvariant t book) : WrongBookInvariant t (applyBatches t book batches) := by
  induction batches generalizing book with
  | nil => exact h
  | cons batch rest ih =>
    obtain ⟨ids, results, now⟩ := batch
    unfold applyBatches
    exact ih _ (invariant_update t ht ⟨ids, book⟩ results now h)

/-- C28. Wrong-book state invariant: for every threshold `t ≥ 1` and every
sequence of batches applied through `updateWrongBookFromPractice` from the
empty wrong book on (whatever the table of questions holds at each call), every
row present afterwards has a wrong count of at least 1 and a correct count from
0 to `t - 1`, and every question id has one row at most. -/
theorem wrong_book_invariant (t : Int) (ht : 1 ≤ t)
    (batches : List (List Int × List PracticeResult × Nat)) :
    (∀ e ∈ applyBatches t [] batches,
      1 ≤ e.wrongCount ∧ 0 ≤ e.correctCount ∧ e.correctCount < t) ∧
    (∀ q, (entriesOf (applyBatches t [] batches) q).length ≤ 1) := by
  have h := invariant_batches t ht batches [] ⟨List.nodup_nil, by simp⟩
  exact ⟨h.2, entriesOf_of_nodup _ h.1⟩

theorem wrong_book_invariant_witness :
    (∀ e ∈ applyBatches 2 [] exampleBatches,
      1 ≤ e.wrongCount ∧ 0 ≤ e.correctCount ∧ e.correctCount < 2) ∧
    applyBatches 2 [] exampleBatches = [⟨7, 1, 2, 1, 100, 200⟩] :=
  ⟨(wrong_book_invariant 2 (by decide) exampleBatches).1, by decide⟩

/-! ## Deleting a bank -/

/-- C27, as stated, fails: right after `deleteBank(1)` the wrong book still
holds the row of question 10, a question of bank 1. -/
theorem deleteBank_keeps_wrong_book_rows :
    (⟨10, 1⟩ : QuestionRow) ∈ exampleTables.questions ∧
    entriesOf (deleteBank exampleTables 1).wrongBook 10 = [⟨10, 1, 1, 0, 5, 5⟩] := by
  decide

/-- C27, as the code has it. For every state of the tables with one row per
question id and every bank id `b`: right after `deleteBank(b)` there is no bank
`b` and no question of bank `b`, the other banks and the questions of other
banks are as before, and the rows of the wrong book are as before; after the
orphan cleanup, which every read and update of the wrong book runs first, the
wrong book has no row of a question that belonged to bank `b`, and the rows of
the questions of other banks are as before. -/
theorem deleteBank_cascade (s : BankTables) (b : Int)
    (hkey : (s.questions.map (fun q => q.id)).Nodup) :
    b ∉ (deleteBank s b).banks ∧
    (∀ q ∈ (deleteBank s b).questions, q.bankId ≠ b) ∧
    (deleteBank s b).banks = s.banks.filter (fun x => x != b) ∧
    (deleteBank s b).questions = s.questions.filter (fun q => q.bankId != b) ∧
    (deleteBank s b).wrongBook = s.wrongBook ∧
    (∀ q ∈ s.questions, q.bankId = b →
      entriesOf (cleanupWrongBookOrphans (deleteBank s b).database).wrongBook q.id = []) ∧
    (∀ q ∈ s.questions, q.bankId ≠ b →
      entriesOf (cleanupWrongBookOrphans (deleteBank s b).database).wrongBook q.id =
        entriesOf s.wrongBook q.id) := by
  refine ⟨?_, ?_, rfl, rfl, rfl, ?_, ?_⟩
  · intro hmem
    have := (List.mem_filter.mp hmem).2
    simp at this
  · intro q hq
    have := (List.mem_filter.mp hq).2
    simpa using this
  · intro q hq hqb
    unfold entriesOf cleanupWrongBookOrphans
    simp only
    rw [List.filter_filter, List.filter_eq_nil_iff]
    intro e _ hcond
    simp only [Bool.and_eq_true, beq_iff_eq] at hcond
    obtain ⟨heq, hin⟩ := hcond
    have hin2 : e.questionId ∈ (deleteBank s b).database.questionIds := by simpa using hin
    obtain ⟨q2, hq2, hid⟩ := List.mem_map.mp hin2
    obtain ⟨hq2s, hq2b⟩ := List.mem_filter.mp hq2
    have hsame : q2 = q := by
      have hinj := List.inj_on_of_nodup_map hkey hq2s hq (by rw [hid, heq])
      exact hinj
    rw [hsame] at hq2b
    simp [hqb] at hq2b
  · intro q hq hqb
    apply entriesOf_cleanup_of_mem
    apply List.mem_map.mpr
    exact ⟨q, List.mem_filter.mpr ⟨hq, by simpa using hqb⟩, rfl⟩

theorem deleteBank_cascade_witness :
    entriesOf (cleanupWrongBookOrphans (deleteBank exampleTables 1).database).wrongBook 10 = [] ∧
    entriesOf (cleanupWrongBookOrphans (deleteBank exampleTables 1).database).wrongBook 20 =
      [⟨20, 2, 1, 0, 6, 6⟩] ∧
    (deleteBank exampleTables 1).banks = [2] ∧
    (deleteBank exampleTables 1).questions = [⟨20, 2⟩] :=
  ⟨(deleteBank_cascade exampleTables 1 (by decide)).2.2.2.2.2.1 ⟨10, 1⟩ (by decide) rfl,
    ((deleteBank_cascade exampleTables 1 (by decide)).2.2.2.2.2.2 ⟨20, 2⟩ (by decide)
      (by decide)).trans (by decide),
    (deleteBank_cascade exampleTables 1 (by decide)).2.2.1.trans (by decide),
    (deleteBank_cascade exampleTables 1 (by decide)).2.2.2.1.trans (by decide)⟩


/-! ## The removal threshold setting -/

/-- What the handler stores: a finite number `x` is stored if and only if
`0 < x ≤ 999`; any other finite number, `NaN` and the infinities are rejected
with the error message, and the stored value stays as it is. -/
theorem setWrongBookThreshold_spec (setting : Option JsNumber) :
    (∀ x : ℚ, 0 < x → x ≤ 999 →
      setWrongBookThreshold setting (.finite x) = ⟨some (.finite x), none⟩) ∧
    (∀ x : ℚ, ¬ (0 < x ∧ x ≤ 999) →
      setWrongBookThreshold setting (.finite x) = ⟨setting, some "阈值必须是 1-999 的数字"⟩) ∧
    setWrongBookThreshold setting .nan = ⟨setting, some "阈值必须是 1-999 的数字"⟩ ∧
    setWrongBookThreshold setting .posInf = ⟨setting, some "阈值必须是 1-999 的数字"⟩ ∧
    setWrongBookThreshold setting .negInf = ⟨setting, some "阈值必须是 1-999 的数字"⟩ := by
  refine ⟨?_, ?_, rfl, rfl, rfl⟩
  · intro x h1 h2
    have h3 : ¬ x ≤ 0 := not_le.mpr h1
    have h4 : ¬ x > 999 := not_lt.mpr h2
    simp [setWrongBookThreshold, JsNumber.isFinite, JsNumber.le, JsNumber.gt, h3, h4]
  · intro x h
    have h3 : x ≤ 0 ∨ x > 999 := by
      by_contra hc
      push_neg at hc
      exact h ⟨hc.1, hc.2⟩
    rcases h3 with h3 | h3
    · simp [setWrongBookThreshold, JsNumber.isFinite, JsNumber.le, JsNumber.gt, h3]
    · simp [setWrongBookThreshold, JsNumber.isFinite, JsNumber.le, JsNumber.gt, h3]

/-- On the integers the handler stores exactly the thresholds from 1 to
999. -/
theorem setWrongBookThreshold_integer (setting : Option JsNumber) (n : Int) :
    (setWrongBookThreshold setting (.finite n)).error = none ↔ 1 ≤ n ∧ n ≤ 999 := by
  by_cases h : 0 < (n : ℚ) ∧ (n : ℚ) ≤ 999
  · rw [(setWrongBookThreshold_spec setting).1 n h.1 h.2]
    have h1 : 0 < n := by exact_mod_cast h.1
    have h2 : n ≤ 999 := by exact_mod_cast h.2
    simp only [true_iff]
    omega
  · rw [(setWrongBookThreshold_spec setting).2.1 n h]
    simp only [false_iff, reduceCtorEq]
    intro hn
    apply h
    constructor
    · have : 0 < n := by omega
      exact_mod_cast this
    · exact_mod_cast hn.2

/-- C24. The handler `settings:setWrongBookThreshold` stores the threshold
0.5, a number outside the range from 1 to 999 of its own error message, over
the stored threshold 3. -/
theorem setWrongBookThreshold_accepts_half :
    setWrongBookThreshold (some (.finite 3)) (.finite (1 / 2)) =
      ⟨some (.finite (1 / 2)), none⟩ :=
  (setWrongBookThreshold_spec (some (.finite 3))).1 (1 / 2) (by norm_num) (by norm_num)


/-! ## Removing an option -/

theorem toNat_ofNat_of_lt (n : Nat) (h : n < 55296) : (Char.ofNat n).toNat = n := by
  have hv : n.isValidChar := Or.inl h
  simp only [Char.ofNat, dif_pos hv]
  rfl

theorem fromCharCode_injective (a b : Nat) (ha : a < 55296) (hb : b < 55296)
    (h : fromCharCode a = fromCharCode b) : a = b := by
  unfold fromCharCode at h
  have h2 : Char.ofNat a = Char.ofNat b := by
    have := congrArg String.data h
    simpa using this
  have h3 := congrArg Char.toNat h2
  rwa [toNat_ofNat_of_lt a ha, toNat_ofNat_of_lt b hb] at h3

theorem charCodeAt0_fromCharCode (n : Nat) (h : n < 55296) :
    charCodeAt0 (fromCharCode n) = some n := by
  simp [charCodeAt0, fromCharCode, toNat_ofNat_of_lt n h]

theorem letterIds_succ (i n : Nat) :
    letterIds i (n + 1) = fromCharCode (65 + i) :: letterIds (i + 1) n := by
  simp [letterIds, List.range'_succ]

theorem reindexFrom_texts (i : Nat) (l : List OptionCell) :
    (reindexFrom i l).map (fun o => o.text) = l.map (fun o => o.text) := by
  induction l generalizing i with
  | nil => rfl
  | cons o rest ih => simp [reindexFrom, ih]

theorem reindexFrom_ids (i : Nat) (l : List OptionCell) :
    (reindexFrom i l).map (fun o => o.id) = letterIds i l.length := by
  induction l generalizing i with
  | nil => rfl
  | cons o rest ih => simp [reindexFrom, ih, letterIds_succ]

theorem reindexFrom_length (i : Nat) (l : List OptionCell) :
    (reindexFrom i l).length = l.length := by
  induction l generalizing i with
  | nil => rfl
  | cons o rest ih => simp [reindexFrom, ih]

/-- In a list of options lettered contiguously an id designates the option at
the position of its letter. -/
theorem optionText_letter (i : Nat) (options : List OptionCell)
    (hlet : options.map (fun o => o.id) = letterIds i options.length) (j : Nat)
    (hj : 65 + i + j < 55296) :
    optionText options (fromCharCode (65 + i + j)) = (options.map (fun o => o.text))[j]? := by
  induction options generalizing i j with
  | nil => rfl
  | cons o rest ih =>
    rw [List.map_cons, List.length_cons, letterIds_succ, List.cons.injEq] at hlet
    obtain ⟨hid, hrest⟩ := hlet
    unfold optionText
    cases j with
    | zero =>
      simp [List.find?_cons, hid]
    | succ k =>
      have hne : ¬ fromCharCode (65 + i) = fromCharCode (65 + i + (k + 1)) := by
        intro e
        have := fromCharCode_injective _ _ (by omega) hj e
        omega
      have hrec := ih (i + 1) hrest k (by omega)
      unfold optionText at hrec
      have e1 : 65 + (i + 1) + k = 65 + i + (k + 1) := by omega
      rw [e1] at hrec
      simp [List.find?_cons, hid, hne, hrec]

theorem mem_letterIds (i n : Nat) (a : String) (h : a ∈ letterIds i n) :
    ∃ j, j < n ∧ a = fromCharCode (65 + i + j) := by
  unfold letterIds at h
  obtain ⟨k, hk, rfl⟩ := List.mem_map.mp h
  rw [List.mem_range'_1] at hk
  exact ⟨k - i, by omega, by congr 1; omega⟩

theorem getElem?_letterIds (i n j : Nat) (h : j < n) :
    (letterIds i n)[j]? = some (fromCharCode (65 + i + j)) := by
  induction n generalizing i j with
  | zero => omega
  | succ m ih =>
    rw [letterIds_succ]
    cases j with
    | zero => simp
    | succ k =>
      rw [List.getElem?_cons_succ, ih (i + 1) k (by omega)]
      congr 2
      omega

/-- The map of the manual-entry form on the letter of position `j`: the letter
of the position before when `j` lies after `index`, the same letter
otherwise. -/
theorem remapAnswer_letter (index j : Nat) (hj : 65 + j < 55296) :
    ManualEntry.remapAnswer index (fromCharCode (65 + j)) =
      fromCharCode (65 + (if j > index then j - 1 else j)) := by
  unfold ManualEntry.remapAnswer
  rw [charCodeAt0_fromCharCode _ hj]
  simp only
  by_cases h : j > index
  · have h2 : ((65 + j : Nat) : Int) - 65 > (index : Int) := by push_cast; omega
    rw [if_pos h2, if_pos h]
    congr 1
    omega
  · have h2 : ¬ ((65 + j : Nat) : Int) - 65 > (index : Int) := by push_cast; omega
    rw [if_neg h2, if_neg h]


/-- The texts after removing an option are the texts before without the
removed one. -/
theorem map_eraseIdx (f : OptionCell → String) (l : List OptionCell) (k : Nat) :
    (l.eraseIdx k).map f = (l.map f).eraseIdx k := by
  induction l generalizing k with
  | nil => rfl
  | cons o rest ih =>
    cases k with
    | zero => rfl
    | succ m => simp [List.eraseIdx, ih]

/-- C25. Option re-lettering in the manual-entry form: for every option list
lettered contiguously `A`, `B`, `C`, ... with more than 2 (and at most 26)
entries and every index of the list, `removeOption` yields the remaining texts
in their order, lettered contiguously from `A`; for a multiple-choice question
whose selected answers are ids of the options, the answer of the removed option
is dropped and every other answer is remapped (the letter of position `j`
becomes the letter of position `j - 1` when `j` lies after the index, and stays
otherwise), so that it designates the same text as before; removing `B` from
`[A, B, C, D]` with the answers `B`, `C`, `D` leaves the answers `B`, `C`. -/
theorem removeOption_relettered (activeTab : String) (formData : FormData) (index : Nat)
    (hlet : formData.options.map (fun o => o.id) = letterIds 0 formData.options.length)
    (hlen : 2 < formData.options.length) (hmax : formData.options.length ≤ 26)
    (hidx : index < formData.options.length)
    (hans : ∀ a ∈ formData.answers, a ∈ formData.options.map (fun o => o.id)) :
    ∃ next, ManualEntry.removeOption activeTab formData index = some next ∧
      next.options.map (fun o => o.text) =
        (formData.options.map (fun o => o.text)).eraseIdx index ∧
      next.options.map (fun o => o.id) = letterIds 0 (formData.options.length - 1) ∧
      (activeTab = "multiple" →
        next.answers =
          (formData.answers.filter (fun a => a != fromCharCode (65 + index))).map
            (ManualEntry.remapAnswer index) ∧
        (∀ j, j < formData.options.length →
          ManualEntry.remapAnswer index (fromCharCode (65 + j)) =
            fromCharCode (65 + (if j > index then j - 1 else j))) ∧
        ∀ a ∈ formData.answers, a ≠ fromCharCode (65 + index) →
          (optionText formData.options a).isSome = true ∧
          optionText next.options (ManualEntry.remapAnswer index a) =
            optionText formData.options a) ∧
      ManualEntry.removeOption "multiple" ⟨fourOptions, "", ["B", "C", "D"]⟩ 1 =
        some ⟨[⟨"A", "a"⟩, ⟨"B", "c"⟩, ⟨"C", "d"⟩], "", ["B", "C"]⟩ := by
  -- the removed option carries the letter of the index
  have hget : ∃ removed, formData.options[index]? = some removed ∧
      removed.id = fromCharCode (65 + index) := by
    have h1 : (formData.options.map (fun o => o.id))[index]? =
        some (fromCharCode (65 + 0 + index)) := by
      rw [hlet]
      exact getElem?_letterIds 0 _ index hidx
    rw [List.getElem?_map] at h1
    cases ho : formData.options[index]? with
    | none => rw [ho] at h1; simp at h1
    | some removed =>
      rw [ho] at h1
      simp only [Option.map_some', Option.some.injEq] at h1
      exact ⟨removed, rfl, by rw [h1]⟩
  obtain ⟨removed, hrem, hremid⟩ := hget
  have hlen2 : ¬ formData.options.length ≤ 2 := by omega
  have heraselen : (formData.options.eraseIdx index).length = formData.options.length - 1 :=
    List.length_eraseIdx_of_lt hidx
  have hrun : ManualEntry.removeOption activeTab formData index =
      some { formData with
        options := reindexFrom 0 (formData.options.eraseIdx index),
        answer :=
          if activeTab = "single" && formData.answer = removed.id then "" else formData.answer,
        answers :=
          if activeTab = "multiple" then
            (formData.answers.filter (fun a => a != removed.id)).map
              (ManualEntry.remapAnswer index)
          else formData.answers } := by
    simp only [ManualEntry.removeOption, if_neg hlen2, hrem]
  refine ⟨_, hrun, ?_, ?_, ?_, by decide⟩
  · simp only
    rw [reindexFrom_texts, map_eraseIdx]
  · simp only
    rw [reindexFrom_ids, heraselen]
  · intro htab
    simp only [htab, if_true, hremid]
    refine ⟨trivial, ?_, ?_⟩
    · intro j hj
      exact remapAnswer_letter index j (by omega)
    · intro a ha hne
      obtain ⟨j, hj, rfl⟩ := mem_letterIds 0 _ a (hlet ▸ hans a ha)
      have hji : j ≠ index := by
        intro e
        apply hne
        rw [e]
      have hold := optionText_letter 0 formData.options hlet j (by omega)
      rw [hold]
      constructor
      · rw [List.getElem?_map]
        have : j < formData.options.length := hj
        simp [List.getElem?_eq_getElem this]
      · have e0 : 65 + 0 + j = 65 + j := by omega
        rw [e0, remapAnswer_letter index j (by omega)]
        have hnew := optionText_letter 0 (reindexFrom 0 (formData.options.eraseIdx index))
          (by rw [reindexFrom_ids, reindexFrom_length]) (if j > index then j - 1 else j)
          (by split <;> omega)
        have e1 : 65 + 0 + (if j > index then j - 1 else j) =
            65 + (if j > index then j - 1 else j) := by omega
        rw [e1] at hnew
        rw [hnew, reindexFrom_texts, map_eraseIdx, List.getElem?_eraseIdx]
        by_cases hgt : j > index
        · have h1 : ¬ (j - 1 < index) := by omega
          rw [if_pos hgt, if_neg h1]
          congr 1
          omega
        · have h1 : j < index := by omega
          rw [if_neg hgt, if_pos h1]

theorem removeOption_relettered_witness :
    ∃ next, ManualEntry.removeOption "multiple" ⟨fourOptions, "", ["A", "B", "D"]⟩ 1 =
        some next ∧
      next.options.map (fun o => o.text) = ["a", "c", "d"] ∧
      next.options.map (fun o => o.id) = ["A", "B", "C"] ∧
      next.answers = ["A", "C"] := by
  obtain ⟨next, h1, h2, h3, h4, _⟩ :=
    removeOption_relettered "multiple" ⟨fourOptions, "", ["A", "B", "D"]⟩ 1 (by decide)
      (by decide) (by decide) (by decide) (by decide)
  exact ⟨next, h1, h2.trans (by decide), h3.trans (by decide), (h4 rfl).1.trans (by decide)⟩

/-- C30. In the manual-entry form, for a single-choice question with the
options `A` to `D` and the answer `C`, `removeOption(1)` leaves the answer `C`,
which designated the text `c` before and designates the text `d` after; the
same call in the edit dialog remaps the answer to `B`, which designates `c`. -/
theorem removeOption_single_answer_not_remapped :
    ManualEntry.removeOption "single" ⟨fourOptions, "C", []⟩ 1 =
      some ⟨[⟨"A", "a"⟩, ⟨"B", "c"⟩, ⟨"C", "d"⟩], "C", []⟩ ∧
    optionText fourOptions "C" = some "c" ∧
    optionText [⟨"A", "a"⟩, ⟨"B", "c"⟩, ⟨"C", "d"⟩] "C" = some "d" ∧
    QuestionEditDialog.removeOption "single" fourOptions "C" 1 =
      some ([⟨"A", "a"⟩, ⟨"B", "c"⟩, ⟨"C", "d"⟩], "B") ∧
    optionText [⟨"A", "a"⟩, ⟨"B", "c"⟩, ⟨"C", "d"⟩] "B" = some "c" := by
  decide


theorem findOptionIndex_letter (i : Nat) (options : List OptionCell)
    (hlet : options.map (fun o => o.id) = letterIds i options.length) (j : Nat)
    (hj : j < options.length) (hmax : 65 + i + options.length < 55296) :
    findOptionIndex options (fromCharCode (65 + i + j)) = some j := by
  unfold findOptionIndex
  induction options generalizing i j with
  | nil => simp at hj
  | cons o rest ih =>
    rw [List.map_cons, List.length_cons, letterIds_succ, List.cons.injEq] at hlet
    obtain ⟨hid, hrest⟩ := hlet
    simp only [List.length_cons] at hj hmax
    rw [List.findIdx?_cons]
    cases j with
    | zero => simp [hid]
    | succ k =>
      have hne : ¬ fromCharCode (65 + i) = fromCharCode (65 + i + (k + 1)) := by
        intro e
        have := fromCharCode_injective _ _ (by omega) (by omega) e
        omega
      have hrec := ih (i + 1) hrest k (by omega) (by omega)
      have e1 : 65 + (i + 1) + k = 65 + i + (k + 1) := by omega
      rw [e1] at hrec
      simp only [hid, beq_iff_eq, hne, if_false, Bool.false_eq_true]
      rw [List.findIdx?_succ, hrec]
      rfl

/-- In the edit dialog, removing an option keeps a single-choice answer at the
same option: for options lettered contiguously (at most 26) and an answer that
is the letter of a position other than the index, the answer after
`removeOption` designates the text that it designated before. -/
theorem dialog_removeOption_single (options : List OptionCell) (index j : Nat)
    (hlet : options.map (fun o => o.id) = letterIds 0 options.length)
    (hmax : options.length ≤ 26) (hidx : index < options.length) (hj : j < options.length)
    (hji : j ≠ index) :
    ∃ next answer, QuestionEditDialog.removeOption "single" options (fromCharCode (65 + j))
        index = some (next, answer) ∧
      optionText next answer = optionText options (fromCharCode (65 + j)) ∧
      (optionText options (fromCharCode (65 + j))).isSome = true := by
  have hget : ∃ removed, options[index]? = some removed ∧
      removed.id = fromCharCode (65 + index) := by
    have h1 : (options.map (fun o => o.id))[index]? = some (fromCharCode (65 + 0 + index)) := by
      rw [hlet]
      exact getElem?_letterIds 0 _ index hidx
    rw [List.getElem?_map] at h1
    cases ho : options[index]? with
    | none => rw [ho] at h1; simp at h1
    | some removed =>
      rw [ho] at h1
      simp only [Option.map_some', Option.some.injEq] at h1
      exact ⟨removed, rfl, by rw [h1]⟩
  obtain ⟨removed, hrem, hremid⟩ := hget
  have hne : ¬ fromCharCode (65 + j) = removed.id := by
    rw [hremid]
    intro e
    have := fromCharCode_injective _ _ (by omega) (by omega) e
    omega
  have hfind : findOptionIndex options (fromCharCode (65 + j)) = some j := by
    have := findOptionIndex_letter 0 options hlet j hj (by omega)
    have e0 : 65 + 0 + j = 65 + j := by omega
    rwa [e0] at this
  have hrun : QuestionEditDialog.removeOption "single" options (fromCharCode (65 + j)) index =
      some (reindexFrom 0 (options.eraseIdx index),
        fromCharCode (65 + (if j > index then j - 1 else j))) := by
    simp only [QuestionEditDialog.removeOption, if_true, hrem, if_neg hne,
      QuestionEditDialog.remapAnswer, hfind]
    by_cases hgt : j > index
    · rw [if_pos hgt, if_pos hgt]
      congr 3
      omega
    · rw [if_neg hgt, if_neg hgt]
  refine ⟨_, _, hrun, ?_, ?_⟩
  · have hold := optionText_letter 0 options hlet j (by omega)
    have e0 : 65 + 0 + j = 65 + j := by omega
    rw [e0] at hold
    rw [hold]
    have hnew := optionText_letter 0 (reindexFrom 0 (options.eraseIdx index))
      (by rw [reindexFrom_ids, reindexFrom_length]) (if j > index then j - 1 else j)
      (by split <;> omega)
    have e1 : 65 + 0 + (if j > index then j - 1 else j) =
        65 + (if j > index then j - 1 else j) := by omega
    rw [e1] at hnew
    rw [hnew, reindexFrom_texts, map_eraseIdx, List.getElem?_eraseIdx]
    by_cases hgt : j > index
    · have h1 : ¬ (j - 1 < index) := by omega
      rw [if_pos hgt, if_neg h1]
      congr 1
      omega
    · have h1 : j < index := by omega
      rw [if_neg hgt, if_pos h1]
  · have hold := optionText_letter 0 options hlet j (by omega)
    have e0 : 65 + 0 + j = 65 + j := by omega
    rw [e0] at hold
    rw [hold, List.getElem?_map]
    simp [List.getElem?_eq_getElem hj]


/-- In the manual-entry form, for a single-choice question with options
lettered contiguously (more than 2, at most 26) and the answer at position
`j`: removing the option at `index` clears the answer when `j = index`, and
leaves the letter of the answer as it is otherwise; the letter designates the
same text as before when `j < index`, and the text of the option after it (if
there is one) when `j > index`. -/
theorem manual_removeOption_single (formData : FormData) (index j : Nat)
    (hlet : formData.options.map (fun o => o.id) = letterIds 0 formData.options.length)
    (hlen : 2 < formData.options.length) (hmax : formData.options.length ≤ 26)
    (hidx : index < formData.options.length) (hj : j < formData.options.length)
    (hanswer : formData.answer = fromCharCode (65 + j)) :
    ∃ next, ManualEntry.removeOption "single" formData index = some next ∧
      (j = index → next.answer = "") ∧
      (j ≠ index → next.answer = formData.answer) ∧
      (j < index → optionText next.options next.answer =
        optionText formData.options formData.answer) ∧
      (j > index → optionText next.options next.answer =
        (formData.options.map (fun o => o.text))[j + 1]?) := by
  have hget : ∃ removed, formData.options[index]? = some removed ∧
      removed.id = fromCharCode (65 + index) := by
    have h1 : (formData.options.map (fun o => o.id))[index]? =
        some (fromCharCode (65 + 0 + index)) := by
      rw [hlet]
      exact getElem?_letterIds 0 _ index hidx
    rw [List.getElem?_map] at h1
    cases ho : formData.options[index]? with
    | none => rw [ho] at h1; simp at h1
    | some removed =>
      rw [ho] at h1
      simp only [Option.map_some', Option.some.injEq] at h1
      exact ⟨removed, rfl, by rw [h1]⟩
  obtain ⟨removed, hrem, hremid⟩ := hget
  have hlen2 : ¬ formData.options.length ≤ 2 := by omega
  have hrun : ManualEntry.removeOption "single" formData index =
      some { formData with
        options := reindexFrom 0 (formData.options.eraseIdx index),
        answer := if formData.answer = removed.id then "" else formData.answer,
        answers := formData.answers } := by
    simp only [ManualEntry.removeOption, if_neg hlen2, hrem]
    simp
  have hkeep : j ≠ index → ¬ formData.answer = removed.id := by
    intro hji e
    rw [hanswer, hremid] at e
    have := fromCharCode_injective _ _ (by omega) (by omega) e
    omega
  have htext : ∀ k, k < 26 →
      optionText (reindexFrom 0 (formData.options.eraseIdx index)) (fromCharCode (65 + k)) =
        ((formData.options.map (fun o => o.text)).eraseIdx index)[k]? := by
    intro k hk
    have hnew := optionText_letter 0 (reindexFrom 0 (formData.options.eraseIdx index))
      (by rw [reindexFrom_ids, reindexFrom_length]) k (by omega)
    have e1 : 65 + 0 + k = 65 + k := by omega
    rw [e1] at hnew
    rw [hnew, reindexFrom_texts, map_eraseIdx]
  refine ⟨_, hrun, ?_, ?_, ?_, ?_⟩
  · intro hji
    simp only
    rw [if_pos (by rw [hanswer, hremid, hji])]
  · intro hji
    simp only
    rw [if_neg (hkeep hji)]
  · intro hlt
    simp only
    rw [if_neg (hkeep (by omega)), hanswer, htext j (by omega), List.getElem?_eraseIdx,
      if_pos hlt]
    have hold := optionText_letter 0 formData.options hlet j (by omega)
    have e0 : 65 + 0 + j = 65 + j := by omega
    rw [e0] at hold
    rw [hold]
  · intro hgt
    simp only
    have h1 : ¬ j < index := by omega
    rw [if_neg (hkeep (by omega)), hanswer, htext j (by omega), List.getElem?_eraseIdx,
      if_neg h1]

/-- The multiple-choice branch of the edit dialog on the example of the
manual-entry form: removing `B` from `[A, B, C, D]` with the answer `B|C|D`
leaves the answer `B|C`. -/
theorem dialog_removeOption_multiple_example :
    QuestionEditDialog.removeOption "multiple" fourOptions "B|C|D" 1 =
      some ([⟨"A", "a"⟩, ⟨"B", "c"⟩, ⟨"C", "d"⟩], "B|C") := by
  decide


/-! ## CSV export and import -/

/-- The record of an accepted row, field by field. -/
theorem parseRow_ok_data (row : List String) (n : Nat) (q : QuestionData)
    (h : parseRow row n = .ok q) :
    (row.map trimCell).getD 0 "" ≠ "" ∧
    q = ⟨TYPE_MAP ((row.map trimCell).getD 0 ""), (row.map trimCell).getD 1 "",
      (row.map trimCell).getD 8 "",
      if (row.map trimCell).getD 9 "" = "" then none else some ((row.map trimCell).getD 9 ""),
      if (TYPE_MAP ((row.map trimCell).getD 0 "")).eqStr "single" ||
          (TYPE_MAP ((row.map trimCell).getD 0 "")).eqStr "multiple" then
        some (collectOptions (row.map trimCell))
      else none⟩ := by
  unfold parseRow at h
  simp only [] at h
  generalize (List.map trimCell row).getD 0 "" = typeStr at h ⊢
  generalize (List.map trimCell row).getD 1 "" = content at h ⊢
  generalize (List.map trimCell row).getD 8 "" = answer at h ⊢
  generalize (List.map trimCell row).getD 9 "" = analysis at h ⊢
  generalize collectOptions (List.map trimCell row) = options at h ⊢
  by_cases h1 : typeStr = ""
  · simp only [if_pos h1] at h; cases h
  simp only [if_neg h1] at h
  refine ⟨h1, ?_⟩
  by_cases h2 : (!(TYPE_MAP typeStr).truthy) = true
  · simp only [if_pos h2] at h; cases h
  simp only [if_neg h2] at h
  by_cases h3 : content = ""
  · simp only [if_pos h3] at h; cases h
  simp only [if_neg h3] at h
  by_cases h4 : ((TYPE_MAP typeStr).eqStr "single" || (TYPE_MAP typeStr).eqStr "multiple") = true
  · simp only [if_pos h4] at h ⊢
    by_cases h9 : options.length < 2
    · simp only [if_pos h9] at h; cases h
    simp only [if_neg h9] at h
    by_cases h5 : answer = ""
    · simp only [if_pos h5] at h; cases h
    simp only [if_neg h5] at h
    cases hf : firstInvalidAnswer (List.map (fun o => o.id) options)
        (List.map jsTrim (jsSplit answer '|')) with
    | some aid => rw [hf] at h; cases h
    | none =>
      rw [hf] at h
      simp only [] at h
      by_cases h10 : ((TYPE_MAP typeStr).eqStr "single" &&
          decide ((List.map jsTrim (jsSplit answer '|')).length > 1)) = true
      · simp only [if_pos h10] at h; cases h
      simp only [if_neg h10] at h
      cases h
      rfl
  simp only [if_neg h4] at h ⊢
  by_cases h6 : (TYPE_MAP typeStr).eqStr "boolean" = true
  · simp only [if_pos h6] at h
    by_cases h5 : answer = ""
    · simp only [if_pos h5] at h; cases h
    simp only [if_neg h5] at h
    by_cases h11 : (decide (answer ≠ "正确") && decide (answer ≠ "错误")) = true
    · simp only [if_pos h11] at h; cases h
    simp only [if_neg h11] at h
    cases h
    rfl
  simp only [if_neg h6] at h
  by_cases h7 : (TYPE_MAP typeStr).eqStr "fill" = true
  · simp only [if_pos h7] at h
    by_cases h8 : blankCount content = 0
    · simp only [if_pos h8] at h; cases h
    simp only [if_neg h8] at h
    by_cases h5 : answer = ""
    · simp only [if_pos h5] at h; cases h
    simp only [if_neg h5] at h
    by_cases h12 : (jsSplit answer '|').length ≠ blankCount content
    · simp only [if_pos h12] at h; cases h
    simp only [if_neg h12] at h
    cases h
    rfl
  simp only [if_neg h7] at h
  cases h
  rfl

/-- The result of `parseRow` depends on the row through the trimmed cells of
the type, the content, the answer and the analysis, and for a choice type
through the collected options. -/
theorem parseRow_congr (row1 row2 : List String) (n : Nat)
    (h0 : (row2.map trimCell).getD 0 "" = (row1.map trimCell).getD 0 "")
    (h1 : (row2.map trimCell).getD 1 "" = (row1.map trimCell).getD 1 "")
    (h8 : (row2.map trimCell).getD 8 "" = (row1.map trimCell).getD 8 "")
    (h9 : (row2.map trimCell).getD 9 "" = (row1.map trimCell).getD 9 "")
    (hopt : ((TYPE_MAP ((row1.map trimCell).getD 0 "")).eqStr "single" ||
        (TYPE_MAP ((row1.map trimCell).getD 0 "")).eqStr "multiple") = true →
      collectOptions (row2.map trimCell) = collectOptions (row1.map trimCell)) :
    parseRow row2 n = parseRow row1 n := by
  unfold parseRow
  simp only []
  rw [h0, h1, h8, h9]
  generalize (List.map trimCell row1).getD 0 "" = typeStr at hopt ⊢
  generalize (List.map trimCell row1).getD 1 "" = content
  generalize (List.map trimCell row1).getD 8 "" = answer
  generalize (List.map trimCell row1).getD 9 "" = analysis
  by_cases c1 : typeStr = ""
  · simp only [if_pos c1]
  simp only [if_neg c1]
  by_cases c2 : (!(TYPE_MAP typeStr).truthy) = true
  · simp only [if_pos c2]
  simp only [if_neg c2]
  by_cases c3 : content = ""
  · simp only [if_pos c3]
  simp only [if_neg c3]
  by_cases c4 : ((TYPE_MAP typeStr).eqStr "single" || (TYPE_MAP typeStr).eqStr "multiple") = true
  · simp only [if_pos c4]
    rw [hopt c4]
  · simp only [if_neg c4]


theorem trimCell_getD (row : List String) (k : Nat) :
    trimCell ((row.map trimCell).getD k "") = (row.map trimCell).getD k "" := by
  rw [trimCell_eq_jsTrim]
  exact getD_map_trimCell row k

/-- The option columns written by `questionToRow` for the options collected
from a row are the option cells of the row. -/
theorem optionColumn_collectOptions (cells : List String) :
    optionColumn (collectOptions cells) "A" = cells.getD 2 "" ∧
    optionColumn (collectOptions cells) "B" = cells.getD 3 "" ∧
    optionColumn (collectOptions cells) "C" = cells.getD 4 "" ∧
    optionColumn (collectOptions cells) "D" = cells.getD 5 "" ∧
    optionColumn (collectOptions cells) "E" = cells.getD 6 "" ∧
    optionColumn (collectOptions cells) "F" = cells.getD 7 "" := by
  unfold collectOptions
  simp only []
  generalize cells.getD 2 "" = a
  generalize cells.getD 3 "" = b
  generalize cells.getD 4 "" = c
  generalize cells.getD 5 "" = d
  generalize cells.getD 6 "" = e
  generalize cells.getD 7 "" = f
  have hAB : ¬ ("A" : String) = "B" := by decide
  have hAC : ¬ ("A" : String) = "C" := by decide
  have hAD : ¬ ("A" : String) = "D" := by decide
  have hAE : ¬ ("A" : String) = "E" := by decide
  have hAF : ¬ ("A" : String) = "F" := by decide
  have hBA : ¬ ("B" : String) = "A" := by decide
  have hBC : ¬ ("B" : String) = "C" := by decide
  have hBD : ¬ ("B" : String) = "D" := by decide
  have hBE : ¬ ("B" : String) = "E" := by decide
  have hBF : ¬ ("B" : String) = "F" := by decide
  have hCA : ¬ ("C" : String) = "A" := by decide
  have hCB : ¬ ("C" : String) = "B" := by decide
  have hCD : ¬ ("C" : String) = "D" := by decide
  have hCE : ¬ ("C" : String) = "E" := by decide
  have hCF : ¬ ("C" : String) = "F" := by decide
  have hDA : ¬ ("D" : String) = "A" := by decide
  have hDB : ¬ ("D" : String) = "B" := by decide
  have hDC : ¬ ("D" : String) = "C" := by decide
  have hDE : ¬ ("D" : String) = "E" := by decide
  have hDF : ¬ ("D" : String) = "F" := by decide
  have hEA : ¬ ("E" : String) = "A" := by decide
  have hEB : ¬ ("E" : String) = "B" := by decide
  have hEC : ¬ ("E" : String) = "C" := by decide
  have hED : ¬ ("E" : String) = "D" := by decide
  have hEF : ¬ ("E" : String) = "F" := by decide
  have hFA : ¬ ("F" : String) = "A" := by decide
  have hFB : ¬ ("F" : String) = "B" := by decide
  have hFC : ¬ ("F" : String) = "C" := by decide
  have hFD : ¬ ("F" : String) = "D" := by decide
  have hFE : ¬ ("F" : String) = "E" := by decide
  by_cases ha : a = "" <;> by_cases hb : b = "" <;> by_cases hc : c = "" <;>
    by_cases hd : d = "" <;> by_cases he : e = "" <;> by_cases hf : f = "" <;>
    simp [optionColumn, List.filter_cons, ha, hb, hc, hd, he, hf, hAB, hAC, hAD, hAE, hAF, hBA,
      hBC, hBD, hBE, hBF, hCA, hCB, hCD, hCE, hCF, hDA, hDB, hDC, hDE, hDF, hEA, hEB, hEC, hED,
      hEF, hFA, hFB, hFC, hFD, hFE]


theorem TYPE_MAP_eq_str (key t : String) (h : TYPE_MAP key = .str t) :
    (key = "单选题" ∧ t = "single") ∨ (key = "多选题" ∧ t = "multiple") ∨
    (key = "判断题" ∧ t = "boolean") ∨ (key = "填空题" ∧ t = "fill") ∨
    (key = "简答题" ∧ t = "short") := by
  unfold TYPE_MAP at h
  by_cases h1 : key = "单选题"
  · rw [if_pos h1] at h; cases h; exact Or.inl ⟨h1, rfl⟩
  rw [if_neg h1] at h
  by_cases h2 : key = "多选题"
  · rw [if_pos h2] at h; cases h; exact Or.inr (Or.inl ⟨h2, rfl⟩)
  rw [if_neg h2] at h
  by_cases h3 : key = "判断题"
  · rw [if_pos h3] at h; cases h; exact Or.inr (Or.inr (Or.inl ⟨h3, rfl⟩))
  rw [if_neg h3] at h
  by_cases h4 : key = "填空题"
  · rw [if_pos h4] at h; cases h; exact Or.inr (Or.inr (Or.inr (Or.inl ⟨h4, rfl⟩)))
  rw [if_neg h4] at h
  by_cases h5 : key = "简答题"
  · rw [if_pos h5] at h; cases h; exact Or.inr (Or.inr (Or.inr (Or.inr ⟨h5, rfl⟩)))
  rw [if_neg h5] at h
  by_cases h6 : key = "constructor"
  · rw [if_pos h6] at h; cases h
  rw [if_neg h6] at h
  by_cases h7 : key = "__proto__"
  · rw [if_pos h7] at h; cases h
  rw [if_neg h7] at h
  by_cases h8 : objectPrototypeMethods.contains key = true
  · rw [if_pos h8] at h; cases h
  rw [if_neg h8] at h
  cases h

theorem cellsOfValues_strings (cells : List String) :
    cellsOfValues (cells.map JsVal.str) = some cells := by
  induction cells with
  | nil => rfl
  | cons c rest ih => simp [cellsOfValues, cellOfValue, ih]

theorem toStr_str_eq (s : String) : JsVal.toStr (.str s) = some s := by
  simp [JsVal.toStr]

/-- The row written for a record whose type is a string with a label: ten
string cells. -/
theorem questionToRow_of_label (q : QuestionData) (t label : String) (ht : q.type = .str t)
    (hl : TYPE_MAP_REVERSE t = .str label) (hne : label ≠ "") :
    questionToRow q = some (([label, q.content,
      optionColumn (q.options.getD []) "A", optionColumn (q.options.getD []) "B",
      optionColumn (q.options.getD []) "C", optionColumn (q.options.getD []) "D",
      optionColumn (q.options.getD []) "E", optionColumn (q.options.getD []) "F",
      q.answer, q.analysis.getD ""] : List String).map JsVal.str) := by
  unfold questionToRow
  rw [ht, toStr_str_eq]
  simp only [hl]
  have : (JsVal.str label).truthy = true := by simp [JsVal.truthy, hne]
  rw [if_pos this]
  rfl

/-- Export and import of an accepted record whose type is one of the five
types gives the record back. -/
theorem roundTrip_of_type (row : List String) (n m : Nat) (q : QuestionData)
    (h : parseRow row n = .ok q)
    (htype : q.type = .str "single" ∨ q.type = .str "multiple" ∨ q.type = .str "boolean" ∨
      q.type = .str "fill" ∨ q.type = .str "short") :
    roundTrip q m = some (.ok q) := by
  obtain ⟨hne0, hq⟩ := parseRow_ok_data row n q h
  -- the type cell of the row is the label of the type
  have hlabel : ∃ t label, q.type = .str t ∧ TYPE_MAP_REVERSE t = .str label ∧
      label ≠ "" ∧ trimCell label = label ∧ (row.map trimCell).getD 0 "" = label := by
    have hqt : q.type = TYPE_MAP ((row.map trimCell).getD 0 "") := by rw [hq]
    rcases htype with ht | ht | ht | ht | ht
    all_goals
      rw [ht] at hqt
      rcases TYPE_MAP_eq_str _ _ hqt.symm with ⟨hk, hv⟩ | ⟨hk, hv⟩ | ⟨hk, hv⟩ | ⟨hk, hv⟩ | ⟨hk, hv⟩
      all_goals first
        | exact absurd hv (by decide)
        | exact ⟨_, _, ht, rfl, by decide, by decide, hk⟩
  obtain ⟨t, label, ht, hl, hlne, hltrim, hcell0⟩ := hlabel
  have hrow := questionToRow_of_label q t label ht hl hlne
  unfold roundTrip
  rw [hrow]
  rw [Option.some_bind]
  unfold parseRowOfValues
  rw [cellsOfValues_strings, Option.map_some', parseRow_withRow _ n m]
  have hcontent : q.content = (row.map trimCell).getD 1 "" := by rw [hq]
  have hanswer : q.answer = (row.map trimCell).getD 8 "" := by rw [hq]
  have hanalysis : q.analysis.getD "" = (row.map trimCell).getD 9 "" := by
    rw [hq]
    simp only
    by_cases h9 : (row.map trimCell).getD 9 "" = ""
    · rw [if_pos h9, h9]; rfl
    · rw [if_neg h9]; rfl
  have hcong : parseRow [label, q.content,
      optionColumn (q.options.getD []) "A", optionColumn (q.options.getD []) "B",
      optionColumn (q.options.getD []) "C", optionColumn (q.options.getD []) "D",
      optionColumn (q.options.getD []) "E", optionColumn (q.options.getD []) "F",
      q.answer, q.analysis.getD ""] n = parseRow row n := by
    apply parseRow_congr
    · show trimCell label = _
      rw [hltrim, hcell0]
    · show trimCell q.content = _
      rw [hcontent, trimCell_getD]
    · show trimCell q.answer = _
      rw [hanswer, trimCell_getD]
    · show trimCell (q.analysis.getD "") = _
      rw [hanalysis, trimCell_getD]
    · intro hchoice
      have hopts : q.options = some (collectOptions (row.map trimCell)) := by
        rw [hq]
        simp only
        rw [if_pos hchoice]
      rw [hopts]
      simp only [Option.getD_some]
      obtain ⟨hA, hB, hC, hD, hE, hF⟩ := optionColumn_collectOptions (row.map trimCell)
      rw [hA, hB, hC, hD, hE, hF]
      unfold collectOptions
      simp only [List.map_cons, List.map_nil, List.getD_cons_succ, List.getD_cons_zero,
        trimCell_getD]
  rw [hcong, h]
  rfl


theorem roundTrip_of_type_witness :
    ∃ q, parseRow scenarioRow 1 = .ok q ∧ roundTrip q 5 = some (.ok q) :=
  ⟨_, rfl, roundTrip_of_type scenarioRow 1 5 _ rfl (Or.inl rfl)⟩

/-- C29. The row `["constructor", "1+1=?", "", "", "", "", "", "", "2", ""]` is
accepted by `parseRow` with a type that is the function `Object`, which the
type cell resolves to along the prototype chain of `TYPE_MAP`;
`questionToRow` writes that function into the type cell, and `parseRow` of the
exported row throws a `TypeError`, so the round trip gives no record back. -/
theorem roundTrip_throws_on_inherited_type :
    ∃ q, parseRow inheritedTypeRow 2 = .ok q ∧ q.type = .native "Object" true ∧
      questionToRow q = some [.native "Object" true, .str "1+1=?", .str "", .str "", .str "",
        .str "", .str "", .str "", .str "2", .str ""] ∧
      roundTrip q 2 = none :=
  ⟨_, rfl, rfl, rfl, rfl⟩

end QuestionBank
